import Mathlib

set_option linter.unusedSectionVars false

/-!
Shallow embedding of the zk proof-protocol library (multilinear polynomial
engine, univariate polynomials, Fiat-Shamir transcript, sum-check, GKR and
multilinear KZG) over an abstract field `F`.  Multilinear polynomials are
represented by their evaluation list over the Boolean hypercube, exactly as
in `evaluation_form.rs`; the Keccak sponge and the byte serialisation of
field elements are external primitives and are modelled as parameters
(structure `FS`): an arbitrary `squeeze` function from absorbed byte streams
to digests, an arbitrary `toF` mapping digests to field elements, and an
arbitrary `ser` mapping a field element to its byte representation.
Fallible operations (Rust `panic!`) are modelled with `Option`.
-/

namespace ZK

/-- External hash/serialisation model: the Keccak-256 sponge (`squeeze`),
`from_le_bytes_mod_order` (`toF`) and `into_bigint().to_bytes_le()` (`ser`)
are out-of-scope primitives; protocols are parametric in them. -/
structure FS (F : Type) where
  squeeze : List Nat → List Nat
  toF : List Nat → F
  ser : F → List Nat

variable {F : Type} [Field F] [DecidableEq F]

/-- Fuelled floor-log₂ recursion (`ilog2` kernel-reduces on literals;
`log2Fuel_eq` below certifies it equals `Nat.log2` whenever the fuel
suffices). -/
def log2Fuel : Nat → Nat → Nat
  | 0, _ => 0
  | fuel + 1, n => if 2 ≤ n then log2Fuel fuel (n / 2) + 1 else 0

/-- Rust `usize::ilog2`: floor of log₂. -/
def ilog2 (n : Nat) : Nat := log2Fuel n n

/-- Fuelled ceil-log₂ recursion (equals `Nat.clog 2`, see
`clog2Fuel_eq`). -/
def clog2Fuel : Nat → Nat → Nat
  | 0, _ => 0
  | fuel + 1, n => if n ≤ 1 then 0 else clog2Fuel fuel ((n + 1) / 2) + 1

/-- Rust `usize::next_power_of_two`: least power of two that is `≥ n`
(`0 → 1`). -/
def nextPowerOfTwo (n : Nat) : Nat := 2 ^ clog2Fuel n n

/-- `MultiLinearPolynomial::number_of_variables`: `ilog2` of the evaluation
list length. -/
def numVars {α : Type} (t : List α) : Nat := ilog2 t.length

/-- `get_flipped_bit_with_bitwise_or`: sets the bit of the addressed
variable (MSB-first) in a hypercube index. -/
def get_flipped_bit (n varIdx y1 : Nat) : Nat := y1 ||| (1 <<< (n - 1 - varIdx))

/-- The `y1_index` update step of `get_y1_y2_indexes`: skip over the sibling
block when the low `target`-block is exhausted. -/
def y1_next (target y1 : Nat) : Nat :=
  if (y1 + 1) % target == 0 then (y1 ||| target) + 1 else y1 + 1

/-- The successive `y1_index` values visited by `get_y1_y2_indexes`. -/
def y1_iter (target : Nat) : Nat → Nat
  | 0 => 0
  | k + 1 => y1_next target (y1_iter target k)

/-- `MultiLinearPolynomial::get_y1_y2_indexes`: the `(y1, y2)` index pairs
for a variable, `y2` being `y1` with the variable's bit set. -/
def get_y1_y2_indexes {α : Type} (t : List α) (varIdx : Nat) : List (Nat × Nat) :=
  let target := 1 <<< (numVars t - 1 - varIdx)
  (List.range (t.length / 2)).map (fun k => (y1_iter target k, y1_iter target k ||| target))

/-- `MultiLinearPolynomial::partially_evaluate`: fix one variable to `r`,
combining each `(y1, y2)` pair into `y1 + (y2 - y1) * r`. -/
def partially_evaluate (t : List F) (varIdx : Nat) (r : F) : List F :=
  ((get_y1_y2_indexes t varIdx).map
    (fun p => t.getD p.1 0 + (t.getD p.2 0 - t.getD p.1 0) * r)).take (t.length / 2)

/-- `MultiLinearPolynomial::evaluate`: fold partial evaluations over the
set slots, renumbering by the count of already-fixed variables; `none`
models the `panic!` on a length mismatch. -/
def evaluate (t : List F) (points : List (Option F)) : Option (List F) :=
  if points.length ≠ numVars t then none
  else some ((points.enum.foldl
      (fun (s : List F × Nat) ip =>
        match ip.2 with
        | some r => (partially_evaluate s.1 (ip.1 - s.2) r, s.2 + 1)
        | none => s)
      (t, 0)).1)

/-- `MultiLinearPolynomial::evaluation_sum`. -/
def evaluation_sum (t : List F) : F := t.sum

/-- `MultiLinearPolynomial::scalar_mul`. -/
def ml_scalar_mul (t : List F) (s : F) : List F := t.map (· * s)

/-- `MultiLinearPolynomial::_add` (callers guarantee equal variable counts,
where it is elementwise addition; on unequal counts the source panics). -/
def ml_add (a b : List F) : List F := List.zipWith (· + ·) a b

/-- `MultiLinearPolynomial::minus`: subtract a scalar from every
evaluation. -/
def ml_minus (t : List F) (v : F) : List F := t.map (· - v)

/-- `MultiLinearPolynomial::to_bytes`: concatenation of the serialised
evaluations. -/
def mlToBytes (M : FS F) (t : List F) : List Nat := (t.map M.ser).flatten

/-- `Operation` of a circuit gate / of `operate_w`. -/
inductive GOp : Type
  | add : GOp
  | mul : GOp
deriving DecidableEq, Repr

/-- `MultiLinearPolynomial::operate_w`: the joint table of length
`|b| * |c|` whose entry `i` combines `evals_b[i / |b|]` with
`evals_c[i % |c|]`. -/
def operate_w (w_b w_c : List F) (op : GOp) : List F :=
  (List.range (w_b.length * w_c.length)).map (fun i =>
    match op with
    | GOp.add => w_b.getD (i / w_b.length) 0 + w_c.getD (i % w_c.length) 0
    | GOp.mul => w_b.getD (i / w_b.length) 0 * w_c.getD (i % w_c.length) 0)

/-- `MultiLinearPolynomial::w_add`. -/
def w_add (w_b w_c : List F) : List F := operate_w w_b w_c GOp.add

/-- `MultiLinearPolynomial::w_mul` (note: the receiver is passed as the
second argument of `operate_w`). -/
def w_mul (self other : List F) : List F := operate_w other self GOp.mul

/-- `MultiLinearPolynomial::blowup_left`: repeat the whole evaluation list
twice. -/
def blowup_left (t : List F) : List F := t ++ t

/-- `MultiLinearPolynomial::blowup_right`: repeat each evaluation twice
side by side. -/
def blowup_right (t : List F) : List F := (t.map (fun e => [e, e])).flatten

/-- `BlowUpDirection`. -/
inductive BlowUpDirection : Type
  | left : BlowUpDirection
  | right : BlowUpDirection

/-- `MultiLinearPolynomial::blow_up_n_times`. -/
def blow_up_n_times (dir : BlowUpDirection) (n : Nat) (t : List F) : List F :=
  match n with
  | 0 => t
  | k + 1 =>
    match dir with
    | BlowUpDirection.left => blow_up_n_times dir k (blowup_left t)
    | BlowUpDirection.right => blow_up_n_times dir k (blowup_right t)

/-- `MultiLinearPolynomial::compute_quotient_remainder`: quotient entries
`y2 - y1`, remainder the partial evaluation at the divisor. -/
def compute_quotient_remainder (t : List F) (divisor : F) (varIdx : Nat) :
    List F × List F :=
  ((get_y1_y2_indexes t varIdx).map (fun p => t.getD p.2 0 - t.getD p.1 0),
    partially_evaluate t varIdx divisor)

/-- `UnivariatePolynomial::evaluate`: running-product (Horner-equivalent)
evaluation of a dense coefficient list. -/
def uEvaluate (coeffs : List F) (x : F) : F :=
  (coeffs.foldl (fun (s : F × F) c => (s.1 + c * s.2, s.2 * x)) (0, 1)).1

/-- `UnivariatePolynomial::evaluate_sum_over_boolean_hypercube`. -/
def uSumHypercube (coeffs : List F) : F := uEvaluate coeffs 0 + uEvaluate coeffs 1

/-- `UnivariatePolynomial::scalar_mul`. -/
def uScalarMul (coeffs : List F) (num : F) : List F := coeffs.map (· * num)

/-- `UnivariatePolynomial::_add`: note the source truncates to the
`min` of the two lengths (`max_len = cmp::min(len_1, len_2)`). -/
def uAdd (a b : List F) : List F :=
  (List.range (min a.length b.length)).map (fun i => a.getD i 0 + b.getD i 0)

/-- `UnivariatePolynomial::_mul`: dense convolution of length
`len_1 + len_2 - 1`; the source's greater/lesser swap only reorders the
summands of each entry. -/
def uMul (a b : List F) : List F :=
  (List.range (a.length + b.length - 1)).map (fun k =>
    ((List.range b.length).map (fun j =>
      if j ≤ k ∧ k - j < a.length then a.getD (k - j) 0 * b.getD j 0 else 0)).sum)

/-- `UnivariatePolynomial::interpolate`: Lagrange interpolation through
`(x_i, y_i)`, accumulating `numerator_i * (y_i / denominator_i)` with the
source's polynomial `_mul`/`_add`/`scalar_mul`. -/
def interpolate (xs ys : List F) : List F :=
  (List.range xs.length).foldl
    (fun res i =>
      let numerator := (List.range xs.length).foldl
        (fun acc j => if i = j then acc else uMul acc [-(xs.getD j 0), 1]) [1]
      let denominator := (List.range xs.length).foldl
        (fun acc j => if i = j then acc else acc * (xs.getD i 0 - xs.getD j 0)) 1
      uAdd res (uScalarMul numerator (ys.getD i 0 / denominator)))
    (List.replicate xs.length 0)

/-- `UnivariatePolynomial::to_bytes`. -/
def uToBytes (M : FS F) (coeffs : List F) : List Nat := (coeffs.map M.ser).flatten

/-! ### Fiat-Shamir transcripts

The `fiat_shamir` crate's `Transcript` wraps an incremental Keccak-256
sponge; absorbing is associative concatenation of byte streams, so the
state is modelled as the list of all absorbed bytes.  `sample_challenge`
finalises a clone of the sponge (`squeeze` of the absorbed stream), maps
the digest to a field element and re-absorbs the digest.  The draft
transcript in `src/src/concepts_protocols/fiat_shamier/transcript.rs`
differs: its `sample_challenge` takes `&self` and does not re-absorb. -/

/-- Transcript state: concatenation of all absorbed bytes. -/
abbrev TS := List Nat

/-- `Transcript::append`. -/
def ts_append (s : TS) (d : List Nat) : TS := s ++ d

/-- `Transcript::append_n`. -/
def ts_append_n (s : TS) (ds : List (List Nat)) : TS := ds.foldl ts_append s

/-- `Transcript::sample_challenge` (fiat_shamir crate): squeeze the digest,
convert to a field element, and re-absorb the digest. -/
def sample_challenge (M : FS F) (s : TS) : F × TS :=
  let d := M.squeeze s
  (M.toF d, s ++ d)

/-- `Transcript::sample_n_challenges`. -/
def sample_n_challenges (M : FS F) (n : Nat) (s : TS) : List F × TS :=
  match n with
  | 0 => ([], s)
  | n + 1 =>
    let (c, s') := sample_challenge M s
    let (cs, s'') := sample_n_challenges M n s'
    (c :: cs, s'')

/-- `Transcript::sample_challenge` of the draft transcript
(`concepts_protocols/fiat_shamier`): squeezes without re-absorbing. -/
def draft_sample_challenge (M : FS F) (s : TS) : F := M.toF (M.squeeze s)

/-! ### Sum-check -/

/-- `SumCheckProof` (sumcheck crate; the draft crate's struct is
identical): claimed sum plus one univariate per round. -/
structure SumCheckProof (F : Type) where
  initial_claim_sum : F
  round_polys : List (List F)

/-- Round loop of `SumcheckVerifier::partial_verify` (sumcheck crate):
checks `g(0) + g(1)` against the running claim, absorbs
`claim ‖ g`, squeezes the round challenge and updates the claim to
`g(challenge)`; returns the flag, the final claim, the accumulated
challenges and the transcript. -/
def pv_go (M : FS F) :
    List (List F) → F → List (Option F) → TS → Bool × F × List (Option F) × TS
  | [], σ, acc, ts => (true, σ, acc, ts)
  | g :: rest, σ, acc, ts =>
    if uSumHypercube g ≠ σ then (false, σ, acc, ts)
    else
      let ts1 := ts_append_n ts [M.ser σ, uToBytes M g]
      let (c, ts2) := sample_challenge M ts1
      pv_go M rest (uEvaluate g c) (acc ++ [some c]) ts2

/-- `SumcheckVerifier::partial_verify` (sumcheck crate). -/
def partial_verify (M : FS F) (proof : SumCheckProof F) (ts : TS) :
    Bool × F × List (Option F) × TS :=
  pv_go M proof.round_polys proof.initial_claim_sum [] ts

/-- `SumcheckVerifier::perform_oracle_check` (sumcheck crate): `none`
models the `panic!` inside `MultiLinearPolynomial::evaluate` (and the
`unwrap`) when the challenge count does not match the variable count. -/
def perform_oracle_check (f : List F) (challenges : List (Option F)) (final : F) :
    Option Bool :=
  (evaluate f challenges).bind (fun l => l.head?.map (fun v => v = final))

/-- `SumcheckVerifier::verify_proof` (sumcheck crate): fresh transcript
seeded with the polynomial bytes, initial-sum check, round checks, then
the oracle check — rejecting outright when there is no last round
polynomial. -/
def verify_proof (M : FS F) (f : List F) (proof : SumCheckProof F) : Option Bool :=
  let ts0 := ts_append [] (mlToBytes M f)
  if evaluation_sum f ≠ proof.initial_claim_sum then some false
  else
    let r := partial_verify M proof ts0
    if !r.1 then some false
    else
      match proof.round_polys.getLast? with
      | some _ => perform_oracle_check f r.2.2.1 r.2.1
      | none => some false

/-- Round loop of the draft `SumcheckProver::generate_round_polys`
(`src/src/concepts_protocols/sumcheck/prover.rs`, multilinear branch, the
only branch reachable from `generate_sumcheck_proof`): split the table in
half along the most significant variable, sum the halves, interpolate
through `(0, e0), (1, e1)`, absorb `claimed ‖ g`, squeeze with the draft
(non-re-absorbing) transcript and fix the first variable to the
challenge. -/
def draft_gen_rounds (M : FS F) : Nat → List F → TS → List (List F)
  | 0, _, _ => []
  | k + 1, t, ts =>
    let e0 := (t.take (t.length / 2)).sum
    let e1 := (t.drop (t.length / 2)).sum
    let g := interpolate [(0 : F), 1] [e0, e1]
    let ts1 := ts_append (ts_append ts (M.ser (e0 + e1))) (uToBytes M g)
    let ch := draft_sample_challenge M ts1
    let t' := (evaluate t (some ch :: List.replicate (numVars t - 1) none)).getD []
    g :: draft_gen_rounds M k t' ts1

/-- Draft `SumcheckProver::generate_sumcheck_proof`: fresh transcript
seeded with the polynomial bytes; claims the evaluation sum. -/
def draft_generate_sumcheck_proof (M : FS F) (t : List F) : SumCheckProof F :=
  let ts0 := ts_append [] (mlToBytes M t)
  { initial_claim_sum := evaluation_sum t
    round_polys := draft_gen_rounds M (numVars t) t ts0 }

/-! ### Sum / product polynomials

A `ProductPolynomial` is a list of multilinear evaluation tables of a
common length; a `SumPolynomial` is a list of product polynomials.  The
`polynomials` crate's `product_polynomial.rs` is not among the sources;
its operations are modelled from the spec (section 3 and 4.3) and from the
structurally identical draft `src/src/polynomials/product_polynomial.rs`. -/

/-- `ProductPolynomial::partial_evaluate`: evaluate each factor at the
point list (the source panics when the point count mismatches, which
`evaluate` models by `none`; call sites guarantee a match). -/
def pp_partial_evaluate (pp : List (List F)) (pts : List (Option F)) : List (List F) :=
  pp.map (fun t => (evaluate t pts).getD [])

/-- `ProductPolynomial::reduce`: elementwise product of the factors. -/
def pp_reduce (pp : List (List F)) : List F :=
  (List.range (pp.headD []).length).map (fun i => (pp.map (fun t => t.getD i 0)).prod)

/-- `SumPolynomial::partial_evaluate`. -/
def sp_partial_evaluate (sp : List (List (List F))) (pts : List (Option F)) :
    List (List (List F)) :=
  sp.map (fun pp => pp_partial_evaluate pp pts)

/-- `SumPolynomial::length` (= `get_poly_length` of the first product). -/
def sp_length (sp : List (List (List F))) : Nat := ((sp.headD []).headD []).length

/-- `SumPolynomial::reduce`: elementwise sum of the reduced products. -/
def sp_reduce (sp : List (List (List F))) : List F :=
  (List.range (sp_length sp)).map (fun i => (sp.map (fun pp => (pp_reduce pp).getD i 0)).sum)

/-- `SumPolynomial::number_of_variables`. -/
def sp_num_vars (sp : List (List (List F))) : Nat := ilog2 (sp_length sp)

/-- Modelled from the spec: the sumcheck crate's prover round loop
(`src/sumcheck/src/prover.rs` is absent from the sources; only its
verifier, its tests and the GKR call sites are present).  Per spec
section 4.3 and the structurally parallel draft prover, round `k` for a
sum polynomial partially evaluates the first variable at `0..=degree`,
reduces and sums to obtain the claimed univariate values, interpolates
them at those nodes, absorbs `claimed_sum ‖ g_k` into the re-absorbing
fiat_shamir transcript, squeezes the round challenge and fixes the first
variable to it. -/
def sc_prover_rounds (M : FS F) :
    Nat → List (List (List F)) → TS → List (List F) × List F × TS
  | 0, _, ts => ([], [], ts)
  | k + 1, sp, ts =>
    let d := sp.length
    let nv := sp_num_vars sp
    let evals := (List.range (d + 1)).map (fun i =>
      (sp_reduce (sp_partial_evaluate sp
        (some ((i : Nat) : F) :: List.replicate (nv - 1) none))).sum)
    let claimed := evals.getD 0 0 + evals.getD 1 0
    let g := interpolate ((List.range (d + 1)).map (fun i => ((i : Nat) : F))) evals
    let ts1 := ts_append (ts_append ts (M.ser claimed)) (uToBytes M g)
    let (ch, ts2) := sample_challenge M ts1
    let sp' := sp_partial_evaluate sp (some ch :: List.replicate (nv - 1) none)
    let r := sc_prover_rounds M k sp' ts2
    (g :: r.1, ch :: r.2.1, r.2.2)

/-- Modelled from the spec: `SumcheckProver::generate_proof_for_partial_verify`
of the sumcheck crate — runs the round loop on the given transcript and
pairs the supplied claim with the round polynomials and the sampled
challenges. -/
def generate_proof_for_partial_verify (M : FS F) (initial_claim_sum : F)
    (sp : List (List (List F))) (ts : TS) : SumCheckProof F × List F × TS :=
  let r := sc_prover_rounds M (sp_num_vars sp) sp ts
  ({ initial_claim_sum := initial_claim_sum, round_polys := r.1 }, r.2.1, r.2.2)

/-! ### Arithmetic circuit -/

/-- `Gate`: two input wire indices into the layer below and an
operation. -/
structure CGate : Type where
  left : Nat
  right : Nat
  op : GOp
deriving DecidableEq, Repr

/-- `Circuit`: layers as stored by `Circuit::new` — the input-adjacent
layer first, the output layer last. -/
abbrev Circuit := List (List CGate)

/-- Output wire of one gate given the wires of the layer below. -/
def gate_output (running_inputs : List F) (g : CGate) : F :=
  match g.op with
  | GOp.add => running_inputs.getD g.left 0 + running_inputs.getD g.right 0
  | GOp.mul => running_inputs.getD g.left 0 * running_inputs.getD g.right 0

/-- One layer step of `Circuit::evaluate_at_input`: wires padded with
zeros to `max(next_power_of_two(gate_count), 2)`. -/
def layer_eval (gates : List CGate) (running_inputs : List F) : List F :=
  (List.range (max (nextPowerOfTwo gates.length) 2)).map (fun idx =>
    match gates.get? idx with
    | some g => gate_output running_inputs g
    | none => 0)

/-- `Circuit::evaluate_at_input`: the per-layer evaluation tables, input
table first, output table last. -/
def evaluate_at_input (layers : Circuit) (inputs : List F) : List (List F) :=
  (layers.foldl (fun (s : List (List F) × List F) gates =>
    let next := layer_eval gates s.2
    (s.1 ++ [next], next)) ([inputs], inputs)).1

/-- `Circuit::get_bit_idx`: packed `(output ‖ left ‖ right)` index. -/
def get_bit_idx (output_idx left_idx right_idx input_bit_repr : Nat) : Nat :=
  (((output_idx <<< input_bit_repr) ||| left_idx) <<< input_bit_repr) ||| right_idx

/-- `Circuit::match_gate_condition`. -/
def match_gate_condition (g : CGate) (cond : GOp) : Bool :=
  match g.op, cond with
  | GOp.add, GOp.add => true
  | GOp.mul, GOp.mul => true
  | _, _ => false

/-- Padded output length of a layer inside `get_gate_poly`
(`next_power_of_two`, doubled when it is 1). -/
def sel_out_len (gates : List CGate) : Nat :=
  if nextPowerOfTwo gates.length = 1 then 2 * nextPowerOfTwo gates.length
  else nextPowerOfTwo gates.length

/-- Input bit width inside `get_gate_poly`: `ilog2` of the next power of
two of the maximal referenced input index + 1 (the source unwraps the
maximum, panicking on an empty layer; claims hypothesise non-empty
layers). -/
def sel_in_bits (gates : List CGate) : Nat :=
  ilog2 (nextPowerOfTwo
    ((gates.map (fun g => max (g.left + 1) (g.right + 1))).foldr max 0))

/-- `Circuit::get_gate_poly` for a layer index counted from the output
side: zeros with a 1 at the packed index of every gate matching the
condition. -/
def get_gate_poly (layers : Circuit) (layer_idx : Nat) (cond : GOp) : List F :=
  let gates := layers.getD (layers.length - layer_idx - 1) []
  let ib := sel_in_bits gates
  gates.enum.foldl
    (fun acc p =>
      if match_gate_condition p.2 cond then
        acc.set (get_bit_idx p.1 p.2.left p.2.right ib) 1
      else acc)
    (List.replicate (sel_out_len gates * (1 <<< (2 * ib))) 0)

/-- `Circuit::get_w_i`: layer table counted from the output side (the
source panics when the index is out of bounds; call sites stay in
bounds). -/
def get_w_i (layer_idx : Nat) (evals : List (List F)) : List F :=
  evals.getD (evals.length - layer_idx - 1) []

/-! ### GKR -/

/-- `GKRProof`. -/
structure GKRProof (F : Type) where
  output_poly : List F
  w_polys_evals : List (F × F)
  sumcheck_proofs : List (SumCheckProof F)

/-- `get_folded_claim_sum` (gkr utils): `α·W(rb) + β·W(rc)`. -/
def get_folded_claim_sum (alpha beta u v : F) : F := u * alpha + v * beta

/-- Point list used by `get_folded_polys`: the r-slice padded with `None`
up to the selector's variable count. -/
def folded_points (n : Nat) (r : List (Option F)) : List (Option F) :=
  (List.range n).map (fun idx => if idx < r.length then r.getD idx none else none)

/-- `get_folded_polys` (gkr utils): `α·muli(rb,·,·) + β·muli(rc,·,·)` and
likewise for addi. -/
def get_folded_polys (alpha beta : F) (muli addi : List F)
    (r_b r_c : List (Option F)) : List F × List F :=
  let prb := folded_points (numVars muli) r_b
  let prc := folded_points (numVars muli) r_c
  (ml_add (ml_scalar_mul ((evaluate muli prb).getD []) alpha)
      (ml_scalar_mul ((evaluate muli prc).getD []) beta),
    ml_add (ml_scalar_mul ((evaluate addi prb).getD []) alpha)
      (ml_scalar_mul ((evaluate addi prc).getD []) beta))

/-- `get_evaluated_muli_addi_at_a` (gkr utils): partially evaluate the
selectors at the `a`-prefix. -/
def get_evaluated_muli_addi_at_a (muli addi : List F)
    (random_values : List (Option F)) : List F × List F :=
  ((evaluate muli (folded_points (numVars muli) random_values)).getD [],
    (evaluate addi (folded_points (numVars addi) random_values)).getD [])

/-- The `f(b,c)` sum polynomial built by the GKR prover:
`new_muli·(W⊗W) + new_addi·(W⊕W)`. -/
def gkr_f_b_c (new_muli new_addi next_w_i : List F) : List (List (List F)) :=
  [[new_muli, w_mul next_w_i next_w_i], [new_addi, w_add next_w_i next_w_i]]

/-- Layer loop of `GKRProver::generate_proof`: claim `W₀(r)` at the output
layer, α/β-folded claims below it, a sum-check per layer; returns the
`(W(rb), W(rc))` pairs, the sum-check proofs and the final transcript. -/
def gkr_prover_loop (M : FS F) (layers : Circuit) (evals : List (List F)) :
    Nat → Nat → List (Option F) → List F → TS →
      List (F × F) × List (SumCheckProof F) × TS
  | 0, _, _, _, ts => ([], [], ts)
  | fuel + 1, layer_idx, random_values, running, ts =>
    let muli := get_gate_poly layers layer_idx GOp.mul
    let addi := get_gate_poly layers layer_idx GOp.add
    let step : F × List F × List F × List (F × F) × TS :=
      match layer_idx with
      | 0 =>
        let pair := get_evaluated_muli_addi_at_a muli addi random_values
        let claim := ((evaluate running random_values).getD []).headD 0
        (claim, pair.1, pair.2, [], ts)
      | _ + 1 =>
        let r_b := random_values.take (random_values.length / 2)
        let r_c := random_values.drop (random_values.length / 2)
        let u := ((evaluate running r_b).getD []).headD 0
        let v := ((evaluate running r_c).getD []).headD 0
        let ts1 := ts_append_n ts [M.ser u, M.ser v]
        let (alpha, ts2) := sample_challenge M ts1
        let (beta, ts3) := sample_challenge M ts2
        let pair := get_folded_polys alpha beta muli addi r_b r_c
        (get_folded_claim_sum alpha beta u v, pair.1, pair.2, [(u, v)], ts3)
    let next_w_i := get_w_i (layer_idx + 1) evals
    let f_b_c := gkr_f_b_c step.2.1 step.2.2.1 next_w_i
    let sc := generate_proof_for_partial_verify M step.1 f_b_c step.2.2.2.2
    let rest := gkr_prover_loop M layers evals fuel (layer_idx + 1)
      (sc.2.1.map some) next_w_i sc.2.2
    (step.2.2.2.1 ++ rest.1, sc.1 :: rest.2.1, rest.2.2)

/-- `GKRProver::generate_proof`: evaluate the circuit, commit the output
table to the transcript, sample the initial `r`s and run the layer
loop. -/
def gkr_generate_proof (M : FS F) (layers : Circuit) (ts : TS) (inputs : List F) :
    GKRProof F × TS :=
  let evals := evaluate_at_input layers inputs
  let w0 := get_w_i 0 evals
  let ts0 := ts_append ts (mlToBytes M w0)
  let rs := sample_n_challenges M (numVars w0) ts0
  let r := gkr_prover_loop M layers evals layers.length 0 (rs.1.map some) w0 rs.2
  ({ output_poly := w0, w_polys_evals := r.1, sumcheck_proofs := r.2.1 }, r.2.2)

/-- The tail of a `GKRVerifier::verify_proof` layer iteration past the
per-layer selector folding, for a resolved sum-check proof `scp`:
partially verify it, evaluate the folded selectors `nm`/`na` at the
sum-check challenges, resolve the `(W(rb), W(rc))` pair (from the inputs
on the last layer, from the proof otherwise), check the `f(b,c)`
consistency equation and continue with `k`. -/
def gkr_check_core (M : FS F) (layers : Circuit) (inputs : List F)
    (proof : GKRProof F) (layer_idx : Nat) (nm na : List F) (ts2 : TS)
    (k : List (Option F) → TS → Option Bool) (scp : SumCheckProof F) :
    Option Bool :=
  (evaluate na (partial_verify M scp ts2).2.2.1).bind (fun ea =>
  (evaluate nm (partial_verify M scp ts2).2.2.1).bind (fun em =>
  ea.head?.bind (fun addi_eval =>
  em.head?.bind (fun muli_eval =>
  (if layer_idx + 1 = layers.length then
      (evaluate inputs ((partial_verify M scp ts2).2.2.1.take
        ((partial_verify M scp ts2).2.2.1.length / 2))).bind (fun eb =>
      (evaluate inputs ((partial_verify M scp ts2).2.2.1.drop
        ((partial_verify M scp ts2).2.2.1.length / 2))).bind (fun ec =>
      eb.head?.bind (fun u => ec.head?.map (fun v => (u, v)))))
    else proof.w_polys_evals.get? layer_idx).bind (fun wpair =>
  if !(partial_verify M scp ts2).1 ||
      addi_eval * (wpair.1 + wpair.2) + muli_eval * (wpair.1 * wpair.2) ≠
        (partial_verify M scp ts2).2.1 then some false
  else k (partial_verify M scp ts2).2.2.1
    (ts_append_n (partial_verify M scp ts2).2.2.2
      [M.ser wpair.1, M.ser wpair.2]))))))

/-- Same tail including the lookup of the layer's sum-check proof
(`none` models the index panic). -/
def gkr_check_rest (M : FS F) (layers : Circuit) (inputs : List F)
    (proof : GKRProof F) (layer_idx : Nat) (nm na : List F) (ts2 : TS)
    (k : List (Option F) → TS → Option Bool) : Option Bool :=
  match proof.sumcheck_proofs.get? layer_idx with
  | none => none
  | some scp => gkr_check_core M layers inputs proof layer_idx nm na ts2 k scp

/-- Layer loop of `GKRVerifier::verify_proof`; `none` models the panics
(out-of-bounds proof lists, mismatched evaluation lengths). -/
def gkr_verify_loop (M : FS F) (layers : Circuit) (inputs : List F)
    (proof : GKRProof F) :
    Nat → Nat → List (Option F) → TS → Option Bool
  | 0, _, _, _ => some true
  | fuel + 1, layer_idx, random_values, ts =>
    let muli := get_gate_poly layers layer_idx GOp.mul
    let addi := get_gate_poly layers layer_idx GOp.add
    let step : List F × List F × TS :=
      match layer_idx with
      | 0 =>
        let pair := get_evaluated_muli_addi_at_a muli addi random_values
        (pair.1, pair.2, ts)
      | _ + 1 =>
        let (alpha, ts1) := sample_challenge M ts
        let (beta, ts2) := sample_challenge M ts1
        let pair := get_folded_polys alpha beta muli addi
          (random_values.take (random_values.length / 2))
          (random_values.drop (random_values.length / 2))
        (pair.1, pair.2, ts2)
    gkr_check_rest M layers inputs proof layer_idx step.1 step.2.1 step.2.2
      (gkr_verify_loop M layers inputs proof fuel (layer_idx + 1))

/-- `GKRVerifier::verify_proof`: mirrors the prover's transcript schedule,
using the proof's output polynomial. -/
def gkr_verify_proof (M : FS F) (inputs : List F) (layers : Circuit) (ts : TS)
    (proof : GKRProof F) : Option Bool :=
  let ts0 := ts_append ts (mlToBytes M proof.output_poly)
  let rs := sample_n_challenges M (numVars proof.output_poly) ts0
  gkr_verify_loop M layers inputs proof layers.length 0 (rs.1.map some) rs.2

/-! ### Multilinear KZG

The pairing groups G1, G2 and Gt are cyclic of prime order `|F|` (the
scalar field); group elements are modelled by their discrete logarithms in
`F`, group addition by field addition, `mul_bigint` of a scalar by field
multiplication, and the pairing by multiplication of exponents.  This is
exact: the code treats the groups through these operations and equality
only. -/

/-- `MultilinearKZGProof`: commitment, claimed value and the per-variable
quotient commitments. -/
structure MultilinearKZGProof (F : Type) where
  commitment : F
  v : F
  q_taus : List F

/-- `MultilinearKZGProver::evaluate_at_tau`: inner product of a table with
the encrypted Lagrange basis; `none` models the length-mismatch panic. -/
def evaluate_at_tau (poly basis : List F) : Option F :=
  if poly.length ≠ basis.length then none
  else some (((List.range basis.length).map
    (fun i => basis.getD i 0 * poly.getD i 0)).sum)

/-- `MultilinearKZGProver::generate_commitment`. -/
def generate_commitment (f basis : List F) : Option F := evaluate_at_tau f basis

/-- The quotient loop of `MultilinearKZGProver::generate_proof`: divide by
`(x₀ - opening)`, blow the quotient up on the left by
`max(idx + 1, n - ilog2 (len q))`, commit it, and continue with the
remainder. -/
def kzg_quotients (basis : List F) (n : Nat) :
    List F → Nat → List F → Option (List F)
  | [], _, _ => some []
  | opening :: rest, idx, dividend =>
    let qr := compute_quotient_remainder dividend opening 0
    let q := blow_up_n_times BlowUpDirection.left
      (max (idx + 1) (n - ilog2 qr.1.length)) qr.1
    (evaluate_at_tau q basis).bind (fun qt =>
      (kzg_quotients basis n rest (idx + 1) qr.2).map (fun qs => qt :: qs))

/-- `MultilinearKZGProver::generate_proof`. -/
def kzg_generate_proof (openings basis poly : List F) :
    Option (MultilinearKZGProof F) :=
  (generate_commitment poly basis).bind (fun commitment =>
  (evaluate poly (openings.map some)).bind (fun vl =>
  vl.head?.bind (fun v =>
  (kzg_quotients basis openings.length openings 0 (ml_minus poly v)).map
    (fun qs => ⟨commitment, v, qs⟩))))

/-- `MultilinearKZGVerifier::verify_proof` in exponents: the pairing check
`e(C - g1^v, g2^1) = Π e(q_j, g2^{τ_j} - g2^{a_j})` becomes
`(C - v) * 1 = Σ q_j * (τ_j - a_j)` (the source indexes `encrypted_taus`
and `openings` by the proof's quotient positions). -/
def kzg_verify_proof (proof : MultilinearKZGProof F) (openings : List F)
    (encrypted_taus : List F) : Bool :=
  let lhs := (proof.commitment - proof.v) * 1
  let rhs := (proof.q_taus.enum.map
    (fun p => p.2 * (encrypted_taus.getD p.1 0 - openings.getD p.1 0))).sum
  lhs = rhs

/-- `generate_lagrange_basis_for_n_variables` (kzg utils): entry `i` is the
product over the τs of `τ_j` or `1 - τ_j` according to bit `j` of `i`
(MSB first).  The source panics when `n ≠ taus.length`; the trusted setup
always passes `n = taus.length`. -/
def generate_lagrange_basis (n : Nat) (taus : List F) : List F :=
  (List.range (1 <<< n)).map (fun i =>
    (taus.enum.map (fun p =>
      if (i / (1 <<< (n - p.1 - 1))) % 2 = 0 then 1 - p.2 else p.2)).prod)

/-- `TrustedSetup::new` in exponents: the encrypted Lagrange basis is the
basis itself, the encrypted taus are the taus themselves. -/
def trusted_setup_basis (taus : List F) : List F :=
  generate_lagrange_basis taus.length taus

/-! ### Verification-side helper definitions -/

/-- Concrete prime field `𝔽₅` for closed witnesses and counterexamples,
with a kernel-computable inverse (`a⁻¹ = a³`). -/
abbrev F5 := Fin 5

instance : Field F5 where
  inv a := a ^ 3
  div a b := a * b ^ 3
  div_eq_mul_inv := fun _ _ => rfl
  exists_pair_ne := ⟨0, 1, by decide⟩
  mul_inv_cancel := by decide
  inv_zero := by decide
  nnqsmul := _
  nnqsmul_def := fun _ _ => rfl
  qsmul := _
  qsmul_def := fun _ _ => rfl

/-- A concrete sponge/serialisation instance over `F5`: any deterministic
squeeze/to-field/serialise triple is a valid instantiation of the opaque
Keccak-based primitives. -/
def Mw : FS F5 where
  squeeze := fun l => [(l.foldl (fun a b => a * 131 + b + 7) 3) % 256]
  toF := fun l => ((l.foldl (fun a b => a * 256 + b) 0 : Nat) : F5)
  ser := fun x => [x.val]

/-- Reference form of fixing the most significant variable: pair entry `k`
of the first half with entry `k + len/2` of the second half. -/
def pairCombine (t : List F) (r : F) : List F :=
  (List.range (t.length / 2)).map
    (fun k => t.getD k 0 + (t.getD (k + t.length / 2) 0 - t.getD k 0) * r)

/-- Iterated fixing of the first variable, as `evaluate` performs it on a
fully- or prefix-set point list. -/
def chain (t : List F) (rs : List F) : List F :=
  rs.foldl (fun acc r => partially_evaluate acc 0 r) t

/-- Same chain expressed through `pairCombine` (they agree on power-of-two
lengths). -/
def chainP (t : List F) (rs : List F) : List F :=
  rs.foldl (fun acc r => pairCombine acc r) t

/-- The multilinear-extension value of a table at a point: head of the
fully evaluated chain. -/
def evalChain (t : List F) (rs : List F) : F := (chainP t rs).headD 0

/-- Reference tensor of two tables: entry `i * |b| + j` is
`a[i] ⊕ b[j]`. -/
def tpro (a b : List F) (op : GOp) : List F :=
  (List.range (a.length * b.length)).map (fun i =>
    match op with
    | GOp.add => a.getD (i / b.length) 0 + b.getD (i % b.length) 0
    | GOp.mul => a.getD (i / b.length) 0 * b.getD (i % b.length) 0)

/-- Hypercube index with a zero bit removed at position `p` (the output
position used by `partially_evaluate` for the pair at `i₀`). -/
def compressIdx (p i : Nat) : Nat := i / 2 ^ (p + 1) * 2 ^ p + i % 2 ^ p

/-- One absorption call against a transcript: `Transcript::append` or
`Transcript::append_n`. -/
inductive TOp : Type
  | app : List Nat → TOp
  | appN : List (List Nat) → TOp

/-- Run a sequence of absorption calls against a transcript state. -/
def runOps (ops : List TOp) (s : TS) : TS :=
  ops.foldl (fun st op =>
    match op with
    | TOp.app d => ts_append st d
    | TOp.appN ds => ts_append_n st ds) s

/-- The concatenation of all bytes a sequence of absorption calls
absorbs, forgetting how they were split across calls. -/
def opsBytes (ops : List TOp) : List Nat :=
  (ops.map (fun op =>
    match op with
    | TOp.app d => d
    | TOp.appN ds => ds.flatten)).flatten

/-- Entry `i` of the Lagrange basis for the point list `xs` (the map body
of `generate_lagrange_basis_for_n_variables` at `n = |xs|`). -/
def lagEntry (xs : List F) (i : Nat) : F :=
  (xs.enum.map (fun p =>
    if (i / (1 <<< (xs.length - p.1 - 1))) % 2 = 0 then 1 - p.2 else p.2)).prod

/-- Inner product of a table against the Lagrange basis at `xs` — the sum
`evaluate_at_tau` computes against the trusted-setup basis. -/
def lagSum (xs t : List F) : F :=
  ((List.range (2 ^ xs.length)).map (fun i => lagEntry xs i * t.getD i 0)).sum

/-- Pointwise-product sum of two equal-length tables: the boolean
hypercube sum of a two-factor product polynomial. -/
def prodSum (a b : List F) : F :=
  ((List.range a.length).map (fun k => a.getD k 0 * b.getD k 0)).sum

/-- Constant coefficient of the sum-check round univariate of a
two-factor product over tables of `m+1` variables. -/
def qA (a b : List F) (m : Nat) : F :=
  ((List.range (2 ^ m)).map (fun k => a.getD k 0 * b.getD k 0)).sum

/-- Linear coefficient of the round univariate. -/
def qB (a b : List F) (m : Nat) : F :=
  ((List.range (2 ^ m)).map (fun k =>
    a.getD k 0 * (b.getD (k + 2 ^ m) 0 - b.getD k 0) +
      b.getD k 0 * (a.getD (k + 2 ^ m) 0 - a.getD k 0))).sum

/-- Quadratic coefficient of the round univariate. -/
def qC (a b : List F) (m : Nat) : F :=
  ((List.range (2 ^ m)).map (fun k =>
    (a.getD (k + 2 ^ m) 0 - a.getD k 0) *
      (b.getD (k + 2 ^ m) 0 - b.getD k 0))).sum

/-- Weighted row sums: entry `o` is the inner product of block `o` of `T`
(of block size `|G|`) against `G`. -/
def rowComb (T G : List F) : List F :=
  (List.range (T.length / G.length)).map (fun o =>
    ((List.range G.length).map (fun i =>
      T.getD (o * G.length + i) 0 * G.getD i 0)).sum)

/-- The round polynomial the sum-check prover interpolates for the
two-product shape. -/
def scG (P1 Q1 P2 Q2 : List F) (m : Nat) : List F :=
  [qA P1 Q1 m + qA P2 Q2 m, qB P1 Q1 m + qB P2 Q2 m, qC P1 Q1 m + qC P2 Q2 m]

/-- The claimed sum the prover absorbs: `g(0) + g(1)` in interpolated
form. -/
def scCl (P1 Q1 P2 Q2 : List F) (m : Nat) : F :=
  qA P1 Q1 m + qA P2 Q2 m +
    (qA P1 Q1 m + qA P2 Q2 m + (qB P1 Q1 m + qB P2 Q2 m) +
      (qC P1 Q1 m + qC P2 Q2 m))

/-- The transcript after absorbing the claimed sum and the round
polynomial. -/
def scTs1 (M : FS F) (P1 Q1 P2 Q2 : List F) (m : Nat) (ts : TS) : TS :=
  ts_append (ts_append ts (M.ser (scCl P1 Q1 P2 Q2 m)))
    (uToBytes M (scG P1 Q1 P2 Q2 m))

/-- The round challenge. -/
def scCh (M : FS F) (P1 Q1 P2 Q2 : List F) (m : Nat) (ts : TS) : F :=
  (sample_challenge M (scTs1 M P1 Q1 P2 Q2 m ts)).1

/-- The transcript after the round challenge is squeezed (and its digest
re-absorbed). -/
def scTs2 (M : FS F) (P1 Q1 P2 Q2 : List F) (m : Nat) (ts : TS) : TS :=
  (sample_challenge M (scTs1 M P1 Q1 P2 Q2 m ts)).2

/-- The wire table of layer `i` counted from the input side: `wtab 0` is
the input table, `wtab (i+1)` applies layer `i`'s gates. -/
def wtab (layers : Circuit) (inputs : List F) : Nat → List F
  | 0 => inputs
  | i + 1 => layer_eval (layers.getD i []) (wtab layers inputs i)

/-- The selector table of a single layer (the foldl body of
`get_gate_poly` formulated over the layer's gate list). -/
def selTable (gates : List CGate) (cond : GOp) : List F :=
  gates.enum.foldl
    (fun acc p =>
      if match_gate_condition p.2 cond then
        acc.set (get_bit_idx p.1 p.2.left p.2.right (sel_in_bits gates)) 1
      else acc)
    (List.replicate (sel_out_len gates * (1 <<< (2 * sel_in_bits gates))) 0)

/-- The sum-check proof, challenges and final transcript the GKR prover
produces for one layer: folded selectors `nm`/`na`, next wire table `W`,
incoming claim and transcript. -/
def gkrSc (M : FS F) (claim : F) (nm na W : List F) (ts : TS) :
    SumCheckProof F × List F × TS :=
  generate_proof_for_partial_verify M claim (gkr_f_b_c nm na W) ts

/-- `W(rb)` as the GKR prover computes it at a non-output layer: evaluate
the running table at the first half of the incoming points. -/
def pU (running : List F) (rv : List (Option F)) : F :=
  ((evaluate running (rv.take (rv.length / 2))).getD []).headD 0

/-- `W(rc)`: second half. -/
def pV (running : List F) (rv : List (Option F)) : F :=
  ((evaluate running (rv.drop (rv.length / 2))).getD []).headD 0

/-- The prover's transcript after absorbing `W(rb) ‖ W(rc)` at a
non-output layer. -/
def pTs1 (M : FS F) (running : List F) (rv : List (Option F)) (ts : TS) : TS :=
  ts_append_n ts [M.ser (pU running rv), M.ser (pV running rv)]

/-- The verifier-side `α` sampled from an incoming layer transcript. -/
def vAlpha (M : FS F) (ts : TS) : F := (sample_challenge M ts).1

/-- The verifier-side `β`. -/
def vBeta (M : FS F) (ts : TS) : F :=
  (sample_challenge M (sample_challenge M ts).2).1

/-- The transcript after sampling `α` and `β`. -/
def vTs2 (M : FS F) (ts : TS) : TS :=
  (sample_challenge M (sample_challenge M ts).2).2

/-- The α/β-folded selector pair a non-output layer works with, as a
function of the incoming points and the post-absorption transcript. -/
def vPair (M : FS F) (layers : Circuit) (li : Nat) (rv : List (Option F))
    (ts : TS) : List F × List F :=
  get_folded_polys (vAlpha M ts) (vBeta M ts)
    (get_gate_poly layers li GOp.mul) (get_gate_poly layers li GOp.add)
    (rv.take (rv.length / 2)) (rv.drop (rv.length / 2))

/-- The folded claim of a non-output prover layer. -/
def pClaim (M : FS F) (running : List F) (rv : List (Option F)) (ts : TS) : F :=
  get_folded_claim_sum (vAlpha M (pTs1 M running rv ts))
    (vBeta M (pTs1 M running rv ts)) (pU running rv) (pV running rv)

/-- The sum-check run of a non-output prover layer `li`. -/
def pSc (M : FS F) (layers : Circuit) (evals : List (List F)) (li : Nat)
    (rv : List (Option F)) (running : List F) (ts : TS) :
    SumCheckProof F × List F × TS :=
  gkrSc M (pClaim M running rv ts)
    (vPair M layers li rv (pTs1 M running rv ts)).1
    (vPair M layers li rv (pTs1 M running rv ts)).2
    (get_w_i (li + 1) evals) (vTs2 M (pTs1 M running rv ts))

/-- The sum-check run of the output layer of the prover. -/
def p0Sc (M : FS F) (layers : Circuit) (evals : List (List F))
    (rv : List (Option F)) (running : List F) (ts : TS) :
    SumCheckProof F × List F × TS :=
  gkrSc M (((evaluate running rv).getD []).headD 0)
    (get_evaluated_muli_addi_at_a (get_gate_poly layers 0 GOp.mul)
      (get_gate_poly layers 0 GOp.add) rv).1
    (get_evaluated_muli_addi_at_a (get_gate_poly layers 0 GOp.mul)
      (get_gate_poly layers 0 GOp.add) rv).2
    (get_w_i 1 evals) ts

/-! ### Basic arithmetic and list lemmas -/

theorem lor_two_pow_mul_add (p : Nat) :
    ∀ q s : Nat, s < 2 ^ p → (2 ^ (p + 1) * q + s) ||| 2 ^ p = 2 ^ (p + 1) * q + s + 2 ^ p := by
  induction p with
  | zero =>
    intro q s hs
    interval_cases s
    have h1 : 2 ^ (0 + 1) * q + 0 = Nat.bit false q := by simp [Nat.bit]
    have h2 : (2 : Nat) ^ 0 = Nat.bit true 0 := by simp [Nat.bit]
    rw [h1, h2, Nat.lor_bit]
    simp [Nat.bit]
  | succ p ih =>
    intro q s hs
    have hpow : (2 : Nat) ^ (p + 1) = 2 * 2 ^ p := by ring
    have hpow2 : (2 : Nat) ^ (p + 1 + 1) = 2 * 2 ^ (p + 1) := by ring
    have hd : Nat.div2 s < 2 ^ p := by
      rw [Nat.div2_val]
      omega
    have hdec := Nat.bit_decomp s
    have hq : 2 ^ (p + 1 + 1) * q = 2 * (2 ^ (p + 1) * q) := by ring
    have h1 : 2 ^ (p + 1 + 1) * q + s = Nat.bit (Nat.bodd s) (2 ^ (p + 1) * q + Nat.div2 s) := by
      cases hb : Nat.bodd s <;> rw [hb] at hdec <;> simp [Nat.bit] at hdec ⊢ <;> omega
    have h2 : (2 : Nat) ^ (p + 1) = Nat.bit false (2 ^ p) := by simp [Nat.bit, hpow]
    have h3 := Nat.lor_bit (Nat.bodd s) (2 ^ (p + 1) * q + Nat.div2 s) false (2 ^ p)
    rw [← h1, ← h2] at h3
    rw [h3, ih q (Nat.div2 s) hd]
    cases hb : Nat.bodd s <;> rw [hb] at hdec <;> simp [Nat.bit] at hdec ⊢ <;> omega

theorem succ_div_mod_of_carry {T k : Nat} (hT : 0 < T) (h : k % T + 1 = T) :
    (k + 1) / T = k / T + 1 ∧ (k + 1) % T = 0 := by
  have hdm := Nat.div_add_mod k T
  have e : T * (k / T + 1) = T * (k / T) + T := by ring
  have hk : k + 1 = T * (k / T + 1) := by omega
  constructor
  · rw [hk, Nat.mul_div_cancel_left _ hT]
  · rw [hk, Nat.mul_mod_right]

theorem succ_div_mod_of_lt {T k : Nat} (hT : 0 < T) (h : k % T + 1 < T) :
    (k + 1) / T = k / T ∧ (k + 1) % T = k % T + 1 := by
  have hdm := Nat.div_add_mod k T
  have hk : k + 1 = (k % T + 1) + T * (k / T) := by omega
  constructor
  · rw [hk, Nat.add_mul_div_left _ _ hT, Nat.div_eq_of_lt h]
    omega
  · rw [hk, Nat.add_mul_mod_self_left]
    exact Nat.mod_eq_of_lt h

theorem y1_iter_closed (p k : Nat) :
    y1_iter (2 ^ p) k = 2 ^ (p + 1) * (k / 2 ^ p) + k % 2 ^ p := by
  induction k with
  | zero => simp [y1_iter]
  | succ k ih =>
    have hp : 0 < 2 ^ p := Nat.two_pow_pos p
    have hs : k % 2 ^ p < 2 ^ p := Nat.mod_lt _ hp
    rw [y1_iter, ih, y1_next]
    by_cases hcase : k % 2 ^ p + 1 = 2 ^ p
    · have hmod : (2 ^ (p + 1) * (k / 2 ^ p) + k % 2 ^ p + 1) % 2 ^ p = 0 := by
        have a1 : 2 ^ p * (2 * (k / 2 ^ p) + 1) = 2 ^ (p + 1) * (k / 2 ^ p) + 2 ^ p := by
          ring
        have e : 2 ^ (p + 1) * (k / 2 ^ p) + k % 2 ^ p + 1 =
            2 ^ p * (2 * (k / 2 ^ p) + 1) := by omega
        rw [e, Nat.mul_mod_right]
      have hdm := succ_div_mod_of_carry hp hcase
      simp only [hmod, beq_self_eq_true, if_true]
      rw [lor_two_pow_mul_add p _ _ hs, hdm.1, hdm.2]
      have e : 2 ^ (p + 1) = 2 ^ p * 2 := by ring
      have e2 : 2 ^ (p + 1) * (k / 2 ^ p + 1) = 2 ^ (p + 1) * (k / 2 ^ p) + 2 ^ (p + 1) := by
        ring
      omega
    · have hlt : k % 2 ^ p + 1 < 2 ^ p := by omega
      have hmod : (2 ^ (p + 1) * (k / 2 ^ p) + k % 2 ^ p + 1) % 2 ^ p =
          k % 2 ^ p + 1 := by
        have e : 2 ^ (p + 1) * (k / 2 ^ p) + k % 2 ^ p + 1 =
            (k % 2 ^ p + 1) + 2 ^ p * (2 * (k / 2 ^ p)) := by ring
        rw [e, Nat.add_mul_mod_self_left]
        exact Nat.mod_eq_of_lt hlt
      have hdm := succ_div_mod_of_lt hp hlt
      simp only [hmod]
      rw [if_neg (by simp)]
      rw [hdm.1, hdm.2]
      omega

theorem log2Fuel_eq : ∀ fuel n : Nat, n ≤ fuel → log2Fuel fuel n = Nat.log2 n := by
  intro fuel
  induction fuel with
  | zero =>
    intro n h
    interval_cases n
    simp [log2Fuel, Nat.log2]
  | succ fuel ih =>
    intro n h
    rw [log2Fuel]
    rcases Nat.lt_or_ge n 2 with hlt | hge
    · rw [if_neg (by omega), Nat.log2, if_neg (by omega)]
    · rw [if_pos hge, ih (n / 2) (by omega)]
      conv_rhs => rw [Nat.log2]
      rw [if_pos hge]

theorem ilog2_eq (n : Nat) : ilog2 n = Nat.log2 n := log2Fuel_eq n n le_rfl

theorem clog2Fuel_eq : ∀ fuel n : Nat, n ≤ fuel → clog2Fuel fuel n = Nat.clog 2 n := by
  intro fuel
  induction fuel with
  | zero =>
    intro n h
    interval_cases n
    rw [clog2Fuel, Nat.clog_of_right_le_one (by omega)]
  | succ fuel ih =>
    intro n h
    rw [clog2Fuel]
    rcases Nat.lt_or_ge n 2 with hlt | hge
    · rw [if_pos (by omega), Nat.clog_of_right_le_one (by omega)]
    · rw [if_neg (by omega), ih ((n + 1) / 2) (by omega)]
      rw [Nat.clog_of_two_le one_lt_two hge]
      have e : n + 2 - 1 = n + 1 := by omega
      rw [e]

theorem nextPowerOfTwo_eq (n : Nat) : nextPowerOfTwo n = 2 ^ Nat.clog 2 n := by
  unfold nextPowerOfTwo
  rw [clog2Fuel_eq n n le_rfl]

theorem numVars_eq {α : Type} (t : List α) (n : Nat) (h : t.length = 2 ^ n) :
    numVars t = n := by
  simp [numVars, ilog2_eq, h, Nat.log2_eq_log_two, Nat.log_pow one_lt_two]

theorem getD_range_map (f : Nat → F) (n k : Nat) (h : k < n) :
    (((List.range n).map f).getD k 0) = f k := by
  rw [List.getD_eq_getElem?_getD, List.getElem?_map, List.getElem?_range h]
  rfl

theorem length_pairCombine (t : List F) (r : F) :
    (pairCombine t r).length = t.length / 2 := by
  simp [pairCombine]

/-- `get_y1_y2_indexes` in closed form: pair `k` is the `k`-th hypercube
index with bit `p` clear, together with its sibling. -/
theorem get_y1_y2_indexes_closed {α : Type} (t : List α) (n varIdx : Nat)
    (h : t.length = 2 ^ n) (hv : varIdx < n) :
    get_y1_y2_indexes t varIdx =
      (List.range (2 ^ (n - 1))).map (fun k =>
        (2 ^ (n - 1 - varIdx + 1) * (k / 2 ^ (n - 1 - varIdx)) + k % 2 ^ (n - 1 - varIdx),
         2 ^ (n - 1 - varIdx + 1) * (k / 2 ^ (n - 1 - varIdx)) + k % 2 ^ (n - 1 - varIdx)
           + 2 ^ (n - 1 - varIdx))) := by
  have hnv : numVars t = n := numVars_eq t n h
  have hlen2 : t.length / 2 = 2 ^ (n - 1) := by
    rw [h]
    cases n with
    | zero => omega
    | succ m => rw [pow_succ]; simp
  unfold get_y1_y2_indexes
  rw [hnv, hlen2]
  apply List.map_congr_left
  intro k _
  rw [Nat.shiftLeft_eq, one_mul, y1_iter_closed]
  have hs : k % 2 ^ (n - 1 - varIdx) < 2 ^ (n - 1 - varIdx) :=
    Nat.mod_lt _ (Nat.two_pow_pos _)
  rw [lor_two_pow_mul_add _ _ _ hs]

/-- Fixing variable 0 is the half-pairing `pairCombine`. -/
theorem partially_evaluate_zero (t : List F) (n : Nat) (h : t.length = 2 ^ (n + 1))
    (r : F) : partially_evaluate t 0 r = pairCombine t r := by
  have hlen2 : t.length / 2 = 2 ^ n := by rw [h, pow_succ]; simp
  unfold partially_evaluate pairCombine
  rw [get_y1_y2_indexes_closed t (n + 1) 0 h (Nat.succ_pos n), hlen2]
  rw [List.map_map, List.take_of_length_le (by simp)]
  apply List.map_congr_left
  intro k hk
  rw [List.mem_range] at hk
  have h0 : k / 2 ^ (n + 1 - 1 - 0) = 0 := Nat.div_eq_of_lt (by simpa using hk)
  have h1 : k % 2 ^ (n + 1 - 1 - 0) = k := Nat.mod_eq_of_lt (by simpa using hk)
  simp only [Function.comp, h0, h1]
  simp [hlen2]

theorem getD_lt (l : List F) (k : Nat) (h : k < l.length) : l.getD k 0 = l[k] :=
  List.getD_eq_getElem l 0 h

theorem list_eq_of_getD (a b : List F) (hl : a.length = b.length)
    (h : ∀ k, k < a.length → a.getD k 0 = b.getD k 0) : a = b := by
  apply List.ext_getElem hl
  intro i h1 h2
  have := h i h1
  rwa [getD_lt a i h1, getD_lt b i h2] at this

theorem chain_nil (t : List F) : chain t [] = t := rfl

theorem chain_cons (t : List F) (r : F) (rs : List F) :
    chain t (r :: rs) = chain (partially_evaluate t 0 r) rs := rfl

theorem chainP_nil (t : List F) : chainP t [] = t := rfl

theorem chainP_cons (t : List F) (r : F) (rs : List F) :
    chainP t (r :: rs) = chainP (pairCombine t r) rs := rfl

theorem length_chainP (rs : List F) : ∀ t : List F,
    (chainP t rs).length = t.length / 2 ^ rs.length := by
  induction rs with
  | nil => intro t; simp [chainP]
  | cons r rs ih =>
    intro t
    rw [chainP_cons, ih, length_pairCombine]
    rw [Nat.div_div_eq_div_mul]
    congr 1
    rw [List.length_cons, pow_succ]
    ring

theorem chain_eq_chainP (rs : List F) : ∀ (t : List F) (n : Nat),
    t.length = 2 ^ n → rs.length ≤ n → chain t rs = chainP t rs := by
  induction rs with
  | nil => intro t n _ _; rfl
  | cons r rs ih =>
    intro t n h hle
    cases n with
    | zero => simp at hle
    | succ m =>
      rw [chain_cons, chainP_cons, partially_evaluate_zero t m h r]
      exact ih (pairCombine t r) m
        (by rw [length_pairCombine, h, pow_succ]; simp)
        (by simpa using hle)

/-- The state transformer inside `MultiLinearPolynomial::evaluate`. -/
theorem evaluate_fold_somes (rs : List F) : ∀ (t : List F) (j : Nat),
    (List.enumFrom j (rs.map some)).foldl
      (fun (s : List F × Nat) ip =>
        match ip.2 with
        | some r => (partially_evaluate s.1 (ip.1 - s.2) r, s.2 + 1)
        | none => s)
      (t, j) = (chain t rs, j + rs.length) := by
  induction rs with
  | nil => intro t j; simp [chain]
  | cons r rs ih =>
    intro t j
    simp only [List.map_cons, List.enumFrom, List.foldl_cons, Nat.sub_self]
    rw [ih, chain_cons]
    refine congrArg₂ Prod.mk rfl ?_
    simp only [List.length_cons]
    omega

theorem evaluate_fold_nones (m : Nat) : ∀ (s : List F × Nat) (j : Nat),
    (List.enumFrom j (List.replicate m (none : Option F))).foldl
      (fun (s : List F × Nat) ip =>
        match ip.2 with
        | some r => (partially_evaluate s.1 (ip.1 - s.2) r, s.2 + 1)
        | none => s)
      s = s := by
  induction m with
  | zero => intro s j; simp
  | succ m ih =>
    intro s j
    simp only [List.replicate, List.enumFrom, List.foldl_cons]
    exact ih s (j + 1)

/-- `evaluate` on a list of `k` set points followed by `None`s is the
`k`-step chain of first-variable partial evaluations. -/
theorem evaluate_spec (t : List F) (n : Nat) (h : t.length = 2 ^ n) (rs : List F)
    (m : Nat) (hnm : rs.length + m = n) :
    evaluate t (rs.map some ++ List.replicate m none) = some (chainP t rs) := by
  unfold evaluate
  rw [if_neg]
  · congr 1
    have henum := List.enumFrom_append (rs.map some) (List.replicate m (none : Option F)) 0
    rw [List.enum, henum, List.foldl_append, evaluate_fold_somes rs t 0,
      evaluate_fold_nones m]
    show chain t rs = chainP t rs
    exact chain_eq_chainP rs t n h (by omega)
  · rw [numVars_eq t n h]
    simp
    omega

/-- `evaluate` at an all-set point list. -/
theorem evaluate_all_some (t : List F) (n : Nat) (h : t.length = 2 ^ n)
    (rs : List F) (hr : rs.length = n) :
    evaluate t (rs.map some) = some (chainP t rs) := by
  have := evaluate_spec t n h rs 0 (by omega)
  simpa using this

theorem sum_eq_sum_range_getD (l : List F) :
    l.sum = ((List.range l.length).map (fun k => l.getD k 0)).sum := by
  induction l with
  | nil => simp
  | cons a l ih =>
    rw [List.length_cons, List.range_succ_eq_map, List.map_cons, List.map_map]
    simp only [List.sum_cons, List.getD_cons_zero]
    congr 1

theorem sum_range_split (m : Nat) (f : Nat → F) :
    ((List.range (2 * m)).map f).sum =
      ((List.range m).map f).sum + ((List.range m).map (fun k => f (m + k))).sum := by
  have h : 2 * m = m + m := by ring
  rw [h, List.range_add, List.map_append, List.sum_append, List.map_map]
  rfl

theorem sum_map_sub_range (n : Nat) (f g : Nat → F) :
    ((List.range n).map (fun k => f k - g k)).sum =
      ((List.range n).map f).sum - ((List.range n).map g).sum := by
  induction n with
  | zero => simp
  | succ n ih =>
    rw [List.range_succ]
    simp only [List.map_append, List.sum_append, List.map_cons, List.map_nil,
      List.sum_cons, List.sum_nil, ih]
    ring

theorem pairCombine_getD (t : List F) (r : F) (k : Nat) (h : k < t.length / 2) :
    (pairCombine t r).getD k 0 =
      t.getD k 0 + (t.getD (k + t.length / 2) 0 - t.getD k 0) * r := by
  unfold pairCombine
  exact getD_range_map _ _ _ h

/-- Sum of a half-pairing: linear interpolation between the half sums. -/
theorem sum_pairCombine (t : List F) (m : Nat) (h : t.length = 2 ^ (m + 1)) (r : F) :
    (pairCombine t r).sum =
      ((List.range (2 ^ m)).map (fun k => t.getD k 0)).sum +
        (((List.range (2 ^ m)).map (fun k => t.getD (2 ^ m + k) 0)).sum -
          ((List.range (2 ^ m)).map (fun k => t.getD k 0)).sum) * r := by
  have hlen2 : t.length / 2 = 2 ^ m := by rw [h, pow_succ]; simp
  unfold pairCombine
  rw [hlen2]
  have e : ∀ k : Nat, t.getD k 0 + (t.getD (k + 2 ^ m) 0 - t.getD k 0) * r =
      t.getD k 0 + (t.getD (k + 2 ^ m) 0 * r - t.getD k 0 * r) := by
    intro k; ring
  calc ((List.range (2 ^ m)).map fun k =>
          t.getD k 0 + (t.getD (k + 2 ^ m) 0 - t.getD k 0) * r).sum
      = ((List.range (2 ^ m)).map fun k => t.getD k 0).sum +
        (((List.range (2 ^ m)).map fun k => t.getD (k + 2 ^ m) 0 * r).sum -
          ((List.range (2 ^ m)).map fun k => t.getD k 0 * r).sum) := by
        simp only [e]
        rw [List.sum_map_add]
        congr 1
        exact sum_map_sub_range (2 ^ m) (fun k => t.getD (k + 2 ^ m) 0 * r)
          (fun k => t.getD k 0 * r)
    _ = _ := by
        rw [List.sum_map_mul_right, List.sum_map_mul_right]
        have ecomm : ∀ k : Nat, k + 2 ^ m = 2 ^ m + k := fun k => Nat.add_comm _ _
        simp only [ecomm]
        ring

/-- The whole-table sum splits as the two half sums. -/
theorem sum_split_halves (t : List F) (m : Nat) (h : t.length = 2 ^ (m + 1)) :
    t.sum = ((List.range (2 ^ m)).map (fun k => t.getD k 0)).sum +
      ((List.range (2 ^ m)).map (fun k => t.getD (2 ^ m + k) 0)).sum := by
  rw [sum_eq_sum_range_getD, h]
  have e : (2 : Nat) ^ (m + 1) = 2 * 2 ^ m := by ring
  rw [e, sum_range_split]

theorem uEvaluate_nil (x : F) : uEvaluate [] x = 0 := rfl

theorem uEvaluate_one (a x : F) : uEvaluate [a] x = a := by
  simp [uEvaluate]

theorem uEvaluate_two (a b x : F) : uEvaluate [a, b] x = a + b * x := by
  simp only [uEvaluate, List.foldl_cons, List.foldl_nil]
  ring

theorem uEvaluate_three (a b c x : F) :
    uEvaluate [a, b, c] x = a + b * x + c * x ^ 2 := by
  simp only [uEvaluate, List.foldl_cons, List.foldl_nil]
  ring

set_option maxHeartbeats 1000000 in
/-- Interpolation through `(0, A)` and `(1, A + B)` yields the line
`A + B·x`. -/
theorem interp2_eq (A B : F) : interpolate [0, 1] [A, A + B] = [A, B] := by
  have hr : List.range 2 = [0, 1] := rfl
  simp only [interpolate, List.length_cons, List.length_nil, hr, List.foldl_cons,
    List.foldl_nil]
  norm_num [uMul, uAdd, uScalarMul, hr]
  constructor <;> ring

set_option maxHeartbeats 2000000 in
/-- Interpolation through `(0, q(0)), (1, q(1)), (2, q(2))` of the
quadratic `q(x) = A + B·x + C·x²` recovers its coefficients (odd
characteristic). -/
theorem interp3_eq (h2 : (2 : F) ≠ 0) (A B C : F) :
    interpolate [0, 1, 2] [A, A + B + C, A + 2 * B + 4 * C] = [A, B, C] := by
  have hr : List.range 3 = [0, 1, 2] := rfl
  have hr2 : List.range 2 = [0, 1] := rfl
  simp only [interpolate, List.length_cons, List.length_nil, hr, List.foldl_cons,
    List.foldl_nil]
  norm_num [uMul, uAdd, uScalarMul, hr, hr2]
  have h2n : (-2 : F) ≠ 0 := neg_ne_zero.mpr h2
  refine ⟨?_, ?_, ?_⟩ <;> field_simp [h2, h2n] <;> ring

/-- `interpolate` through `(0, y0), (1, y1)` in value form. -/
theorem interp2_eq' (y0 y1 : F) : interpolate [0, 1] [y0, y1] = [y0, y1 - y0] := by
  have h := interp2_eq y0 (y1 - y0)
  rw [show y0 + (y1 - y0) = y1 from by ring] at h
  exact h

theorem pairCombine_pair (a b r : F) : pairCombine [a, b] r = [a + (b - a) * r] := by
  unfold pairCombine
  norm_num [List.length_cons, List.range_succ, List.getD_cons_zero,
    List.getD_cons_succ, List.getElem?_cons_zero, List.getElem?_cons_succ]

theorem pairCombine_quad (a b c d r : F) :
    pairCombine [a, b, c, d] r = [a + (c - a) * r, b + (d - b) * r] := by
  unfold pairCombine
  norm_num [List.length_cons, List.range_succ, List.getD_cons_zero,
    List.getD_cons_succ, List.getElem?_cons_zero, List.getElem?_cons_succ]

/-- The draft prover's per-round partial evaluation (`Some ch` in slot 0,
`None` elsewhere) halves the table by `pairCombine`. -/
theorem evaluate_prover_pts (t : List F) (n : Nat) (h : t.length = 2 ^ (n + 1))
    (ch : F) :
    (evaluate t (some ch :: List.replicate (numVars t - 1) none)).getD [] =
      pairCombine t ch := by
  have hnv : numVars t = n + 1 := numVars_eq t (n + 1) h
  rw [hnv]
  have hpts : (some ch :: List.replicate (n + 1 - 1) (none : Option F)) =
      ([ch].map some ++ List.replicate n none) := by simp
  rw [hpts, evaluate_spec t (n + 1) h [ch] n (by simp [Nat.add_comm])]
  simp [chainP_cons, chainP_nil]

theorem uSum_two (x y : F) : uSumHypercube [x, y] = x + (x + y) := by
  simp only [uSumHypercube, uEvaluate_two]
  ring

/-- Both transcripts compute a squeezed challenge the same way; they differ
only in whether the digest is absorbed back. -/
theorem sample_challenge_fst (M : FS F) (s : TS) :
    (sample_challenge M s).1 = draft_sample_challenge M s := rfl

/-- Oracle check on a 4-entry table against two recorded challenges and the
claim produced by evaluating the second-round polynomial. -/
theorem perform_oracle_check_quad (a b c d x y : F) :
    perform_oracle_check [a, b, c, d] [some x, some y]
      (uEvaluate [a + (c - a) * x, b + (d - b) * x - (a + (c - a) * x)] y) =
      some true := by
  unfold perform_oracle_check
  rw [show ([some x, some y] : List (Option F)) = (([x, y] : List F).map some) from rfl]
  rw [evaluate_all_some _ 2 (by norm_num) _ (by norm_num)]
  rw [chainP_cons, chainP_cons, chainP_nil, pairCombine_quad, pairCombine_pair]
  simp only [Option.some_bind, List.head?_cons, Option.map_some', Option.some.injEq,
    decide_eq_true_eq]
  rw [uEvaluate_two]

/-! ### C7: sum-check with zero variables -/

/-- C7 counterexample: for the concrete 0-variable polynomial `[5]` the
generated proof is empty, but verification returns `false` — the claim
that it "succeeds trivially" fails on the code, which rejects a proof
with no last round polynomial. -/
theorem c7_counterexample :
    (draft_generate_sumcheck_proof Mw [(3 : F5)]).round_polys = [] ∧
      verify_proof Mw [(3 : F5)] (draft_generate_sumcheck_proof Mw [3]) = some false := by
  decide

/-- C7 (amended): for every 0-variable polynomial (a single evaluation)
the generated proof's round-polynomial list is empty, and
`SumcheckVerifier::verify_proof` returns `false` on it: the verifier
rejects an empty proof (its `round_polys.last()` match arm) instead of
accepting trivially. -/
theorem c7_empty_proof_rejected (M : FS F) (x : F) :
    (draft_generate_sumcheck_proof M [x]).round_polys = [] ∧
      verify_proof M [x] (draft_generate_sumcheck_proof M [x]) = some false := by
  have h0 : numVars ([x] : List F) = 0 := numVars_eq _ 0 (by simp)
  have hrp : (draft_generate_sumcheck_proof M [x]).round_polys = [] := by
    simp [draft_generate_sumcheck_proof, h0, draft_gen_rounds]
  refine ⟨hrp, ?_⟩
  simp [verify_proof, hrp, partial_verify, pv_go]

/-! ### C2: the draft sum-check prover against the sumcheck-crate verifier -/

set_option maxHeartbeats 2000000 in
theorem draft_roundtrip_len2 (M : FS F) (a b : F) :
    verify_proof M [a, b] (draft_generate_sumcheck_proof M [a, b]) = some true := by
  have hnv : numVars ([a, b] : List F) = 1 := numVars_eq _ 1 (by norm_num)
  have hg : ∀ ts : TS, draft_gen_rounds M 1 [a, b] ts = [[a, b - a]] := by
    intro ts
    simp only [draft_gen_rounds, List.length_cons, List.length_nil]
    norm_num [List.take_succ_cons, List.take_zero, List.drop_succ_cons,
      List.drop_zero]
    exact interp2_eq' a b
  have hproof : draft_generate_sumcheck_proof M [a, b] =
      { initial_claim_sum := evaluation_sum [a, b],
        round_polys := [[a, b - a]] } := by
    unfold draft_generate_sumcheck_proof
    rw [hnv]
    exact congrArg _ (hg _)
  rw [hproof]
  simp only [verify_proof, partial_verify, pv_go]
  rw [if_neg (not_ne_iff.mpr rfl)]
  rw [if_neg (not_ne_iff.mpr (by
    rw [uSum_two]
    simp only [evaluation_sum, List.sum_cons, List.sum_nil]
    ring))]
  simp only [Bool.not_true, Bool.false_eq_true, if_false, List.nil_append,
    List.getLast?_singleton]
  unfold perform_oracle_check
  rw [show ([some ((sample_challenge M (ts_append_n (ts_append [] (mlToBytes M [a, b]))
      [M.ser (evaluation_sum [a, b]), uToBytes M [a, b - a]])).1)] : List (Option F)) =
    (([(sample_challenge M (ts_append_n (ts_append [] (mlToBytes M [a, b]))
      [M.ser (evaluation_sum [a, b]), uToBytes M [a, b - a]])).1] : List F).map some)
    from rfl]
  rw [evaluate_all_some _ 1 (by norm_num) _ (by norm_num)]
  rw [chainP_cons, chainP_nil, pairCombine_pair]
  simp only [Option.some_bind, List.head?_cons, Option.map_some', Option.some.injEq,
    decide_eq_true_eq]
  rw [uEvaluate_two]

set_option maxHeartbeats 4000000 in
theorem draft_roundtrip_len4 (M : FS F) (a b c d : F) :
    verify_proof M [a, b, c, d] (draft_generate_sumcheck_proof M [a, b, c, d]) =
      some true := by
  have hnv : numVars ([a, b, c, d] : List F) = 2 := numVars_eq _ 2 (by norm_num)
  have hsum : evaluation_sum ([a, b, c, d] : List F) = a + b + (c + d) := by
    simp only [evaluation_sum, List.sum_cons, List.sum_nil, add_zero]
    ring
  have hg : ∀ ts : TS, draft_gen_rounds M 2 [a, b, c, d] ts =
      [[a + b, c + d - (a + b)],
       [a + (c - a) * draft_sample_challenge M
            (ts_append (ts_append ts (M.ser (a + b + (c + d))))
              (uToBytes M [a + b, c + d - (a + b)])),
        b + (d - b) * draft_sample_challenge M
            (ts_append (ts_append ts (M.ser (a + b + (c + d))))
              (uToBytes M [a + b, c + d - (a + b)])) -
          (a + (c - a) * draft_sample_challenge M
            (ts_append (ts_append ts (M.ser (a + b + (c + d))))
              (uToBytes M [a + b, c + d - (a + b)])))]] := by
    intro ts
    simp only [draft_gen_rounds, List.length_cons, List.length_nil]
    rw [evaluate_prover_pts [a, b, c, d] 1 (by norm_num)]
    rw [pairCombine_quad]
    norm_num [List.take_succ_cons, List.take_zero, List.drop_succ_cons, List.drop_zero,
      interp2_eq']
  have hproof : draft_generate_sumcheck_proof M [a, b, c, d] =
      { initial_claim_sum := a + b + (c + d),
        round_polys :=
          [[a + b, c + d - (a + b)],
           [a + (c - a) * draft_sample_challenge M
                (ts_append (ts_append (ts_append [] (mlToBytes M [a, b, c, d]))
                  (M.ser (a + b + (c + d))))
                  (uToBytes M [a + b, c + d - (a + b)])),
            b + (d - b) * draft_sample_challenge M
                (ts_append (ts_append (ts_append [] (mlToBytes M [a, b, c, d]))
                  (M.ser (a + b + (c + d))))
                  (uToBytes M [a + b, c + d - (a + b)])) -
              (a + (c - a) * draft_sample_challenge M
                (ts_append (ts_append (ts_append [] (mlToBytes M [a, b, c, d]))
                  (M.ser (a + b + (c + d))))
                  (uToBytes M [a + b, c + d - (a + b)])))]] } := by
    simp only [draft_generate_sumcheck_proof]
    rw [hnv, hsum, hg]
  rw [hproof]
  simp only [verify_proof, partial_verify, pv_go]
  rw [if_neg (not_ne_iff.mpr hsum)]
  rw [if_neg (not_ne_iff.mpr (by rw [uSum_two]; ring))]
  simp only [ts_append_n, List.foldl_cons, List.foldl_nil]
  rw [sample_challenge_fst]
  rw [if_neg (not_ne_iff.mpr (by rw [uSum_two, uEvaluate_two]; ring))]
  simp only [Bool.not_true, Bool.false_eq_true, if_false, List.nil_append,
    List.cons_append, List.getLast?_cons_cons, List.getLast?_singleton]
  exact perform_oracle_check_quad a b c d _ _

/-- C2 counterexample: over `F5` with the concrete sponge `Mw`, the
three-variable table `[1,0,2,0,3,0,4,2]` is rejected by
`SumcheckVerifier::verify_proof` on the proof generated by the draft
`SumcheckProver::generate_sumcheck_proof`: the verifier re-absorbs every
squeezed digest into its transcript while the draft prover does not, so
their challenges diverge from the second round on, and the diverging
second-round challenge enters the prover's third round polynomial. -/
theorem c2_counterexample :
    verify_proof Mw ([1, 0, 2, 0, 3, 0, 4, 2] : List F5)
      (draft_generate_sumcheck_proof Mw [1, 0, 2, 0, 3, 0, 4, 2]) = some false := by
  decide

/-- C2 (amended): the sum-check round trip
`SumcheckVerifier::verify_proof(f, SumcheckProver::generate_sumcheck_proof(f))`
returns `true` for every polynomial with exactly one or two variables
(evaluation tables of length 2 or 4) over any field and any sponge.  The
original claim — every polynomial with at least one variable — fails from
three variables on (see the counterexample): the verifier's transcript
re-absorbs each squeezed digest while the draft prover's does not, and
from the third round the prover's diverging challenge shapes a round
polynomial the verifier checks against its own challenge. -/
theorem c2_roundtrip_one_or_two_vars (M : FS F) (t : List F)
    (h : t.length = 2 ∨ t.length = 4) :
    verify_proof M t (draft_generate_sumcheck_proof M t) = some true := by
  rcases h with h | h
  · obtain ⟨a, b, rfl⟩ := List.length_eq_two.mp h
    exact draft_roundtrip_len2 M a b
  · cases t with
    | nil => simp at h
    | cons a s =>
      have hs : s.length = 3 := by simpa using h
      obtain ⟨b, c, d, rfl⟩ := List.length_eq_three.mp hs
      exact draft_roundtrip_len4 M a b c d

/-- Witness for the amended C2 at the concrete table `[1, 2]` over `F5`. -/
theorem c2_roundtrip_one_or_two_vars_witness :
    (([(1 : F5), 2] : List F5).length = 2 ∨ ([(1 : F5), 2] : List F5).length = 4) ∧
      verify_proof Mw [(1 : F5), 2] (draft_generate_sumcheck_proof Mw [1, 2]) =
        some true :=
  ⟨Or.inl (by decide), c2_roundtrip_one_or_two_vars Mw [1, 2] (Or.inl (by decide))⟩

/-- C6 counterexample: over `F5`, `[1,2].w_mul([3,4])` produces
`[3, 6, 4, 8]`, so its entry at joint index `0 * 2 + 1` is `6`, not the
claimed `A[0] * B[1] = 1 * 4 = 4`: `w_mul` passes its receiver as the
second argument of `operate_w`, so the roles of the two tables are
swapped. -/
theorem c6_counterexample :
    w_mul ([1, 2] : List F5) [3, 4] = [3, 6, 4, 8] ∧
      (w_mul ([1, 2] : List F5) [3, 4]).getD (0 * 2 + 1) 0 ≠
        (([1, 2] : List F5)).getD 0 0 * (([3, 4] : List F5)).getD 1 0 := by
  decide

/-- C6 (amended): for two evaluation tables of EQUAL length `L` (the same
number of variables), `w_add` is the claimed tensor sum —
`(A w_add B)[i * L + j] = A[i] + B[j]` — but `w_mul` computes the tensor
product with its arguments swapped: `(A.w_mul(B))[i * L + j] = B[i] * A[j]`.
The original claim fails twice over: for different variable counts
`operate_w` divides by the first table's length instead of the second's,
and `w_mul(self, other)` calls `operate_w(other, self, Mul)` (see the
counterexample). -/
theorem c6_tensor_equal_lengths (A B : List F) (i j : Nat)
    (hL : A.length = B.length) (hi : i < B.length) (hj : j < B.length) :
    (w_add A B).getD (i * B.length + j) 0 = A.getD i 0 + B.getD j 0 ∧
      (w_mul A B).getD (i * B.length + j) 0 = B.getD i 0 * A.getD j 0 := by
  have hL0 : 0 < B.length := Nat.lt_of_le_of_lt (Nat.zero_le i) hi
  have hlt : i * B.length + j < B.length * B.length := by
    calc i * B.length + j < i * B.length + B.length := by omega
    _ = (i + 1) * B.length := by ring
    _ ≤ B.length * B.length := Nat.mul_le_mul_right _ hi
  have hdiv : (i * B.length + j) / B.length = i := by
    rw [Nat.mul_comm i B.length, Nat.mul_add_div hL0, Nat.div_eq_of_lt hj, Nat.add_zero]
  have hmod : (i * B.length + j) % B.length = j := by
    rw [Nat.mul_comm i B.length, Nat.mul_add_mod, Nat.mod_eq_of_lt hj]
  constructor
  · unfold w_add operate_w
    rw [hL, getD_range_map _ _ _ hlt]
    simp only [hdiv, hmod]
  · unfold w_mul operate_w
    rw [hL, getD_range_map _ _ _ hlt]
    simp only [hdiv, hmod]

/-- Witness for the amended C6 at `A = [1,2]`, `B = [3,4]`, `i = 0`,
`j = 1` over `F5`. -/
theorem c6_tensor_equal_lengths_witness :
    (([1, 2] : List F5).length = ([3, 4] : List F5).length ∧
        0 < ([3, 4] : List F5).length ∧ 1 < ([3, 4] : List F5).length) ∧
      ((w_add ([1, 2] : List F5) [3, 4]).getD (0 * ([3, 4] : List F5).length + 1) 0 =
          ([1, 2] : List F5).getD 0 0 + ([3, 4] : List F5).getD 1 0 ∧
        (w_mul ([1, 2] : List F5) [3, 4]).getD (0 * ([3, 4] : List F5).length + 1) 0 =
          ([3, 4] : List F5).getD 0 0 * ([1, 2] : List F5).getD 1 0) :=
  ⟨⟨by decide, by decide, by decide⟩,
    c6_tensor_equal_lengths [1, 2] [3, 4] 0 1 (by decide) (by decide) (by decide)⟩

/-- C8: code bug — the verifiers do NOT always return a boolean on
ill-shaped proofs; they can panic.  Over `F5`: (1) the sumcheck verifier on
the 1-variable polynomial `[1,1]` and a proof with TWO round polynomials
`⟨2, [[1],[3]]⟩` passes both round checks and then panics inside
`MultiLinearPolynomial::evaluate` during the oracle check (two challenges
against one variable) — modelled as `none`; (2) the GKR verifier on a
2-layer circuit and a proof whose `sumcheck_proofs` list is empty panics on
the out-of-bounds index `sumcheck_proofs[0]` — modelled as `none`. -/
theorem c8_verifier_panics :
    verify_proof Mw ([1, 1] : List F5) ⟨2, [[1], [3]]⟩ = none ∧
      gkr_verify_proof Mw ([1, 2, 3, 4] : List F5)
        [[⟨0, 1, GOp.add⟩, ⟨2, 3, GOp.mul⟩], [⟨0, 1, GOp.add⟩]] []
        ⟨[0, 0], [], []⟩ = none := by
  decide

theorem ts_append_n_flatten (ds : List (List Nat)) :
    ∀ s : TS, ts_append_n s ds = s ++ ds.flatten := by
  induction ds with
  | nil => intro s; simp [ts_append_n]
  | cons d ds ih =>
    intro s
    rw [show ts_append_n s (d :: ds) = ts_append_n (ts_append s d) ds from rfl, ih]
    simp [ts_append]

theorem runOps_concat (ops : List TOp) :
    ∀ s : TS, runOps ops s = s ++ opsBytes ops := by
  induction ops with
  | nil => intro s; simp [runOps, opsBytes]
  | cons op ops ih =>
    intro s
    cases op with
    | app d =>
      rw [show runOps (TOp.app d :: ops) s = runOps ops (ts_append s d) from rfl, ih]
      simp [opsBytes, ts_append]
    | appN ds =>
      rw [show runOps (TOp.appN ds :: ops) s = runOps ops (ts_append_n s ds) from rfl,
        ih, ts_append_n_flatten]
      simp [opsBytes]

/-- C4: transcript determinism in the absorbed byte concatenation.  Two
fresh `Transcript`s fed absorption calls whose concatenated bytes agree —
however the bytes are split across `append` and `append_n` calls — reach
the same state (which IS that concatenation), and every subsequent
`sample_challenge` and `sample_n_challenges` call returns identical
results on both; re-absorbed digests are covered because
`sample_challenge` folds its squeezed digest back into the state, so
later samples remain functions of the extended concatenation. -/
theorem c4_transcript_deterministic (M : FS F) (ops1 ops2 : List TOp) (n : Nat)
    (h : opsBytes ops1 = opsBytes ops2) :
    runOps ops1 [] = opsBytes ops1 ∧
      runOps ops1 [] = runOps ops2 [] ∧
      sample_challenge M (runOps ops1 []) = sample_challenge M (runOps ops2 []) ∧
      sample_n_challenges M n (runOps ops1 []) =
        sample_n_challenges M n (runOps ops2 []) := by
  have e1 : runOps ops1 [] = opsBytes ops1 := by rw [runOps_concat]; simp
  have e2 : runOps ops2 [] = opsBytes ops2 := by rw [runOps_concat]; simp
  have e : runOps ops1 [] = runOps ops2 [] := by rw [e1, e2, h]
  exact ⟨e1, e, by rw [e], by rw [e]⟩

/-- Witness for C4: `append([1,2,3])` versus `append_n([[1],[2,3]])` over
`F5` with the concrete sponge `Mw`, two subsequent challenges. -/
theorem c4_transcript_deterministic_witness :
    opsBytes [TOp.app [1, 2, 3]] = opsBytes [TOp.appN [[1], [2, 3]]] ∧
      (runOps [TOp.app [1, 2, 3]] [] = opsBytes [TOp.app [1, 2, 3]] ∧
        runOps [TOp.app [1, 2, 3]] [] = runOps [TOp.appN [[1], [2, 3]]] [] ∧
        sample_challenge Mw (runOps [TOp.app [1, 2, 3]] []) =
          sample_challenge Mw (runOps [TOp.appN [[1], [2, 3]]] []) ∧
        sample_n_challenges Mw 2 (runOps [TOp.app [1, 2, 3]] []) =
          sample_n_challenges Mw 2 (runOps [TOp.appN [[1], [2, 3]]] [])) :=
  ⟨by decide,
    c4_transcript_deterministic Mw [TOp.app [1, 2, 3]] [TOp.appN [[1], [2, 3]]] 2
      (by decide)⟩

/-- C5: `partially_evaluate(var_index, r)` on an `(n+1)`-variable table
halves the table, and for every hypercube index `i0` with bit
`p = (n+1) - 1 - var_index` clear, the output entry at the compressed
index of `i0` (bit `p` removed) is `y0 + r*(y1 - y0)` where `y0 = f[i0]`
and `y1` is at the sibling index with bit `p` set; the compressed-index
addressing makes the pairs appear in ascending order of `i0`, preserving
the ordering of the remaining variables. -/
theorem c5_partially_evaluate (t : List F) (n varIdx : Nat) (r : F)
    (h : t.length = 2 ^ (n + 1)) (hv : varIdx < n + 1) :
    (partially_evaluate t varIdx r).length = 2 ^ n ∧
      ∀ i0 : Nat, i0 < 2 ^ (n + 1) → (i0 / 2 ^ (n - varIdx)) % 2 = 0 →
        (partially_evaluate t varIdx r).getD (compressIdx (n - varIdx) i0) 0 =
          t.getD i0 0 +
            r * (t.getD (i0 + 2 ^ (n - varIdx)) 0 - t.getD i0 0) := by
  set p := n - varIdx with hp
  have hpn : p ≤ n := by omega
  have hlen2 : t.length / 2 = 2 ^ n := by rw [h, pow_succ]; simp
  have hclosed := get_y1_y2_indexes_closed t (n + 1) varIdx h hv
  have hidx : n + 1 - 1 - varIdx = p := by omega
  rw [hidx] at hclosed
  simp only [Nat.add_sub_cancel] at hclosed
  constructor
  · simp [partially_evaluate, get_y1_y2_indexes, hlen2]
  · intro i0 hi0 hbit
    have hP : 0 < 2 ^ p := Nat.two_pow_pos p
    have h1 := Nat.div_add_mod i0 (2 ^ p)
    have h2 := Nat.div_add_mod (i0 / 2 ^ p) 2
    have h3 : i0 / 2 ^ p / 2 = i0 / (2 ^ p * 2) := Nat.div_div_eq_div_mul _ _ _
    have hs : i0 % 2 ^ p < 2 ^ p := Nat.mod_lt _ hP
    have hD : i0 / 2 ^ p = 2 * (i0 / (2 ^ p * 2)) := by omega
    have hi0dec : i0 = 2 ^ p * 2 * (i0 / (2 ^ p * 2)) + i0 % 2 ^ p := by
      conv_lhs => rw [← h1]
      rw [hD]
      ring
    have hsplit : 2 ^ p * 2 * 2 ^ (n - p) = 2 ^ (n + 1) := by
      rw [← pow_succ, ← pow_add]
      congr 1
      omega
    have hqlt : i0 / (2 ^ p * 2) < 2 ^ (n - p) :=
      Nat.div_lt_of_lt_mul (by rw [hsplit]; exact hi0)
    have hk : compressIdx p i0 = i0 / (2 ^ p * 2) * 2 ^ p + i0 % 2 ^ p := by
      rw [compressIdx, pow_succ]
    have hklt : compressIdx p i0 < 2 ^ n := by
      rw [hk]
      calc i0 / (2 ^ p * 2) * 2 ^ p + i0 % 2 ^ p
          < i0 / (2 ^ p * 2) * 2 ^ p + 2 ^ p := by omega
        _ = (i0 / (2 ^ p * 2) + 1) * 2 ^ p := by ring
        _ ≤ 2 ^ (n - p) * 2 ^ p := Nat.mul_le_mul_right _ (by omega)
        _ = 2 ^ n := by rw [← pow_add]; congr 1; omega
    have hkdiv : (i0 / (2 ^ p * 2) * 2 ^ p + i0 % 2 ^ p) / 2 ^ p =
        i0 / (2 ^ p * 2) := by
      rw [Nat.mul_comm _ (2 ^ p), Nat.mul_add_div hP, Nat.div_eq_of_lt hs,
        Nat.add_zero]
    have hkmod : (i0 / (2 ^ p * 2) * 2 ^ p + i0 % 2 ^ p) % 2 ^ p = i0 % 2 ^ p := by
      rw [Nat.mul_comm _ (2 ^ p), Nat.mul_add_mod, Nat.mod_eq_of_lt hs]
    rw [partially_evaluate, hclosed, List.map_map, hlen2,
      List.take_of_length_le (by simp)]
    rw [getD_range_map _ _ _ hklt]
    simp only [Function.comp]
    rw [hk, hkdiv, hkmod, pow_succ, ← hi0dec]
    ring

/-- Witness for C5 at `t = [1,2,3,4]`, `var_index = 0`, `r = 2` over
`F5`. -/
theorem c5_partially_evaluate_witness :
    (([1, 2, 3, 4] : List F5).length = 2 ^ (1 + 1) ∧ 0 < 1 + 1) ∧
      ((partially_evaluate ([1, 2, 3, 4] : List F5) 0 2).length = 2 ^ 1 ∧
        ∀ i0 : Nat, i0 < 2 ^ (1 + 1) → (i0 / 2 ^ (1 - 0)) % 2 = 0 →
          (partially_evaluate ([1, 2, 3, 4] : List F5) 0 2).getD
              (compressIdx (1 - 0) i0) 0 =
            ([1, 2, 3, 4] : List F5).getD i0 0 +
              2 * (([1, 2, 3, 4] : List F5).getD (i0 + 2 ^ (1 - 0)) 0 -
                ([1, 2, 3, 4] : List F5).getD i0 0)) :=
  ⟨⟨by decide, by decide⟩,
    c5_partially_evaluate [1, 2, 3, 4] 1 0 2 (by decide) (by decide)⟩

theorem ilog2_two_pow (m : Nat) : ilog2 (2 ^ m) = m := by
  rw [ilog2_eq, Nat.log2_eq_log_two, Nat.log_pow one_lt_two]

theorem two_pow_succ_div_two (k : Nat) : 2 ^ (k + 1) / 2 = 2 ^ k := by
  rw [pow_succ]
  omega

theorem blow_up_left_length (k : Nat) : ∀ t : List F,
    (blow_up_n_times BlowUpDirection.left k t).length = 2 ^ k * t.length := by
  induction k with
  | zero => intro t; simp [blow_up_n_times]
  | succ k ih =>
    intro t
    rw [show blow_up_n_times BlowUpDirection.left (k + 1) t =
        blow_up_n_times BlowUpDirection.left k (blowup_left t) from rfl, ih]
    simp [blowup_left]
    ring

/-- The quotient loop of the KZG prover never hits the `evaluate_at_tau`
length panic and produces one quotient commitment per opening, as long as
the dividend entering iteration `idx` has `2^(n-idx)` evaluations. -/
theorem kzg_quotients_some (basis : List F) (n : Nat) (hb : basis.length = 2 ^ n) :
    ∀ (rest : List F) (idx : Nat) (dividend : List F),
      idx + rest.length = n → dividend.length = 2 ^ (n - idx) →
      ∃ qs : List F, kzg_quotients basis n rest idx dividend = some qs ∧
        qs.length = rest.length := by
  intro rest
  induction rest with
  | nil =>
    intro idx dividend _ _
    exact ⟨[], rfl, rfl⟩
  | cons o rest ih =>
    intro idx dividend hidx hdiv
    have hm : n - idx = (n - idx - 1) + 1 := by
      simp only [List.length_cons] at hidx
      omega
    have hq : (compute_quotient_remainder dividend o 0).1.length =
        2 ^ (n - idx - 1) := by
      have e : (compute_quotient_remainder dividend o 0).1.length =
          dividend.length / 2 := by
        simp [compute_quotient_remainder, get_y1_y2_indexes]
      rw [e, hdiv, hm]
      simp only [Nat.add_sub_cancel]
      rw [two_pow_succ_div_two]
    have hr : (compute_quotient_remainder dividend o 0).2.length =
        2 ^ (n - idx - 1) := by
      have e : (compute_quotient_remainder dividend o 0).2.length =
          dividend.length / 2 := by
        simp [compute_quotient_remainder, partially_evaluate, get_y1_y2_indexes]
      rw [e, hdiv, hm]
      simp only [Nat.add_sub_cancel]
      rw [two_pow_succ_div_two]
    have hblow : (blow_up_n_times BlowUpDirection.left
        (max (idx + 1) (n - ilog2 (compute_quotient_remainder dividend o 0).1.length))
        (compute_quotient_remainder dividend o 0).1).length = 2 ^ n := by
      rw [blow_up_left_length, hq, ilog2_two_pow]
      have e : max (idx + 1) (n - (n - idx - 1)) = idx + 1 := by omega
      rw [e, ← pow_add]
      congr 1
      simp only [List.length_cons] at hidx
      omega
    obtain ⟨qs, hqs, hlen⟩ := ih (idx + 1) (compute_quotient_remainder dividend o 0).2
      (by simp only [List.length_cons] at hidx; omega)
      (by rw [hr]; congr 1)
    simp only [kzg_quotients]
    rw [evaluate_at_tau, if_neg (not_ne_iff.mpr (by rw [hblow, hb]))]
    rw [Option.some_bind, hqs, Option.map_some']
    refine ⟨_, rfl, ?_⟩
    simp [hlen]

/-- C10: with a length-`n` openings vector, a `2^n`-entry basis and a
`2^n`-entry (`n`-variable) polynomial, (1) the quotient of iteration `idx`
has `2^(n-idx-1)` evaluations, the blow-up count
`max(idx+1, n - ilog2(len q))` computed by the source is exactly `idx+1`,
and the blown-up quotient passed to `evaluate_at_tau` has exactly `2^n`
entries; (2) `MultilinearKZGProver::generate_proof` therefore never
reaches the length-mismatch panic inside `evaluate_at_tau`: it returns a
proof with one quotient commitment per opening, each formed against the
full `2^n`-element encrypted Lagrange basis. -/
theorem c10_kzg_quotients_full_length (n : Nat) (openings basis poly : List F)
    (ho : openings.length = n) (hb : basis.length = 2 ^ n)
    (hp : poly.length = 2 ^ n) :
    (∀ idx, idx < n → ∀ dividend : List F, dividend.length = 2 ^ (n - idx) →
        ∀ o : F,
        (compute_quotient_remainder dividend o 0).1.length = 2 ^ (n - idx - 1) ∧
          max (idx + 1)
              (n - ilog2 (compute_quotient_remainder dividend o 0).1.length) =
            idx + 1 ∧
          (blow_up_n_times BlowUpDirection.left (idx + 1)
              (compute_quotient_remainder dividend o 0).1).length = 2 ^ n) ∧
      ∃ pf : MultilinearKZGProof F,
        kzg_generate_proof openings basis poly = some pf ∧
          pf.q_taus.length = n := by
  constructor
  · intro idx hidx dividend hdl o
    have hm : n - idx = (n - idx - 1) + 1 := by omega
    have hq : (compute_quotient_remainder dividend o 0).1.length =
        2 ^ (n - idx - 1) := by
      have e : (compute_quotient_remainder dividend o 0).1.length =
          dividend.length / 2 := by
        simp [compute_quotient_remainder, get_y1_y2_indexes]
      rw [e, hdl, hm]
      simp only [Nat.add_sub_cancel]
      rw [two_pow_succ_div_two]
    refine ⟨hq, ?_, ?_⟩
    · rw [hq, ilog2_two_pow]
      omega
    · rw [blow_up_left_length, hq, ← pow_add]
      congr 1
      omega
  · obtain ⟨C, hC⟩ : ∃ C, generate_commitment poly basis = some C :=
      ⟨_, by unfold generate_commitment evaluate_at_tau
             rw [if_neg (not_ne_iff.mpr (by rw [hp, hb]))]⟩
    have hev : evaluate poly (openings.map some) = some (chainP poly openings) :=
      evaluate_all_some poly n hp openings ho
    have hlen1 : (chainP poly openings).length = 1 := by
      rw [length_chainP, hp, ho, Nat.div_self (Nat.two_pow_pos n)]
    obtain ⟨v, hv⟩ := List.length_eq_one.mp hlen1
    obtain ⟨qs, hqs, hql⟩ := kzg_quotients_some basis n hb openings 0
      (ml_minus poly v) (by omega) (by simp [ml_minus, hp])
    refine ⟨⟨C, v, qs⟩, ?_, by rw [hql, ho]⟩
    unfold kzg_generate_proof
    rw [hC, Option.some_bind, hev, Option.some_bind, hv, List.head?_cons,
      Option.some_bind, ho, hqs, Option.map_some']

/-- Witness for C10 at `n = 3`: openings `[1,4,0]`, the basis from taus
`[2,3,4]` and the polynomial `[0,4,0,4,0,4,3,2]` over `F5`. -/
theorem c10_kzg_quotients_full_length_witness :
    (([1, 4, 0] : List F5).length = 3 ∧
        (trusted_setup_basis ([2, 3, 4] : List F5)).length = 2 ^ 3 ∧
        ([0, 4, 0, 4, 0, 4, 3, 2] : List F5).length = 2 ^ 3) ∧
      ((∀ idx, idx < 3 → ∀ dividend : List F5, dividend.length = 2 ^ (3 - idx) →
          ∀ o : F5,
          (compute_quotient_remainder dividend o 0).1.length = 2 ^ (3 - idx - 1) ∧
            max (idx + 1)
                (3 - ilog2 (compute_quotient_remainder dividend o 0).1.length) =
              idx + 1 ∧
            (blow_up_n_times BlowUpDirection.left (idx + 1)
                (compute_quotient_remainder dividend o 0).1).length = 2 ^ 3) ∧
        ∃ pf : MultilinearKZGProof F5,
          kzg_generate_proof [1, 4, 0] (trusted_setup_basis [2, 3, 4])
              [0, 4, 0, 4, 0, 4, 3, 2] = some pf ∧
            pf.q_taus.length = 3) :=
  ⟨⟨by decide, by decide, by decide⟩,
    c10_kzg_quotients_full_length 3 [1, 4, 0] (trusted_setup_basis [2, 3, 4])
      [0, 4, 0, 4, 0, 4, 3, 2] (by decide) (by decide) (by decide)⟩

theorem getD_drop (l : List F) (n i : Nat) : (l.drop n).getD i 0 = l.getD (n + i) 0 := by
  rw [List.getD_eq_getElem?_getD, List.getD_eq_getElem?_getD, List.getElem?_drop]

theorem getD_take (l : List F) (n i : Nat) (h : i < n) :
    (l.take n).getD i 0 = l.getD i 0 := by
  rw [List.getD_eq_getElem?_getD, List.getD_eq_getElem?_getD, List.getElem?_take]
  simp [h]

theorem map_enumFrom_shift {α β : Type} (g : Nat → α → β) :
    ∀ (l : List α) (k : Nat),
    (l.enumFrom (k + 1)).map (fun p => g p.1 p.2) =
      (l.enumFrom k).map (fun p => g (p.1 + 1) p.2) := by
  intro l
  induction l with
  | nil => intro k; rfl
  | cons y l ih =>
    intro k
    rw [List.enumFrom_cons, List.enumFrom_cons, List.map_cons, List.map_cons, ih (k + 1)]

theorem sum_map_add_range (n : Nat) (f g : Nat → F) :
    ((List.range n).map (fun k => f k + g k)).sum =
      ((List.range n).map f).sum + ((List.range n).map g).sum := by
  induction n with
  | zero => simp
  | succ n ih =>
    rw [List.range_succ]
    simp only [List.map_append, List.sum_append, List.map_cons, List.map_nil,
      List.sum_cons, List.sum_nil, ih]
    ring

theorem length_generate_lagrange_basis (n : Nat) (xs : List F) :
    (generate_lagrange_basis n xs).length = 2 ^ n := by
  simp [generate_lagrange_basis, Nat.shiftLeft_eq]

theorem generate_lagrange_basis_getD (xs : List F) (i : Nat)
    (h : i < 2 ^ xs.length) :
    (generate_lagrange_basis xs.length xs).getD i 0 = lagEntry xs i := by
  unfold generate_lagrange_basis
  rw [show (1 <<< xs.length) = 2 ^ xs.length from by rw [Nat.shiftLeft_eq, one_mul]]
  rw [getD_range_map _ _ _ h]
  rfl

/-- `evaluate_at_tau` against the trusted-setup basis is the Lagrange
inner product `lagSum`. -/
theorem evaluate_at_tau_trusted (taus t : List F) (h : t.length = 2 ^ taus.length) :
    evaluate_at_tau t (trusted_setup_basis taus) = some (lagSum taus t) := by
  unfold evaluate_at_tau trusted_setup_basis
  rw [if_neg (not_ne_iff.mpr (by rw [h, length_generate_lagrange_basis]))]
  congr 1
  rw [length_generate_lagrange_basis]
  unfold lagSum
  apply congrArg
  apply List.map_congr_left
  intro i hi
  rw [List.mem_range] at hi
  rw [generate_lagrange_basis_getD taus i hi]

theorem lagEntry_nil (i : Nat) : lagEntry ([] : List F) i = 1 := rfl

theorem add_pow_div_mod_two (m e i : Nat) (he : e < m) :
    (2 ^ m + i) / 2 ^ e % 2 = i / 2 ^ e % 2 := by
  have hsplit : 2 ^ m = 2 ^ e * 2 ^ (m - e) := by
    rw [← pow_add]
    congr 1
    omega
  rw [hsplit, Nat.mul_add_div (Nat.two_pow_pos e)]
  have h2 : 2 ^ (m - e) = 2 * 2 ^ (m - e - 1) := by
    rw [← pow_succ']
    congr 1
    omega
  rw [h2]
  omega

theorem lagEntry_cons_low (x : F) (xs : List F) (i : Nat) (h : i < 2 ^ xs.length) :
    lagEntry (x :: xs) i = (1 - x) * lagEntry xs i := by
  unfold lagEntry
  rw [show (x :: xs).enum = (0, x) :: xs.enumFrom 1 from by simp [List.enum_cons]]
  simp only [List.map_cons, List.prod_cons, List.length_cons, Nat.shiftLeft_eq,
    one_mul, Nat.add_sub_add_right]
  rw [show xs.length + 1 - 0 - 1 = xs.length from by omega]
  rw [Nat.div_eq_of_lt h, if_pos (by norm_num)]
  congr 1
  rw [show xs.enumFrom 1 = xs.enumFrom (0 + 1) from rfl,
    map_enumFrom_shift (fun a b =>
      if i / 2 ^ (xs.length + 1 - a - 1) % 2 = 0 then 1 - b else b) xs 0]
  rw [show xs.enumFrom 0 = xs.enum from rfl]
  simp only [Nat.add_sub_add_right]

theorem lagEntry_cons_high (x : F) (xs : List F) (i : Nat) (h : i < 2 ^ xs.length) :
    lagEntry (x :: xs) (2 ^ xs.length + i) = x * lagEntry xs i := by
  unfold lagEntry
  rw [show (x :: xs).enum = (0, x) :: xs.enumFrom 1 from by simp [List.enum_cons]]
  simp only [List.map_cons, List.prod_cons, List.length_cons, Nat.shiftLeft_eq,
    one_mul, Nat.add_sub_add_right]
  rw [show xs.length + 1 - 0 - 1 = xs.length from by omega]
  have hh : (2 ^ xs.length + i) / 2 ^ xs.length = 1 := by
    rw [Nat.add_comm, Nat.add_div_right _ (Nat.two_pow_pos _), Nat.div_eq_of_lt h]
  rw [hh, if_neg (by norm_num)]
  congr 1
  rw [show xs.enumFrom 1 = xs.enumFrom (0 + 1) from rfl,
    map_enumFrom_shift (fun a b =>
      if (2 ^ xs.length + i) / 2 ^ (xs.length + 1 - a - 1) % 2 = 0
        then 1 - b else b) xs 0]
  rw [show xs.enumFrom 0 = xs.enum from rfl]
  simp only [Nat.add_sub_add_right]
  apply congrArg
  apply List.map_congr_left
  intro p hp
  have hlt := List.fst_lt_of_mem_enum hp
  rw [add_pow_div_mod_two xs.length (xs.length - p.1 - 1) i (by omega)]

theorem lagSum_nil (t : List F) : lagSum ([] : List F) t = t.getD 0 0 := by
  unfold lagSum
  rw [show List.range (2 ^ ([] : List F).length) = [0] from rfl]
  simp [lagEntry]

/-- The Lagrange inner product splits on the leading variable. -/
theorem lagSum_cons (x : F) (xs t : List F) :
    lagSum (x :: xs) t =
      (1 - x) * lagSum xs (t.take (2 ^ xs.length)) +
        x * lagSum xs (t.drop (2 ^ xs.length)) := by
  unfold lagSum
  rw [show (2 : Nat) ^ (x :: xs).length = 2 * 2 ^ xs.length from by
    rw [List.length_cons, pow_succ]; ring]
  rw [sum_range_split]
  congr 1
  · have e1 : ((List.range (2 ^ xs.length)).map
        (fun i => lagEntry (x :: xs) i * t.getD i 0)) =
        (List.range (2 ^ xs.length)).map
          (fun i => (1 - x) * (lagEntry xs i * (t.take (2 ^ xs.length)).getD i 0)) := by
      apply List.map_congr_left
      intro i hi
      rw [List.mem_range] at hi
      rw [lagEntry_cons_low x xs i hi, getD_take t _ i hi]
      ring
    rw [e1, List.sum_map_mul_left]
  · have e2 : ((List.range (2 ^ xs.length)).map
        (fun k => lagEntry (x :: xs) (2 ^ xs.length + k) *
          t.getD (2 ^ xs.length + k) 0)) =
        (List.range (2 ^ xs.length)).map
          (fun k => x * (lagEntry xs k * (t.drop (2 ^ xs.length)).getD k 0)) := by
      apply List.map_congr_left
      intro k hk
      rw [List.mem_range] at hk
      rw [lagEntry_cons_high x xs k hk, getD_drop]
      ring
    rw [e2, List.sum_map_mul_left]

/-- The Lagrange inner product of a half-pairing interpolates the two
half inner products. -/
theorem lagSum_pairCombine (xs t : List F) (x : F)
    (h : t.length = 2 ^ (xs.length + 1)) :
    lagSum xs (pairCombine t x) =
      (1 - x) * lagSum xs (t.take (2 ^ xs.length)) +
        x * lagSum xs (t.drop (2 ^ xs.length)) := by
  have hlen2 : t.length / 2 = 2 ^ xs.length := by rw [h, pow_succ]; omega
  unfold lagSum
  have e : ((List.range (2 ^ xs.length)).map
      (fun i => lagEntry xs i * (pairCombine t x).getD i 0)) =
      (List.range (2 ^ xs.length)).map (fun i =>
        (1 - x) * (lagEntry xs i * (t.take (2 ^ xs.length)).getD i 0) +
          x * (lagEntry xs i * (t.drop (2 ^ xs.length)).getD i 0)) := by
    apply List.map_congr_left
    intro i hi
    rw [List.mem_range] at hi
    rw [pairCombine_getD t x i (by rw [hlen2]; exact hi)]
    rw [getD_take t _ i hi, getD_drop, hlen2, Nat.add_comm i (2 ^ xs.length)]
    ring
  rw [e, sum_map_add_range, List.sum_map_mul_left, List.sum_map_mul_left]

/-- The Lagrange inner product against the basis at `xs` IS multilinear
evaluation at `xs`. -/
theorem lagSum_evalChain : ∀ (xs t : List F), t.length = 2 ^ xs.length →
    lagSum xs t = evalChain t xs := by
  intro xs
  induction xs with
  | nil =>
    intro t ht
    obtain ⟨a, rfl⟩ := List.length_eq_one.mp (by simpa using ht)
    rw [lagSum_nil]
    simp [evalChain, chainP]
  | cons x xs ih =>
    intro t ht
    have hm : t.length = 2 ^ (xs.length + 1) := by simpa using ht
    rw [lagSum_cons]
    rw [show evalChain t (x :: xs) = evalChain (pairCombine t x) xs from by
      unfold evalChain; rw [chainP_cons]]
    rw [← ih (pairCombine t x) (by rw [length_pairCombine, hm, pow_succ]; omega)]
    rw [lagSum_pairCombine xs t x hm]

theorem lagSum_blowup_left (x : F) (xs t : List F) (h : t.length = 2 ^ xs.length) :
    lagSum (x :: xs) (blowup_left t) = lagSum xs t := by
  rw [lagSum_cons]
  unfold blowup_left
  rw [show (t ++ t).take (2 ^ xs.length) = t from by rw [← h]; exact List.take_left ..]
  rw [show (t ++ t).drop (2 ^ xs.length) = t from by rw [← h]; exact List.drop_left ..]
  ring

/-- Blowing a table up on the left `k` times discards the first `k`
point coordinates from the Lagrange inner product. -/
theorem lagSum_blow_up_n (k : Nat) : ∀ (xs t : List F), k ≤ xs.length →
    t.length = 2 ^ (xs.length - k) →
    lagSum xs (blow_up_n_times BlowUpDirection.left k t) = lagSum (xs.drop k) t := by
  induction k with
  | zero =>
    intro xs t _ _
    simp [blow_up_n_times]
  | succ k ih =>
    intro xs t hk ht
    rw [show blow_up_n_times BlowUpDirection.left (k + 1) t =
        blow_up_n_times BlowUpDirection.left k (blowup_left t) from rfl]
    rw [ih xs (blowup_left t) (by omega) (by
      have e : xs.length - k = (xs.length - (k + 1)) + 1 := by omega
      simp only [blowup_left, List.length_append, ht, e, pow_succ]
      ring)]
    have hklen : k < xs.length := by omega
    rw [List.drop_eq_getElem_cons hklen]
    exact lagSum_blowup_left _ _ t (by rw [List.length_drop]; exact ht)

theorem lagSum_ones : ∀ xs : List F,
    lagSum xs (List.replicate (2 ^ xs.length) 1) = 1 := by
  intro xs
  induction xs with
  | nil =>
    rw [lagSum_nil]
    simp
  | cons x xs ih =>
    rw [lagSum_cons, List.take_replicate, List.drop_replicate]
    have e1 : min (2 ^ xs.length) (2 ^ (x :: xs).length) = 2 ^ xs.length := by
      apply min_eq_left
      rw [List.length_cons]
      exact Nat.pow_le_pow_right (by norm_num) (by omega)
    have e2 : 2 ^ (x :: xs).length - 2 ^ xs.length = 2 ^ xs.length := by
      rw [List.length_cons, pow_succ]
      omega
    rw [e1, e2, ih]
    ring

theorem lagSum_ml_minus (xs t : List F) (v : F) (h : t.length = 2 ^ xs.length) :
    lagSum xs (ml_minus t v) = lagSum xs t - v := by
  have hml : ∀ i, i < t.length → (ml_minus t v).getD i 0 = t.getD i 0 - v := by
    intro i hi
    rw [getD_lt _ i (by simpa [ml_minus] using hi), getD_lt t i hi]
    simp [ml_minus]
  conv_lhs => unfold lagSum
  have e : ((List.range (2 ^ xs.length)).map
      (fun i => lagEntry xs i * (ml_minus t v).getD i 0)) =
      (List.range (2 ^ xs.length)).map (fun i =>
        lagEntry xs i * t.getD i 0 -
          v * (lagEntry xs i *
            (List.replicate (2 ^ xs.length) (1 : F)).getD i 0)) := by
    apply List.map_congr_left
    intro i hi
    rw [List.mem_range] at hi
    rw [hml i (by rw [h]; exact hi)]
    rw [show (List.replicate (2 ^ xs.length) (1 : F)).getD i 0 = 1 from by
      rw [List.getD_eq_getElem?_getD, List.getElem?_replicate, if_pos hi]; rfl]
    ring
  rw [e, sum_map_sub_range, List.sum_map_mul_left]
  rw [show ((List.range (2 ^ xs.length)).map
      (fun i => lagEntry xs i *
        (List.replicate (2 ^ xs.length) (1 : F)).getD i 0)).sum =
      lagSum xs (List.replicate (2 ^ xs.length) 1) from rfl]
  rw [lagSum_ones]
  rw [show ((List.range (2 ^ xs.length)).map
      (fun i => lagEntry xs i * t.getD i 0)).sum = lagSum xs t from rfl]
  ring

/-- Entry `k` of the quotient from `compute_quotient_remainder` at
variable 0: second half minus first half. -/
theorem quotient_getD (t : List F) (m : Nat) (h : t.length = 2 ^ (m + 1)) (a : F)
    (k : Nat) (hk : k < 2 ^ m) :
    (compute_quotient_remainder t a 0).1.getD k 0 =
      t.getD (k + 2 ^ m) 0 - t.getD k 0 := by
  unfold compute_quotient_remainder
  rw [get_y1_y2_indexes_closed t (m + 1) 0 h (Nat.succ_pos m), List.map_map]
  simp only [Nat.add_sub_cancel, Nat.sub_zero]
  rw [getD_range_map _ _ _ hk]
  simp only [Function.comp]
  have h0 : k / 2 ^ m = 0 := Nat.div_eq_of_lt hk
  have h1 : k % 2 ^ m = k := Nat.mod_eq_of_lt hk
  rw [h0, h1]
  simp

/-- The Lagrange inner product of the variable-0 quotient is the
difference of the half inner products. -/
theorem lagSum_quotient (ts t : List F) (a : F) (m : Nat) (hm : ts.length = m)
    (h : t.length = 2 ^ (m + 1)) :
    lagSum ts (compute_quotient_remainder t a 0).1 =
      lagSum ts (t.drop (2 ^ m)) - lagSum ts (t.take (2 ^ m)) := by
  subst hm
  unfold lagSum
  have e : ((List.range (2 ^ ts.length)).map
      (fun k => lagEntry ts k * (compute_quotient_remainder t a 0).1.getD k 0)) =
      (List.range (2 ^ ts.length)).map (fun k =>
        lagEntry ts k * (t.drop (2 ^ ts.length)).getD k 0 -
          lagEntry ts k * (t.take (2 ^ ts.length)).getD k 0) := by
    apply List.map_congr_left
    intro k hk
    rw [List.mem_range] at hk
    rw [quotient_getD t ts.length h a k hk, getD_take t _ k hk, getD_drop,
      Nat.add_comm k (2 ^ ts.length)]
    ring
  rw [e, sum_map_sub_range]

theorem sum_enum_cons_shift (y : F) (l : List F) (g : Nat → F → F) :
    ((y :: l).enum.map (fun p => g p.1 p.2)).sum =
      g 0 y + (l.enum.map (fun p => g (p.1 + 1) p.2)).sum := by
  rw [show (y :: l).enum = (0, y) :: l.enumFrom 1 from by simp [List.enum_cons]]
  simp only [List.map_cons, List.sum_cons]
  congr 1
  rw [show l.enumFrom 1 = l.enumFrom (0 + 1) from rfl, map_enumFrom_shift g l 0]
  rfl

theorem pairCombine_ml_minus (t : List F) (v r : F) :
    pairCombine (ml_minus t v) r = ml_minus (pairCombine t r) v := by
  unfold pairCombine ml_minus
  rw [List.map_map, List.length_map]
  apply List.map_congr_left
  intro k hk
  rw [List.mem_range] at hk
  have hk1 : k < t.length := by omega
  have hk2 : k + t.length / 2 < t.length := by omega
  have hgd : ∀ i, i < t.length → (t.map (· - v)).getD i 0 = t.getD i 0 - v := by
    intro i hi
    rw [getD_lt _ i (by simpa using hi), getD_lt t i hi]
    simp
  simp only [Function.comp]
  rw [hgd k hk1, hgd (k + t.length / 2) hk2]
  ring

theorem chainP_ml_minus : ∀ (rs : List F) (t : List F) (v : F),
    chainP (ml_minus t v) rs = ml_minus (chainP t rs) v := by
  intro rs
  induction rs with
  | nil => intro t v; rfl
  | cons r rs ih =>
    intro t v
    rw [chainP_cons, chainP_cons, pairCombine_ml_minus, ih]

/-- Telescoping of the KZG quotient loop: the verifier's pairing sum over
the produced quotient commitments equals the Lagrange evaluation of the
incoming dividend minus its multilinear evaluation at the openings. -/
theorem kzg_quotients_telescope (taus : List F) (n : Nat) (hn : taus.length = n) :
    ∀ (rest : List F) (idx : Nat) (dividend : List F),
      idx + rest.length = n → dividend.length = 2 ^ (n - idx) →
      ∃ qs : List F,
        kzg_quotients (trusted_setup_basis taus) n rest idx dividend = some qs ∧
          qs.length = rest.length ∧
          (qs.enum.map (fun p =>
              p.2 * (taus.getD (idx + p.1) 0 - rest.getD p.1 0))).sum =
            lagSum (taus.drop idx) dividend - evalChain dividend rest := by
  intro rest
  induction rest with
  | nil =>
    intro idx dividend hidx hdiv
    refine ⟨[], rfl, rfl, ?_⟩
    have hidx' : idx = n := by simpa using hidx
    subst hidx'
    have hdrop : taus.drop idx = [] := by rw [← hn]; exact List.drop_length taus
    rw [hdrop, lagSum_nil]
    have h1 : dividend.length = 1 := by rw [hdiv]; simp
    obtain ⟨b, rfl⟩ := List.length_eq_one.mp h1
    simp [evalChain, chainP]
  | cons a rest ih =>
    intro idx dividend hidx hdiv
    have hlc : idx + rest.length + 1 = n := by simpa using hidx
    have hm : n - idx = (n - idx - 1) + 1 := by omega
    have hdparse : dividend.length = 2 ^ ((n - idx - 1) + 1) := by
      rw [hdiv]
      exact congrArg (2 ^ ·) hm
    have hq : (compute_quotient_remainder dividend a 0).1.length =
        2 ^ (n - idx - 1) := by
      have e : (compute_quotient_remainder dividend a 0).1.length =
          dividend.length / 2 := by
        simp [compute_quotient_remainder, get_y1_y2_indexes]
      rw [e, hdparse, two_pow_succ_div_two]
    have hr : (compute_quotient_remainder dividend a 0).2.length =
        2 ^ (n - idx - 1) := by
      have e : (compute_quotient_remainder dividend a 0).2.length =
          dividend.length / 2 := by
        simp [compute_quotient_remainder, partially_evaluate, get_y1_y2_indexes]
      rw [e, hdparse, two_pow_succ_div_two]
    have hcount : max (idx + 1)
        (n - ilog2 (compute_quotient_remainder dividend a 0).1.length) = idx + 1 := by
      rw [hq, ilog2_two_pow]
      omega
    have hblowlen : (blow_up_n_times BlowUpDirection.left (idx + 1)
        (compute_quotient_remainder dividend a 0).1).length = 2 ^ taus.length := by
      rw [blow_up_left_length, hq, ← pow_add, hn]
      congr 1
      omega
    have heat : evaluate_at_tau (blow_up_n_times BlowUpDirection.left (idx + 1)
          (compute_quotient_remainder dividend a 0).1) (trusted_setup_basis taus) =
        some (lagSum taus (blow_up_n_times BlowUpDirection.left (idx + 1)
          (compute_quotient_remainder dividend a 0).1)) :=
      evaluate_at_tau_trusted taus _ hblowlen
    have hblowval : lagSum taus (blow_up_n_times BlowUpDirection.left (idx + 1)
        (compute_quotient_remainder dividend a 0).1) =
        lagSum (taus.drop (idx + 1)) (compute_quotient_remainder dividend a 0).1 :=
      lagSum_blow_up_n (idx + 1) taus _ (by omega)
        (by rw [hq, hn]; congr 1)
    obtain ⟨qs, hqs, hlen, hsum⟩ := ih (idx + 1)
      (compute_quotient_remainder dividend a 0).2 (by omega) (by rw [hr]; congr 1)
    simp only [kzg_quotients]
    rw [hcount, heat, Option.some_bind, hqs, Option.map_some']
    refine ⟨_, rfl, by simp [hlen], ?_⟩
    rw [sum_enum_cons_shift _ qs
      (fun j q => q * (taus.getD (idx + j) 0 - (a :: rest).getD j 0))]
    have etail : (qs.enum.map (fun p =>
        (fun j q => q * (taus.getD (idx + j) 0 - (a :: rest).getD j 0))
          (p.1 + 1) p.2)) =
        qs.enum.map (fun p =>
          p.2 * (taus.getD (idx + 1 + p.1) 0 - rest.getD p.1 0)) := by
      apply List.map_congr_left
      intro p _
      simp only []
      rw [show (a :: rest).getD (p.1 + 1) 0 = rest.getD p.1 0 from
        List.getD_cons_succ ..]
      rw [show idx + (p.1 + 1) = idx + 1 + p.1 from by omega]
    rw [etail, hsum]
    simp only [List.getD_cons_zero, Nat.add_zero]
    have hRpc : (compute_quotient_remainder dividend a 0).2 =
        pairCombine dividend a := partially_evaluate_zero dividend (n - idx - 1)
          hdparse a
    have hchain : evalChain dividend (a :: rest) =
        evalChain ((compute_quotient_remainder dividend a 0).2) rest := by
      unfold evalChain
      rw [chainP_cons, ← hRpc]
    rw [hchain]
    have hidxlt : idx < taus.length := by rw [hn]; omega
    rw [show taus.drop idx = taus[idx] :: taus.drop (idx + 1) from
      List.drop_eq_getElem_cons hidxlt]
    rw [lagSum_cons]
    have hdl : (taus.drop (idx + 1)).length = n - idx - 1 := by
      rw [List.length_drop, hn]
      omega
    rw [hdl]
    rw [hblowval]
    rw [lagSum_quotient (taus.drop (idx + 1)) dividend a (n - idx - 1) hdl hdparse]
    rw [hRpc]
    rw [lagSum_pairCombine (taus.drop (idx + 1)) dividend a (by rw [hdl]; exact hdparse)]
    rw [hdl]
    rw [getD_lt taus idx hidxlt]
    ring

/-- C3: honest multilinear-KZG proofs verify.  With a length-`n` tau
vector, a length-`n` opening vector and an `n`-variable polynomial, the
proof produced by `MultilinearKZGProver::generate_proof` against the
trusted-setup Lagrange basis satisfies the verifier's pairing identity
`e(C - g1^v, g2^1) = Π_j e(q_j, g2^{τ_j - a_j})` (in discrete-log form:
`(C - v)·1 = Σ_j q_j·(τ_j - a_j)`), so
`MultilinearKZGVerifier::verify_proof` accepts it. -/
theorem c3_kzg_honest_proof_verifies (taus openings poly : List F) (n : Nat)
    (hn : taus.length = n) (ho : openings.length = n) (hp : poly.length = 2 ^ n) :
    ∃ pf : MultilinearKZGProof F,
      kzg_generate_proof openings (trusted_setup_basis taus) poly = some pf ∧
        kzg_verify_proof pf openings taus = true := by
  have hbl : poly.length = 2 ^ taus.length := by rw [hn]; exact hp
  have hC : generate_commitment poly (trusted_setup_basis taus) =
      some (lagSum taus poly) := evaluate_at_tau_trusted taus poly hbl
  have hev : evaluate poly (openings.map some) = some (chainP poly openings) :=
    evaluate_all_some poly n hp openings ho
  have hlen1 : (chainP poly openings).length = 1 := by
    rw [length_chainP, hp, ho, Nat.div_self (Nat.two_pow_pos n)]
  obtain ⟨v, hv⟩ := List.length_eq_one.mp hlen1
  obtain ⟨qs, hqs, hlenq, hsum⟩ := kzg_quotients_telescope taus n hn openings 0
    (ml_minus poly v) (by omega) (by simp [ml_minus, hp])
  refine ⟨⟨lagSum taus poly, v, qs⟩, ?_, ?_⟩
  · unfold kzg_generate_proof
    rw [hC, Option.some_bind, hev, Option.some_bind, hv, List.head?_cons,
      Option.some_bind, ho, hqs, Option.map_some']
  · unfold kzg_verify_proof
    rw [decide_eq_true_eq]
    have e : (qs.enum.map (fun p =>
        p.2 * (taus.getD p.1 0 - openings.getD p.1 0))) =
        qs.enum.map (fun p =>
          p.2 * (taus.getD (0 + p.1) 0 - openings.getD p.1 0)) := by
      apply List.map_congr_left
      intro p _
      rw [Nat.zero_add]
    rw [e, hsum, List.drop_zero, lagSum_ml_minus taus poly v hbl]
    have hec : evalChain (ml_minus poly v) openings = 0 := by
      unfold evalChain
      rw [chainP_ml_minus, hv]
      simp [ml_minus]
    rw [hec]
    ring

/-- Witness for C3 at `n = 3`: taus `[2,3,4]`, openings `[1,4,0]` and the
polynomial `[0,4,0,4,0,4,3,2]` over `F5`. -/
theorem c3_kzg_honest_proof_verifies_witness :
    (([2, 3, 4] : List F5).length = 3 ∧ ([1, 4, 0] : List F5).length = 3 ∧
        ([0, 4, 0, 4, 0, 4, 3, 2] : List F5).length = 2 ^ 3) ∧
      ∃ pf : MultilinearKZGProof F5,
        kzg_generate_proof [1, 4, 0] (trusted_setup_basis [2, 3, 4])
            [0, 4, 0, 4, 0, 4, 3, 2] = some pf ∧
          kzg_verify_proof pf [1, 4, 0] [2, 3, 4] = true :=
  ⟨⟨by decide, by decide, by decide⟩,
    c3_kzg_honest_proof_verifies [2, 3, 4] [1, 4, 0] [0, 4, 0, 4, 0, 4, 3, 2] 3
      (by decide) (by decide) (by decide)⟩

/-- C9: code bug — `UnivariatePolynomial::_add` zips up to `cmp::min` of
the two coefficient lengths (its comment says max), dropping the longer
tail.  Over `F5`: `[1] + [0,1] = [1]` (the `x` term is lost), so evaluating
the sum at `x = 1` gives `1` while the sum of the evaluations is `2`. -/
theorem c9_add_truncates :
    uAdd ([1] : List F5) [0, 1] = [1] ∧
      uEvaluate (uAdd ([1] : List F5) [0, 1]) 1 ≠
        uEvaluate ([1] : List F5) 1 + uEvaluate ([0, 1] : List F5) 1 := by
  decide

/-! ### C1 machinery, part A: the sum-check crate's prover against its
verifier on a two-product, two-factor sum polynomial -/

theorem prodSum_pairCombine_quad (a b : List F) (m : Nat)
    (ha : a.length = 2 ^ (m + 1)) (hb : b.length = 2 ^ (m + 1)) (x : F) :
    prodSum (pairCombine a x) (pairCombine b x) =
      qA a b m + qB a b m * x + qC a b m * x ^ 2 := by
  have hla : (pairCombine a x).length = 2 ^ m := by
    rw [length_pairCombine, ha, pow_succ]
    omega
  have ha2 : a.length / 2 = 2 ^ m := by rw [ha, pow_succ]; omega
  have hb2 : b.length / 2 = 2 ^ m := by rw [hb, pow_succ]; omega
  unfold prodSum
  rw [hla]
  have e : ((List.range (2 ^ m)).map (fun k =>
      (pairCombine a x).getD k 0 * (pairCombine b x).getD k 0)) =
      (List.range (2 ^ m)).map (fun k =>
        a.getD k 0 * b.getD k 0 +
          ((a.getD k 0 * (b.getD (k + 2 ^ m) 0 - b.getD k 0) +
              b.getD k 0 * (a.getD (k + 2 ^ m) 0 - a.getD k 0)) * x +
            (a.getD (k + 2 ^ m) 0 - a.getD k 0) *
              (b.getD (k + 2 ^ m) 0 - b.getD k 0) * x ^ 2)) := by
    apply List.map_congr_left
    intro k hk
    rw [List.mem_range] at hk
    rw [pairCombine_getD a x k (by rw [ha2]; exact hk),
      pairCombine_getD b x k (by rw [hb2]; exact hk), ha2, hb2]
    ring
  rw [e, sum_map_add_range, sum_map_add_range, List.sum_map_mul_right,
    List.sum_map_mul_right]
  unfold qA qB qC
  ring

theorem prodSum_halves (a b : List F) (m : Nat)
    (ha : a.length = 2 ^ (m + 1)) (hb : b.length = 2 ^ (m + 1)) :
    prodSum a b = qA a b m + (qA a b m + qB a b m + qC a b m) := by
  unfold prodSum
  rw [ha, show (2 : Nat) ^ (m + 1) = 2 * 2 ^ m from by rw [pow_succ]; ring,
    sum_range_split]
  congr 1
  have e : ((List.range (2 ^ m)).map (fun k =>
      a.getD (2 ^ m + k) 0 * b.getD (2 ^ m + k) 0)) =
      (List.range (2 ^ m)).map (fun k =>
        a.getD k 0 * b.getD k 0 +
          (a.getD k 0 * (b.getD (k + 2 ^ m) 0 - b.getD k 0) +
            b.getD k 0 * (a.getD (k + 2 ^ m) 0 - a.getD k 0)) +
          (a.getD (k + 2 ^ m) 0 - a.getD k 0) *
            (b.getD (k + 2 ^ m) 0 - b.getD k 0)) := by
    apply List.map_congr_left
    intro k hk
    rw [Nat.add_comm (2 ^ m) k]
    ring
  rw [e, sum_map_add_range, sum_map_add_range]
  unfold qA qB qC
  ring

theorem sp_num_vars_pair (P1 Q1 P2 Q2 : List F) (n : Nat)
    (h : P1.length = 2 ^ n) : sp_num_vars [[P1, Q1], [P2, Q2]] = n := by
  unfold sp_num_vars sp_length
  simp only [List.headD_cons]
  rw [h, ilog2_two_pow]

theorem evaluate_some_none (t : List F) (m : Nat) (h : t.length = 2 ^ (m + 1))
    (x : F) :
    (evaluate t (some x :: List.replicate m none)).getD [] = pairCombine t x := by
  have h1 := evaluate_prover_pts t m h x
  rw [numVars_eq t (m + 1) h] at h1
  simpa using h1

theorem sp_partial_evaluate_pair (P1 Q1 P2 Q2 : List F) (m : Nat)
    (h1 : P1.length = 2 ^ (m + 1)) (hq1 : Q1.length = 2 ^ (m + 1))
    (hp2 : P2.length = 2 ^ (m + 1)) (hq2 : Q2.length = 2 ^ (m + 1)) (x : F) :
    sp_partial_evaluate [[P1, Q1], [P2, Q2]] (some x :: List.replicate m none) =
      [[pairCombine P1 x, pairCombine Q1 x],
        [pairCombine P2 x, pairCombine Q2 x]] := by
  simp only [sp_partial_evaluate, pp_partial_evaluate, List.map_cons, List.map_nil]
  rw [evaluate_some_none P1 m h1 x, evaluate_some_none Q1 m hq1 x,
    evaluate_some_none P2 m hp2 x, evaluate_some_none Q2 m hq2 x]

theorem pp_reduce_pair_getD (A B : List F) (i : Nat) (hi : i < A.length) :
    (pp_reduce [A, B]).getD i 0 = A.getD i 0 * B.getD i 0 := by
  unfold pp_reduce
  simp only [List.headD_cons]
  rw [getD_range_map _ _ _ hi]
  simp

theorem sp_reduce_sum_pair (A1 B1 A2 B2 : List F)
    (hb1 : B1.length = A1.length) (ha2 : A2.length = A1.length)
    (hb2 : B2.length = A1.length) :
    (sp_reduce [[A1, B1], [A2, B2]]).sum = prodSum A1 B1 + prodSum A2 B2 := by
  unfold sp_reduce sp_length
  simp only [List.headD_cons]
  have e : ((List.range A1.length).map (fun i =>
      (([[A1, B1], [A2, B2]] : List (List (List F))).map
        (fun pp => (pp_reduce pp).getD i 0)).sum)) =
      (List.range A1.length).map (fun i =>
        A1.getD i 0 * B1.getD i 0 + A2.getD i 0 * B2.getD i 0) := by
    apply List.map_congr_left
    intro i hi
    rw [List.mem_range] at hi
    simp only [List.map_cons, List.map_nil, List.sum_cons, List.sum_nil]
    rw [pp_reduce_pair_getD A1 B1 i hi, pp_reduce_pair_getD A2 B2 i (by omega)]
    ring
  rw [e, sum_map_add_range]
  unfold prodSum
  rw [ha2]

theorem sc_round_eval (P1 Q1 P2 Q2 : List F) (m : Nat)
    (h1 : P1.length = 2 ^ (m + 1)) (hq1 : Q1.length = 2 ^ (m + 1))
    (hp2 : P2.length = 2 ^ (m + 1)) (hq2 : Q2.length = 2 ^ (m + 1)) (x : F) :
    (sp_reduce (sp_partial_evaluate [[P1, Q1], [P2, Q2]]
        (some x :: List.replicate m none))).sum =
      (qA P1 Q1 m + qA P2 Q2 m) + (qB P1 Q1 m + qB P2 Q2 m) * x +
        (qC P1 Q1 m + qC P2 Q2 m) * x ^ 2 := by
  rw [sp_partial_evaluate_pair P1 Q1 P2 Q2 m h1 hq1 hp2 hq2 x]
  rw [sp_reduce_sum_pair (pairCombine P1 x) (pairCombine Q1 x)
    (pairCombine P2 x) (pairCombine Q2 x)
    (by rw [length_pairCombine, length_pairCombine, h1, hq1])
    (by rw [length_pairCombine, length_pairCombine, h1, hp2])
    (by rw [length_pairCombine, length_pairCombine, h1, hq2])]
  rw [prodSum_pairCombine_quad P1 Q1 m h1 hq1 x,
    prodSum_pairCombine_quad P2 Q2 m hp2 hq2 x]
  ring


/-- One round of the modelled sum-check prover on the two-product shape,
in closed form. -/
theorem sc_round_unfold (M : FS F) (h2 : (2 : F) ≠ 0) (m : Nat)
    (P1 Q1 P2 Q2 : List F)
    (hl1 : P1.length = 2 ^ (m + 1)) (hl2 : Q1.length = 2 ^ (m + 1))
    (hl3 : P2.length = 2 ^ (m + 1)) (hl4 : Q2.length = 2 ^ (m + 1)) (ts : TS) :
    sc_prover_rounds M (m + 1) [[P1, Q1], [P2, Q2]] ts =
      (scG P1 Q1 P2 Q2 m ::
          (sc_prover_rounds M m
            [[pairCombine P1 (scCh M P1 Q1 P2 Q2 m ts),
                pairCombine Q1 (scCh M P1 Q1 P2 Q2 m ts)],
              [pairCombine P2 (scCh M P1 Q1 P2 Q2 m ts),
                pairCombine Q2 (scCh M P1 Q1 P2 Q2 m ts)]]
            (scTs2 M P1 Q1 P2 Q2 m ts)).1,
        scCh M P1 Q1 P2 Q2 m ts ::
          (sc_prover_rounds M m
            [[pairCombine P1 (scCh M P1 Q1 P2 Q2 m ts),
                pairCombine Q1 (scCh M P1 Q1 P2 Q2 m ts)],
              [pairCombine P2 (scCh M P1 Q1 P2 Q2 m ts),
                pairCombine Q2 (scCh M P1 Q1 P2 Q2 m ts)]]
            (scTs2 M P1 Q1 P2 Q2 m ts)).2.1,
        (sc_prover_rounds M m
          [[pairCombine P1 (scCh M P1 Q1 P2 Q2 m ts),
              pairCombine Q1 (scCh M P1 Q1 P2 Q2 m ts)],
            [pairCombine P2 (scCh M P1 Q1 P2 Q2 m ts),
              pairCombine Q2 (scCh M P1 Q1 P2 Q2 m ts)]]
          (scTs2 M P1 Q1 P2 Q2 m ts)).2.2) := by
  simp only [sc_prover_rounds, List.length_cons, List.length_nil]
  rw [sp_num_vars_pair P1 Q1 P2 Q2 (m + 1) hl1]
  simp only [Nat.add_sub_cancel]
  have hEvals : (List.map (fun i =>
      (sp_reduce (sp_partial_evaluate [[P1, Q1], [P2, Q2]]
        (some ((i : Nat) : F) :: List.replicate m none))).sum)
      (List.range (0 + 1 + 1 + 1))) =
      [qA P1 Q1 m + qA P2 Q2 m,
        qA P1 Q1 m + qA P2 Q2 m + (qB P1 Q1 m + qB P2 Q2 m) +
          (qC P1 Q1 m + qC P2 Q2 m),
        qA P1 Q1 m + qA P2 Q2 m + 2 * (qB P1 Q1 m + qB P2 Q2 m) +
          4 * (qC P1 Q1 m + qC P2 Q2 m)] := by
    rw [show List.range (0 + 1 + 1 + 1) = [0, 1, 2] from rfl]
    simp only [List.map_cons, List.map_nil]
    rw [sc_round_eval P1 Q1 P2 Q2 m hl1 hl2 hl3 hl4 ((0 : Nat) : F),
      sc_round_eval P1 Q1 P2 Q2 m hl1 hl2 hl3 hl4 ((1 : Nat) : F),
      sc_round_eval P1 Q1 P2 Q2 m hl1 hl2 hl3 hl4 ((2 : Nat) : F)]
    simp only [List.cons.injEq, and_true]
    exact ⟨by push_cast; ring, by push_cast; ring, by push_cast; ring⟩
  rw [hEvals]
  have g0 : ∀ u v w : F, ([u, v, w] : List F).getD 0 0 = u := fun _ _ _ => rfl
  have g1 : ∀ u v w : F, ([u, v, w] : List F).getD 1 0 = v := fun _ _ _ => rfl
  rw [g0, g1]
  have hnodes : (List.map (fun i => ((i : Nat) : F)) (List.range (0 + 1 + 1 + 1))) =
      ([0, 1, 2] : List F) := by
    rw [show List.range (0 + 1 + 1 + 1) = [0, 1, 2] from rfl]
    simp
  rw [hnodes]
  rw [interp3_eq h2 (qA P1 Q1 m + qA P2 Q2 m) (qB P1 Q1 m + qB P2 Q2 m)
    (qC P1 Q1 m + qC P2 Q2 m)]
  rw [sp_partial_evaluate_pair P1 Q1 P2 Q2 m hl1 hl2 hl3 hl4]
  rfl

theorem prodSum_single (u v : F) : prodSum [u] [v] = u * v := by
  unfold prodSum
  rw [show List.range ([u] : List F).length = [0] from rfl]
  simp

/-- Simulation of `SumcheckVerifier::partial_verify`'s round loop against
the modelled prover on the two-product shape: every round check passes,
the verifier's challenges are the prover's, the transcripts stay in sync,
and the final claim is the product-sum of the fully collapsed tables. -/
theorem sc_sim (M : FS F) (h2 : (2 : F) ≠ 0) :
    ∀ (m : Nat) (P1 Q1 P2 Q2 : List F) (σ : F) (acc : List (Option F)) (ts : TS),
      P1.length = 2 ^ m → Q1.length = 2 ^ m → P2.length = 2 ^ m →
      Q2.length = 2 ^ m →
      σ = prodSum P1 Q1 + prodSum P2 Q2 →
      pv_go M (sc_prover_rounds M m [[P1, Q1], [P2, Q2]] ts).1 σ acc ts =
        (true,
          (chainP P1 (sc_prover_rounds M m [[P1, Q1], [P2, Q2]] ts).2.1).headD 0 *
              (chainP Q1 (sc_prover_rounds M m [[P1, Q1], [P2, Q2]] ts).2.1).headD 0 +
            (chainP P2 (sc_prover_rounds M m [[P1, Q1], [P2, Q2]] ts).2.1).headD 0 *
              (chainP Q2 (sc_prover_rounds M m [[P1, Q1], [P2, Q2]] ts).2.1).headD 0,
          acc ++ ((sc_prover_rounds M m [[P1, Q1], [P2, Q2]] ts).2.1).map some,
          (sc_prover_rounds M m [[P1, Q1], [P2, Q2]] ts).2.2) := by
  intro m
  induction m with
  | zero =>
    intro P1 Q1 P2 Q2 σ acc ts hl1 hl2 hl3 hl4 hσ
    rw [show sc_prover_rounds M 0 [[P1, Q1], [P2, Q2]] ts = ([], [], ts) from rfl]
    simp only [pv_go, List.map_nil, List.append_nil]
    refine congrArg₂ Prod.mk rfl (congrArg₂ Prod.mk ?_ rfl)
    obtain ⟨a1, rfl⟩ := List.length_eq_one.mp (by simpa using hl1)
    obtain ⟨b1, rfl⟩ := List.length_eq_one.mp (by simpa using hl2)
    obtain ⟨a2, rfl⟩ := List.length_eq_one.mp (by simpa using hl3)
    obtain ⟨b2, rfl⟩ := List.length_eq_one.mp (by simpa using hl4)
    rw [hσ, prodSum_single, prodSum_single]
    rfl
  | succ m ih =>
    intro P1 Q1 P2 Q2 σ acc ts hl1 hl2 hl3 hl4 hσ
    rw [sc_round_unfold M h2 m P1 Q1 P2 Q2 hl1 hl2 hl3 hl4 ts]
    simp only [pv_go]
    rw [if_neg (not_ne_iff.mpr (by
      rw [hσ, prodSum_halves P1 Q1 m hl1 hl2, prodSum_halves P2 Q2 m hl3 hl4]
      unfold scG uSumHypercube
      rw [uEvaluate_three, uEvaluate_three]
      ring))]
    have hser : M.ser σ = M.ser (scCl P1 Q1 P2 Q2 m) := congrArg M.ser (by
      rw [hσ, prodSum_halves P1 Q1 m hl1 hl2, prodSum_halves P2 Q2 m hl3 hl4]
      unfold scCl
      ring)
    simp only [ts_append_n, List.foldl_cons, List.foldl_nil]
    rw [hser]
    rw [show ts_append (ts_append ts (M.ser (scCl P1 Q1 P2 Q2 m)))
      (uToBytes M (scG P1 Q1 P2 Q2 m)) = scTs1 M P1 Q1 P2 Q2 m ts from rfl]
    have hch : (sample_challenge M (scTs1 M P1 Q1 P2 Q2 m ts)).1 =
        scCh M P1 Q1 P2 Q2 m ts := rfl
    have hts2 : (sample_challenge M (scTs1 M P1 Q1 P2 Q2 m ts)).2 =
        scTs2 M P1 Q1 P2 Q2 m ts := rfl
    rw [hch, hts2]
    have hpc1 : (pairCombine P1 (scCh M P1 Q1 P2 Q2 m ts)).length = 2 ^ m := by
      rw [length_pairCombine, hl1, pow_succ]
      omega
    have hpc2 : (pairCombine Q1 (scCh M P1 Q1 P2 Q2 m ts)).length = 2 ^ m := by
      rw [length_pairCombine, hl2, pow_succ]
      omega
    have hpc3 : (pairCombine P2 (scCh M P1 Q1 P2 Q2 m ts)).length = 2 ^ m := by
      rw [length_pairCombine, hl3, pow_succ]
      omega
    have hpc4 : (pairCombine Q2 (scCh M P1 Q1 P2 Q2 m ts)).length = 2 ^ m := by
      rw [length_pairCombine, hl4, pow_succ]
      omega
    have hσ' : uEvaluate (scG P1 Q1 P2 Q2 m) (scCh M P1 Q1 P2 Q2 m ts) =
        prodSum (pairCombine P1 (scCh M P1 Q1 P2 Q2 m ts))
            (pairCombine Q1 (scCh M P1 Q1 P2 Q2 m ts)) +
          prodSum (pairCombine P2 (scCh M P1 Q1 P2 Q2 m ts))
            (pairCombine Q2 (scCh M P1 Q1 P2 Q2 m ts)) := by
      rw [prodSum_pairCombine_quad P1 Q1 m hl1 hl2,
        prodSum_pairCombine_quad P2 Q2 m hl3 hl4]
      unfold scG
      rw [uEvaluate_three]
      ring
    rw [ih (pairCombine P1 (scCh M P1 Q1 P2 Q2 m ts))
      (pairCombine Q1 (scCh M P1 Q1 P2 Q2 m ts))
      (pairCombine P2 (scCh M P1 Q1 P2 Q2 m ts))
      (pairCombine Q2 (scCh M P1 Q1 P2 Q2 m ts))
      (uEvaluate (scG P1 Q1 P2 Q2 m) (scCh M P1 Q1 P2 Q2 m ts))
      (acc ++ [some (scCh M P1 Q1 P2 Q2 m ts)])
      (scTs2 M P1 Q1 P2 Q2 m ts) hpc1 hpc2 hpc3 hpc4 hσ']
    rw [chainP_cons, chainP_cons, chainP_cons, chainP_cons]
    simp [List.append_assoc]

/-! ### C1 machinery, part B: tensor squares and their evaluation -/

theorem operate_w_self (W : List F) (op : GOp) : operate_w W W op = tpro W W op := rfl

theorem length_tpro (a b : List F) (op : GOp) :
    (tpro a b op).length = a.length * b.length := by
  simp [tpro]

theorem tpro_getD_mul (a b : List F) (i : Nat) (hi : i < a.length * b.length) :
    (tpro a b GOp.mul).getD i 0 =
      a.getD (i / b.length) 0 * b.getD (i % b.length) 0 := by
  unfold tpro
  rw [getD_range_map _ _ _ hi]

theorem tpro_getD_add (a b : List F) (i : Nat) (hi : i < a.length * b.length) :
    (tpro a b GOp.add).getD i 0 =
      a.getD (i / b.length) 0 + b.getD (i % b.length) 0 := by
  unfold tpro
  rw [getD_range_map _ _ _ hi]

theorem chainP_append (t : List F) (xs ys : List F) :
    chainP t (xs ++ ys) = chainP (chainP t xs) ys := by
  simp [chainP, List.foldl_append]

theorem pairCombine_tpro_left (a b : List F) (op : GOp) (x : F) (ma q : Nat)
    (ha : a.length = 2 ^ (ma + 1)) (hb : b.length = 2 ^ q) :
    pairCombine (tpro a b op) x = tpro (pairCombine a x) b op := by
  have hta : (tpro a b op).length / 2 = 2 ^ ma * 2 ^ q := by
    rw [length_tpro, ha, hb, pow_succ]
    rw [show (2 : Nat) ^ ma * 2 * 2 ^ q = 2 ^ ma * 2 ^ q * 2 from by ring]
    omega
  have hpa : (pairCombine a x).length = 2 ^ ma := by
    rw [length_pairCombine, ha, pow_succ]
    omega
  have ha2 : a.length / 2 = 2 ^ ma := by rw [ha, pow_succ]; omega
  apply list_eq_of_getD
  · rw [length_pairCombine, hta, length_tpro, hpa, hb]
  · intro k hk
    rw [length_pairCombine, hta] at hk
    have hkb : k < (tpro a b op).length / 2 := by rw [hta]; exact hk
    rw [pairCombine_getD _ x k hkb, hta]
    have hdivlt : k / 2 ^ q < 2 ^ ma := Nat.div_lt_of_lt_mul (by
      rw [Nat.mul_comm] at hk; exact hk)
    have hik : k < a.length * b.length := by
      rw [ha, hb, pow_succ]
      calc k < 2 ^ ma * 2 ^ q := hk
        _ ≤ 2 ^ ma * 2 * 2 ^ q := by
          have : (2:Nat) ^ ma ≤ 2 ^ ma * 2 := by omega
          exact Nat.mul_le_mul_right _ this
    have hik2 : k + 2 ^ ma * 2 ^ q < a.length * b.length := by
      rw [ha, hb, pow_succ]
      have e : (2:Nat) ^ ma * 2 * 2 ^ q = 2 ^ ma * 2 ^ q + 2 ^ ma * 2 ^ q := by ring
      rw [e]
      omega
    have hdiv2 : (k + 2 ^ ma * 2 ^ q) / b.length = k / 2 ^ q + 2 ^ ma := by
      rw [hb, show k + 2 ^ ma * 2 ^ q = 2 ^ q * 2 ^ ma + k from by ring,
        Nat.mul_add_div (Nat.two_pow_pos q)]
      omega
    have hmod2 : (k + 2 ^ ma * 2 ^ q) % b.length = k % 2 ^ q := by
      rw [hb, show k + 2 ^ ma * 2 ^ q = 2 ^ q * 2 ^ ma + k from by ring,
        Nat.mul_add_mod]
    have hkdm : k / b.length = k / 2 ^ q := by rw [hb]
    have hkmm : k % b.length = k % 2 ^ q := by rw [hb]
    have hplt : k / 2 ^ q < (pairCombine a x).length * b.length := by
      rw [hpa, hb]
      calc k / 2 ^ q < 2 ^ ma := hdivlt
        _ ≤ 2 ^ ma * 2 ^ q := Nat.le_mul_of_pos_right _ (Nat.two_pow_pos q)
    cases op with
    | mul =>
      rw [tpro_getD_mul a b k hik, tpro_getD_mul a b _ hik2,
        tpro_getD_mul (pairCombine a x) b k (by
          rw [hpa, hb]; exact hk)]
      rw [hdiv2, hmod2, hkdm, hkmm]
      rw [pairCombine_getD a x (k / 2 ^ q) (by rw [ha2]; exact hdivlt), ha2]
      ring
    | add =>
      rw [tpro_getD_add a b k hik, tpro_getD_add a b _ hik2,
        tpro_getD_add (pairCombine a x) b k (by
          rw [hpa, hb]; exact hk)]
      rw [hdiv2, hmod2, hkdm, hkmm]
      rw [pairCombine_getD a x (k / 2 ^ q) (by rw [ha2]; exact hdivlt), ha2]
      ring

theorem chainP_tpro_left (b : List F) (op : GOp) (q : Nat) (hb : b.length = 2 ^ q) :
    ∀ (ch : List F) (a : List F), a.length = 2 ^ ch.length →
      chainP (tpro a b op) ch = tpro (chainP a ch) b op := by
  intro ch
  induction ch with
  | nil => intro a _; rfl
  | cons x ch ihc =>
    intro a ha
    have ha' : a.length = 2 ^ (ch.length + 1) := by simpa using ha
    rw [chainP_cons, chainP_cons,
      pairCombine_tpro_left a b op x ch.length q ha' hb,
      ihc (pairCombine a x) (by rw [length_pairCombine, ha', pow_succ]; omega)]

theorem tpro_single_mul (u : F) (b : List F) :
    tpro [u] b GOp.mul = b.map (fun y => u * y) := by
  apply list_eq_of_getD
  · rw [length_tpro, List.length_map, List.length_cons, List.length_nil]
    omega
  · intro k hk
    rw [length_tpro] at hk
    have hkb : k < b.length := by simpa using hk
    rw [tpro_getD_mul [u] b k hk]
    rw [Nat.div_eq_of_lt hkb, Nat.mod_eq_of_lt hkb]
    rw [getD_lt (List.map (fun y => u * y) b) k (by simpa using hkb),
      List.getElem_map, getD_lt b k hkb]
    simp

theorem tpro_single_add (u : F) (b : List F) :
    tpro [u] b GOp.add = b.map (fun y => u + y) := by
  apply list_eq_of_getD
  · rw [length_tpro, List.length_map, List.length_cons, List.length_nil]
    omega
  · intro k hk
    rw [length_tpro] at hk
    have hkb : k < b.length := by simpa using hk
    rw [tpro_getD_add [u] b k hk]
    rw [Nat.div_eq_of_lt hkb, Nat.mod_eq_of_lt hkb]
    rw [getD_lt (List.map (fun y => u + y) b) k (by simpa using hkb),
      List.getElem_map, getD_lt b k hkb]
    simp

theorem pairCombine_map_mul (u x : F) (b : List F) :
    pairCombine (b.map (fun y => u * y)) x =
      (pairCombine b x).map (fun y => u * y) := by
  unfold pairCombine
  rw [List.map_map, List.length_map]
  apply List.map_congr_left
  intro k hk
  rw [List.mem_range] at hk
  have hk1 : k < b.length := by omega
  have hk2 : k + b.length / 2 < b.length := by omega
  have hgd : ∀ i, i < b.length → (b.map (fun y => u * y)).getD i 0 = u * b.getD i 0 := by
    intro i hi
    rw [getD_lt _ i (by simpa using hi), getD_lt b i hi]
    simp
  simp only [Function.comp]
  rw [hgd k hk1, hgd (k + b.length / 2) hk2]
  ring

theorem pairCombine_map_add (u x : F) (b : List F) :
    pairCombine (b.map (fun y => u + y)) x =
      (pairCombine b x).map (fun y => u + y) := by
  unfold pairCombine
  rw [List.map_map, List.length_map]
  apply List.map_congr_left
  intro k hk
  rw [List.mem_range] at hk
  have hk1 : k < b.length := by omega
  have hk2 : k + b.length / 2 < b.length := by omega
  have hgd : ∀ i, i < b.length → (b.map (fun y => u + y)).getD i 0 = u + b.getD i 0 := by
    intro i hi
    rw [getD_lt _ i (by simpa using hi), getD_lt b i hi]
    simp
  simp only [Function.comp]
  rw [hgd k hk1, hgd (k + b.length / 2) hk2]
  ring

theorem chainP_map_mul (u : F) : ∀ (ch : List F) (b : List F),
    chainP (b.map (fun y => u * y)) ch = (chainP b ch).map (fun y => u * y) := by
  intro ch
  induction ch with
  | nil => intro b; rfl
  | cons x ch ihc =>
    intro b
    rw [chainP_cons, chainP_cons, pairCombine_map_mul, ihc]

theorem chainP_map_add (u : F) : ∀ (ch : List F) (b : List F),
    chainP (b.map (fun y => u + y)) ch = (chainP b ch).map (fun y => u + y) := by
  intro ch
  induction ch with
  | nil => intro b; rfl
  | cons x ch ihc =>
    intro b
    rw [chainP_cons, chainP_cons, pairCombine_map_add, ihc]

/-- Multilinear evaluation of the tensor square `W ⊗ W` at a split point
is the product of the two evaluations. -/
theorem chainP_operate_w_mul (W : List F) (mq : Nat) (hW : W.length = 2 ^ mq)
    (chb chc : List F) (hcb : chb.length = mq) (hcc : chc.length = mq) :
    (chainP (operate_w W W GOp.mul) (chb ++ chc)).headD 0 =
      (chainP W chb).headD 0 * (chainP W chc).headD 0 := by
  rw [operate_w_self, chainP_append,
    chainP_tpro_left W GOp.mul mq hW chb W (by rw [hW, hcb])]
  obtain ⟨u, hu⟩ := List.length_eq_one.mp (show (chainP W chb).length = 1 from by
    rw [length_chainP, hW, hcb, Nat.div_self (Nat.two_pow_pos mq)])
  obtain ⟨v, hv⟩ := List.length_eq_one.mp (show (chainP W chc).length = 1 from by
    rw [length_chainP, hW, hcc, Nat.div_self (Nat.two_pow_pos mq)])
  rw [hu, tpro_single_mul, chainP_map_mul, hv]
  simp

/-- Multilinear evaluation of the tensor sum `W ⊕ W` at a split point is
the sum of the two evaluations. -/
theorem chainP_operate_w_add (W : List F) (mq : Nat) (hW : W.length = 2 ^ mq)
    (chb chc : List F) (hcb : chb.length = mq) (hcc : chc.length = mq) :
    (chainP (operate_w W W GOp.add) (chb ++ chc)).headD 0 =
      (chainP W chb).headD 0 + (chainP W chc).headD 0 := by
  rw [operate_w_self, chainP_append,
    chainP_tpro_left W GOp.add mq hW chb W (by rw [hW, hcb])]
  obtain ⟨u, hu⟩ := List.length_eq_one.mp (show (chainP W chb).length = 1 from by
    rw [length_chainP, hW, hcb, Nat.div_self (Nat.two_pow_pos mq)])
  obtain ⟨v, hv⟩ := List.length_eq_one.mp (show (chainP W chc).length = 1 from by
    rw [length_chainP, hW, hcc, Nat.div_self (Nat.two_pow_pos mq)])
  rw [hu, tpro_single_add, chainP_map_add, hv]
  simp

/-! ### C1 machinery, part C: circuit evaluation and selector tables -/

theorem getD_range_map_gen {α : Type} (f : Nat → α) (d : α) (n k : Nat)
    (h : k < n) : (((List.range n).map f).getD k d) = f k := by
  rw [List.getD_eq_getElem?_getD, List.getElem?_map, List.getElem?_range h]
  rfl

theorem mul_pow_lor : ∀ (b a l : Nat), l < 2 ^ b →
    (a * 2 ^ b) ||| l = a * 2 ^ b + l := by
  intro b
  induction b with
  | zero =>
    intro a l hl
    interval_cases l
    simp
  | succ b ih =>
    intro a l hl
    have hdm := Nat.div_add_mod l 2
    have hps : (2 : Nat) ^ (b + 1) = 2 * 2 ^ b := by rw [pow_succ]; ring
    have hl2 : l / 2 < 2 ^ b := by omega
    have h1 : a * 2 ^ (b + 1) = Nat.bit false (a * 2 ^ b) := by
      simp [Nat.bit]
      rw [hps]
      ring
    have e : a * 2 ^ (b + 1) = 2 * (a * 2 ^ b) := by rw [hps]; ring
    by_cases hb : l % 2 = 1
    · have h2 : l = Nat.bit true (l / 2) := by simp [Nat.bit]; omega
      rw [h1, h2, Nat.lor_bit, ih a (l / 2) hl2]
      simp [Nat.bit]
      omega
    · have h2 : l = Nat.bit false (l / 2) := by simp [Nat.bit]; omega
      rw [h1, h2, Nat.lor_bit, ih a (l / 2) hl2]
      simp [Nat.bit]
      omega

/-- `get_bit_idx` packs `(o, l, r)` positionally when the wire indices fit
in `ib` bits. -/
theorem get_bit_idx_closed (o l r ib : Nat) (hl : l < 2 ^ ib) (hr : r < 2 ^ ib) :
    get_bit_idx o l r ib = o * 2 ^ (2 * ib) + l * 2 ^ ib + r := by
  unfold get_bit_idx
  simp only [Nat.shiftLeft_eq]
  rw [mul_pow_lor ib o l hl, mul_pow_lor ib (o * 2 ^ ib + l) r hr]
  have e : 2 ^ (2 * ib) = 2 ^ ib * 2 ^ ib := by
    rw [two_mul, pow_add]
  rw [e]
  ring

theorem le_foldr_max : ∀ (l : List Nat) (x : Nat), x ∈ l → x ≤ l.foldr max 0 := by
  intro l
  induction l with
  | nil => intro x hx; cases hx
  | cons a l ih =>
    intro x hx
    rcases List.mem_cons.mp hx with h | h
    · subst h
      exact le_max_left _ _
    · exact le_trans (ih x h) (le_max_right _ _)

theorem sel_out_len_eq (gates : List CGate) :
    sel_out_len gates = max (nextPowerOfTwo gates.length) 2 := by
  unfold sel_out_len
  by_cases h : nextPowerOfTwo gates.length = 1
  · rw [if_pos h, h]
    omega
  · rw [if_neg h]
    have h2 : 2 ≤ nextPowerOfTwo gates.length := by
      rw [nextPowerOfTwo_eq] at *
      have h0 : 0 < (2 : Nat) ^ Nat.clog 2 gates.length := Nat.two_pow_pos _
      have : Nat.clog 2 gates.length ≠ 0 := by
        intro hc
        rw [hc] at h
        simp at h
      calc (2:Nat) = 2 ^ 1 := by norm_num
        _ ≤ 2 ^ Nat.clog 2 gates.length :=
          Nat.pow_le_pow_right (by norm_num) (by omega)
    omega

theorem sel_out_len_pow (gates : List CGate) :
    ∃ a, sel_out_len gates = 2 ^ a := by
  unfold sel_out_len
  rw [nextPowerOfTwo_eq]
  by_cases h : (2 : Nat) ^ Nat.clog 2 gates.length = 1
  · exact ⟨1, by rw [if_pos h, h]; norm_num⟩
  · exact ⟨Nat.clog 2 gates.length, by rw [if_neg h]⟩

theorem npot_ge (n : Nat) : n ≤ nextPowerOfTwo n := by
  rw [nextPowerOfTwo_eq]
  exact Nat.le_pow_clog one_lt_two n

theorem two_pow_sel_in_bits (gates : List CGate) :
    2 ^ sel_in_bits gates =
      nextPowerOfTwo ((gates.map (fun g => max (g.left + 1) (g.right + 1))).foldr
        max 0) := by
  unfold sel_in_bits
  rw [nextPowerOfTwo_eq, ilog2_two_pow, ← nextPowerOfTwo_eq]

theorem sel_in_bits_bound (gates : List CGate) (g : CGate) (hg : g ∈ gates) :
    g.left < 2 ^ sel_in_bits gates ∧ g.right < 2 ^ sel_in_bits gates := by
  rw [two_pow_sel_in_bits]
  have hm : max (g.left + 1) (g.right + 1) ≤
      ((gates.map (fun g => max (g.left + 1) (g.right + 1))).foldr max 0) :=
    le_foldr_max _ _ (List.mem_map_of_mem _ hg)
  have hn := npot_ge ((gates.map (fun g => max (g.left + 1) (g.right + 1))).foldr
    max 0)
  omega

theorem get_gate_poly_eq (layers : Circuit) (li : Nat) (cond : GOp) :
    get_gate_poly (F := F) layers li cond =
      selTable (layers.getD (layers.length - li - 1) []) cond := rfl

theorem foldl_set_length (cond : GOp) (ib : Nat) :
    ∀ (ps : List (Nat × CGate)) (acc : List F),
      (ps.foldl (fun acc p =>
        if match_gate_condition p.2 cond then
          acc.set (get_bit_idx p.1 p.2.left p.2.right ib) 1
        else acc) acc).length = acc.length := by
  intro ps
  induction ps with
  | nil => intro acc; rfl
  | cons p ps ih =>
    intro acc
    rw [List.foldl_cons, ih]
    by_cases h : match_gate_condition p.2 cond = true
    · rw [if_pos h, List.length_set]
    · rw [if_neg h]

theorem length_selTable (gates : List CGate) (cond : GOp) :
    (selTable (F := F) gates cond).length =
      sel_out_len gates * 2 ^ (2 * sel_in_bits gates) := by
  unfold selTable
  rw [foldl_set_length, List.length_replicate, Nat.shiftLeft_eq, one_mul]

theorem foldl_set_miss (cond : GOp) (ib t : Nat) :
    ∀ (ps : List (Nat × CGate)) (acc : List F),
      (∀ p ∈ ps, ¬(match_gate_condition p.2 cond = true ∧
        get_bit_idx p.1 p.2.left p.2.right ib = t)) →
      (ps.foldl (fun acc p =>
        if match_gate_condition p.2 cond then
          acc.set (get_bit_idx p.1 p.2.left p.2.right ib) 1
        else acc) acc).getD t 0 = acc.getD t 0 := by
  intro ps
  induction ps with
  | nil => intro acc _; rfl
  | cons p ps ih =>
    intro acc hmiss
    rw [List.foldl_cons]
    rw [ih _ (fun q hq => hmiss q (List.mem_cons_of_mem p hq))]
    by_cases h : match_gate_condition p.2 cond = true
    · rw [if_pos h]
      have hne : get_bit_idx p.1 p.2.left p.2.right ib ≠ t := by
        intro he
        exact hmiss p (List.mem_cons_self p ps) ⟨h, he⟩
      rw [List.getD_eq_getElem?_getD, List.getD_eq_getElem?_getD,
        List.getElem?_set_ne hne]
    · rw [if_neg h]

theorem foldl_set_hit (cond : GOp) (ib t : Nat) :
    ∀ (ps : List (Nat × CGate)) (acc : List F) (p0 : Nat × CGate),
      p0 ∈ ps →
      match_gate_condition p0.2 cond = true →
      get_bit_idx p0.1 p0.2.left p0.2.right ib = t →
      t < acc.length →
      List.Pairwise (fun p q : Nat × CGate =>
        get_bit_idx p.1 p.2.left p.2.right ib ≠
          get_bit_idx q.1 q.2.left q.2.right ib) ps →
      (ps.foldl (fun acc p =>
        if match_gate_condition p.2 cond then
          acc.set (get_bit_idx p.1 p.2.left p.2.right ib) 1
        else acc) acc).getD t 0 = 1 := by
  intro ps
  induction ps with
  | nil => intro acc p0 hmem; cases hmem
  | cons p ps ih =>
    intro acc p0 hmem hmatch hidx hlen hpw
    rw [List.foldl_cons]
    rcases List.mem_cons.mp hmem with he | hmem'
    · subst he
      rw [if_pos hmatch, hidx]
      rw [foldl_set_miss cond ib t ps _ (fun q hq hcon => by
        have := (List.pairwise_cons.mp hpw).1 q hq
        rw [hidx] at this
        exact this hcon.2.symm)]
      rw [List.getD_eq_getElem?_getD, List.getElem?_set_self hlen]
      rfl
    · have hne : get_bit_idx p.1 p.2.left p.2.right ib ≠ t := by
        have := (List.pairwise_cons.mp hpw).1 p0 hmem'
        rw [hidx] at this
        exact this
      have hpw' := (List.pairwise_cons.mp hpw).2
      by_cases h : match_gate_condition p.2 cond = true
      · rw [if_pos h]
        exact ih _ p0 hmem' hmatch hidx (by rw [List.length_set]; exact hlen) hpw'
      · rw [if_neg h]
        exact ih _ p0 hmem' hmatch hidx hlen hpw'

theorem pairwise_fst_lt_enumFrom {α : Type} :
    ∀ (l : List α) (k : Nat),
      List.Pairwise (fun a b : Nat × α => a.1 < b.1) (l.enumFrom k) := by
  intro l
  induction l with
  | nil => intro k; exact List.Pairwise.nil
  | cons x l ih =>
    intro k
    rw [List.enumFrom_cons]
    refine List.pairwise_cons.mpr ⟨?_, ih (k + 1)⟩
    intro p hp
    have := List.le_fst_of_mem_enumFrom hp
    omega

theorem sum_indicator_range (g : Nat → F) :
    ∀ (n j : Nat), j < n →
      ((List.range n).map (fun i => (if i = j then (1 : F) else 0) * g i)).sum =
        g j := by
  intro n
  induction n with
  | zero => intro j hj; omega
  | succ n ih =>
    intro j hj
    rw [List.range_succ, List.map_append, List.sum_append]
    by_cases hje : j = n
    · subst hje
      rw [List.sum_eq_zero (by
        intro x hx
        rw [List.mem_map] at hx
        obtain ⟨i, hi, rfl⟩ := hx
        rw [List.mem_range] at hi
        rw [if_neg (by omega)]
        ring)]
      simp
    · rw [ih j (by omega)]
      simp only [List.map_cons, List.map_nil, List.sum_cons, List.sum_nil]
      rw [if_neg (by omega : ¬n = j)]
      ring

theorem getD_replicate_zero (n t : Nat) :
    (List.replicate n (0 : F)).getD t 0 = 0 := by
  rw [List.getD_eq_getElem?_getD, List.getElem?_replicate]
  by_cases h : t < n <;> simp [h]

/-- The packed index of an in-bounds gate decomposes positionally below
`2^(2b)`. -/
theorem gate_bidx (gates : List CGate) (p : Nat × CGate)
    (hp : p.2 ∈ gates) :
    get_bit_idx p.1 p.2.left p.2.right (sel_in_bits gates) =
      p.1 * 2 ^ (2 * sel_in_bits gates) +
        (p.2.left * 2 ^ sel_in_bits gates + p.2.right) ∧
      p.2.left * 2 ^ sel_in_bits gates + p.2.right <
        2 ^ (2 * sel_in_bits gates) := by
  obtain ⟨hl, hr⟩ := sel_in_bits_bound gates p.2 hp
  refine ⟨?_, ?_⟩
  · rw [get_bit_idx_closed _ _ _ _ hl hr]
    ring
  · have e : (2 : Nat) ^ (2 * sel_in_bits gates) =
        2 ^ sel_in_bits gates * 2 ^ sel_in_bits gates := by
      rw [two_mul, pow_add]
    rw [e]
    calc p.2.left * 2 ^ sel_in_bits gates + p.2.right
        < p.2.left * 2 ^ sel_in_bits gates + 2 ^ sel_in_bits gates := by omega
      _ = (p.2.left + 1) * 2 ^ sel_in_bits gates := by ring
      _ ≤ 2 ^ sel_in_bits gates * 2 ^ sel_in_bits gates :=
        Nat.mul_le_mul_right _ (by omega)

/-- Closed form of a selector-table entry. -/
theorem selTable_getD (gates : List CGate) (cond : GOp) (t : Nat) :
    (selTable (F := F) gates cond).getD t 0 =
      match gates.get? (t / 2 ^ (2 * sel_in_bits gates)) with
      | some g =>
        if match_gate_condition g cond = true ∧
            t % 2 ^ (2 * sel_in_bits gates) =
              g.left * 2 ^ sel_in_bits gates + g.right ∧
            t < sel_out_len gates * 2 ^ (2 * sel_in_bits gates)
          then 1 else 0
      | none => 0 := by
  have hdm := Nat.div_add_mod t (2 ^ (2 * sel_in_bits gates))
  have hmlt : t % 2 ^ (2 * sel_in_bits gates) < 2 ^ (2 * sel_in_bits gates) :=
    Nat.mod_lt _ (Nat.two_pow_pos _)
  have hinit : (List.replicate
      (sel_out_len gates * (1 <<< (2 * sel_in_bits gates))) (0 : F)).length =
      sel_out_len gates * 2 ^ (2 * sel_in_bits gates) := by
    rw [List.length_replicate, Nat.shiftLeft_eq, one_mul]
  cases hg : gates.get? (t / 2 ^ (2 * sel_in_bits gates)) with
  | none =>
    show (selTable (F := F) gates cond).getD t 0 = 0
    have hlen := List.get?_eq_none.mp hg
    unfold selTable
    rw [foldl_set_miss cond (sel_in_bits gates) t gates.enum
      (List.replicate (sel_out_len gates * (1 <<< (2 * sel_in_bits gates))) (0 : F))
      (by
        intro p hp hcon
        have hmem := List.snd_mem_of_mem_enum hp
        obtain ⟨hb, hs⟩ := gate_bidx gates p hmem
        obtain ⟨_, hbe⟩ := hcon
        rw [hb] at hbe
        have hlt : p.1 < gates.length := by
          have := List.fst_lt_of_mem_enum (by simpa using hp)
          simpa using this
        have hp1 : t / 2 ^ (2 * sel_in_bits gates) = p.1 := by
          rw [← hbe, show p.1 * 2 ^ (2 * sel_in_bits gates) +
            (p.2.left * 2 ^ sel_in_bits gates + p.2.right) =
            2 ^ (2 * sel_in_bits gates) * p.1 +
              (p.2.left * 2 ^ sel_in_bits gates + p.2.right) from by ring,
            Nat.mul_add_div (Nat.two_pow_pos _), Nat.div_eq_of_lt hs,
            Nat.add_zero]
        omega)]
    exact getD_replicate_zero _ _
  | some g =>
    show (selTable (F := F) gates cond).getD t 0 =
      if match_gate_condition g cond = true ∧
          t % 2 ^ (2 * sel_in_bits gates) =
            g.left * 2 ^ sel_in_bits gates + g.right ∧
          t < sel_out_len gates * 2 ^ (2 * sel_in_bits gates)
        then 1 else 0
    have hmemg : g ∈ gates := List.get?_mem hg
    obtain ⟨hlg, hrg⟩ := sel_in_bits_bound gates g hmemg
    by_cases hc : match_gate_condition g cond = true ∧
        t % 2 ^ (2 * sel_in_bits gates) =
          g.left * 2 ^ sel_in_bits gates + g.right ∧
        t < sel_out_len gates * 2 ^ (2 * sel_in_bits gates)
    · rw [if_pos hc]
      obtain ⟨hmatch, hmod, htlt⟩ := hc
      unfold selTable
      apply foldl_set_hit cond (sel_in_bits gates) t gates.enum
        (List.replicate (sel_out_len gates * (1 <<< (2 * sel_in_bits gates))) (0 : F))
        (t / 2 ^ (2 * sel_in_bits gates), g)
      · exact List.mk_mem_enum_iff_get?.mpr hg
      · exact hmatch
      · show get_bit_idx (t / 2 ^ (2 * sel_in_bits gates)) g.left g.right
          (sel_in_bits gates) = t
        rw [get_bit_idx_closed _ _ _ _ hlg hrg]
        have h1 : 2 ^ (2 * sel_in_bits gates) *
            (t / 2 ^ (2 * sel_in_bits gates)) =
            t / 2 ^ (2 * sel_in_bits gates) * 2 ^ (2 * sel_in_bits gates) := by
          ring
        omega
      · rw [hinit]
        exact htlt
      · refine List.Pairwise.imp_of_mem ?_ (pairwise_fst_lt_enumFrom gates 0)
        intro p q hp hq hlt
        obtain ⟨hbp, hsp⟩ := gate_bidx gates p (List.snd_mem_of_mem_enum hp)
        obtain ⟨hbq, hsq⟩ := gate_bidx gates q (List.snd_mem_of_mem_enum hq)
        rw [hbp, hbq]
        intro hcon
        have hple : (p.1 + 1) * 2 ^ (2 * sel_in_bits gates) ≤
            q.1 * 2 ^ (2 * sel_in_bits gates) :=
          Nat.mul_le_mul_right _ (by omega)
        have e : (p.1 + 1) * 2 ^ (2 * sel_in_bits gates) =
            p.1 * 2 ^ (2 * sel_in_bits gates) + 2 ^ (2 * sel_in_bits gates) := by
          ring
        omega
    · rw [if_neg hc]
      unfold selTable
      rw [foldl_set_miss cond (sel_in_bits gates) t gates.enum
        (List.replicate (sel_out_len gates * (1 <<< (2 * sel_in_bits gates))) (0 : F))
        (by
          intro p hp hcon
          have hmem := List.snd_mem_of_mem_enum hp
          obtain ⟨hb, hs⟩ := gate_bidx gates p hmem
          obtain ⟨hcm, hce⟩ := hcon
          rw [hb] at hce
          have hp1 : t / 2 ^ (2 * sel_in_bits gates) = p.1 := by
            rw [← hce, show p.1 * 2 ^ (2 * sel_in_bits gates) +
              (p.2.left * 2 ^ sel_in_bits gates + p.2.right) =
              2 ^ (2 * sel_in_bits gates) * p.1 +
                (p.2.left * 2 ^ sel_in_bits gates + p.2.right) from by ring,
              Nat.mul_add_div (Nat.two_pow_pos _), Nat.div_eq_of_lt hs,
              Nat.add_zero]
          have hprod : 2 ^ (2 * sel_in_bits gates) *
              (t / 2 ^ (2 * sel_in_bits gates)) =
              p.1 * 2 ^ (2 * sel_in_bits gates) := by rw [hp1]; ring
          have hlow : p.2.left * 2 ^ sel_in_bits gates + p.2.right =
              t % 2 ^ (2 * sel_in_bits gates) := by omega
          have hpg : p.2 = g := by
            have hge := List.mem_enum_iff_get?.mp hp
            rw [hp1] at hg
            rw [hge] at hg
            exact (Option.some.injEq _ _).mp hg
          have htlt : t < sel_out_len gates * 2 ^ (2 * sel_in_bits gates) := by
            have hplt : p.1 < gates.length := by
              have := List.fst_lt_of_mem_enum (by simpa using hp)
              simpa using this
            have hsel : gates.length ≤ sel_out_len gates := by
              rw [sel_out_len_eq]
              have := npot_ge gates.length
              omega
            have hmul : (p.1 + 1) * 2 ^ (2 * sel_in_bits gates) ≤
                sel_out_len gates * 2 ^ (2 * sel_in_bits gates) :=
              Nat.mul_le_mul_right _ (by omega)
            have e : (p.1 + 1) * 2 ^ (2 * sel_in_bits gates) =
                p.1 * 2 ^ (2 * sel_in_bits gates) +
                  2 ^ (2 * sel_in_bits gates) := by
              ring
            omega
          exact hc ⟨by rw [← hpg]; exact hcm, by rw [← hpg]; omega, htlt⟩)]
      exact getD_replicate_zero _ _

theorem block_div_mod (B o i : Nat) (hB : 0 < B) (hi : i < B) :
    (o * B + i) / B = o ∧ (o * B + i) % B = i := by
  constructor
  · rw [show o * B + i = B * o + i from by ring, Nat.mul_add_div hB,
      Nat.div_eq_of_lt hi, Nat.add_zero]
  · rw [show o * B + i = B * o + i from by ring, Nat.mul_add_mod,
      Nat.mod_eq_of_lt hi]

theorem length_operate_w (W W' : List F) (op : GOp) :
    (operate_w W W' op).length = W.length * W'.length := by
  simp [operate_w]

theorem length_layer_eval (gates : List CGate) (run : List F) :
    (layer_eval gates run).length = max (nextPowerOfTwo gates.length) 2 := by
  simp [layer_eval]

theorem layer_eval_getD (gates : List CGate) (run : List F) (o : Nat)
    (ho : o < max (nextPowerOfTwo gates.length) 2) :
    (layer_eval gates run).getD o 0 =
      match gates.get? o with
      | some g => gate_output run g
      | none => 0 := by
  unfold layer_eval
  rw [getD_range_map _ _ _ ho]

/-- Row `o` of the weighted row sums of a selector table against a weight
table: the weight at the packed input index of gate `o`, when it matches. -/
theorem selTable_rowComb (gates : List CGate) (cond : GOp) (G : List F)
    (hG : G.length = 2 ^ (2 * sel_in_bits gates)) (o : Nat)
    (ho : o < sel_out_len gates) :
    (rowComb (selTable gates cond) G).getD o 0 =
      match gates.get? o with
      | some g =>
        if match_gate_condition g cond = true
          then G.getD (g.left * 2 ^ sel_in_bits gates + g.right) 0 else 0
      | none => 0 := by
  unfold rowComb
  have hrows : (selTable (F := F) gates cond).length / G.length =
      sel_out_len gates := by
    rw [length_selTable, hG]
    exact Nat.mul_div_cancel _ (Nat.two_pow_pos _)
  rw [hrows, getD_range_map _ _ _ ho, hG]
  have hblk := fun i (hi : i < 2 ^ (2 * sel_in_bits gates)) =>
    block_div_mod (2 ^ (2 * sel_in_bits gates)) o i (Nat.two_pow_pos _) hi
  have hlt3 : ∀ i, i < 2 ^ (2 * sel_in_bits gates) →
      o * 2 ^ (2 * sel_in_bits gates) + i <
        sel_out_len gates * 2 ^ (2 * sel_in_bits gates) := by
    intro i hi
    have hmul : (o + 1) * 2 ^ (2 * sel_in_bits gates) ≤
        sel_out_len gates * 2 ^ (2 * sel_in_bits gates) :=
      Nat.mul_le_mul_right _ (by omega)
    have e : (o + 1) * 2 ^ (2 * sel_in_bits gates) =
        o * 2 ^ (2 * sel_in_bits gates) + 2 ^ (2 * sel_in_bits gates) := by ring
    omega
  cases hgo : gates.get? o with
  | none =>
    show ((List.range (2 ^ (2 * sel_in_bits gates))).map (fun i =>
      (selTable gates cond).getD (o * 2 ^ (2 * sel_in_bits gates) + i) 0 *
        G.getD i 0)).sum = 0
    apply List.sum_eq_zero
    intro x hx
    rw [List.mem_map] at hx
    obtain ⟨i, hi, rfl⟩ := hx
    rw [List.mem_range] at hi
    rw [selTable_getD, (hblk i hi).1, hgo]
    ring
  | some g =>
    show ((List.range (2 ^ (2 * sel_in_bits gates))).map (fun i =>
      (selTable gates cond).getD (o * 2 ^ (2 * sel_in_bits gates) + i) 0 *
        G.getD i 0)).sum =
      if match_gate_condition g cond = true
        then G.getD (g.left * 2 ^ sel_in_bits gates + g.right) 0 else 0
    have hmg : g ∈ gates := List.get?_mem hgo
    have hi0 : g.left * 2 ^ sel_in_bits gates + g.right <
        2 ^ (2 * sel_in_bits gates) := (gate_bidx gates (o, g) hmg).2
    by_cases hmc : match_gate_condition g cond = true
    · rw [if_pos hmc]
      have e : ((List.range (2 ^ (2 * sel_in_bits gates))).map (fun i =>
          (selTable gates cond).getD (o * 2 ^ (2 * sel_in_bits gates) + i) 0 *
            G.getD i 0)) =
          (List.range (2 ^ (2 * sel_in_bits gates))).map (fun i =>
            (if i = g.left * 2 ^ sel_in_bits gates + g.right then (1 : F) else 0) *
              G.getD i 0) := by
        apply List.map_congr_left
        intro i hi
        rw [List.mem_range] at hi
        congr 1
        rw [selTable_getD, (hblk i hi).1, hgo]
        show (if match_gate_condition g cond = true ∧
            (o * 2 ^ (2 * sel_in_bits gates) + i) % 2 ^ (2 * sel_in_bits gates) =
              g.left * 2 ^ sel_in_bits gates + g.right ∧
            o * 2 ^ (2 * sel_in_bits gates) + i <
              sel_out_len gates * 2 ^ (2 * sel_in_bits gates)
          then (1 : F) else 0) = _
        by_cases hieq : i = g.left * 2 ^ sel_in_bits gates + g.right
        · rw [if_pos ⟨hmc, by rw [(hblk i hi).2]; exact hieq, hlt3 i hi⟩,
            if_pos hieq]
        · rw [if_neg (by
            intro hcon
            obtain ⟨_, hmid, _⟩ := hcon
            rw [(hblk i hi).2] at hmid
            exact hieq hmid), if_neg hieq]
      rw [e, sum_indicator_range _ _ _ hi0]
    · rw [if_neg hmc]
      apply List.sum_eq_zero
      intro x hx
      rw [List.mem_map] at hx
      obtain ⟨i, hi, rfl⟩ := hx
      rw [List.mem_range] at hi
      rw [selTable_getD, (hblk i hi).1, hgo]
      show (if match_gate_condition g cond = true ∧
          (o * 2 ^ (2 * sel_in_bits gates) + i) % 2 ^ (2 * sel_in_bits gates) =
            g.left * 2 ^ sel_in_bits gates + g.right ∧
          o * 2 ^ (2 * sel_in_bits gates) + i <
            sel_out_len gates * 2 ^ (2 * sel_in_bits gates)
        then (1 : F) else 0) * G.getD i 0 = 0
      rw [if_neg (by intro hcon; exact hmc hcon.1)]
      ring

/-- Per-output-gate identity: the matched selector rows weighted by the
tensor square of the layer below reproduce the layer's padded wire
table. -/
theorem layer_row_identity (gates : List CGate) (W : List F)
    (hW : W.length = 2 ^ sel_in_bits gates) (o : Nat)
    (ho : o < sel_out_len gates) :
    (rowComb (selTable gates GOp.mul) (operate_w W W GOp.mul)).getD o 0 +
      (rowComb (selTable gates GOp.add) (operate_w W W GOp.add)).getD o 0 =
      (layer_eval gates W).getD o 0 := by
  have hlG : ∀ op : GOp, (operate_w W W op).length =
      2 ^ (2 * sel_in_bits gates) := by
    intro op
    rw [length_operate_w, hW, two_mul, pow_add]
  rw [selTable_rowComb gates GOp.mul _ (hlG GOp.mul) o ho,
    selTable_rowComb gates GOp.add _ (hlG GOp.add) o ho,
    layer_eval_getD gates W o (by rw [← sel_out_len_eq]; exact ho)]
  cases hgo : gates.get? o with
  | none =>
    show (0 : F) + 0 = 0
    ring
  | some g =>
    have hmg : g ∈ gates := List.get?_mem hgo
    obtain ⟨hlg, hrg⟩ := sel_in_bits_bound gates g hmg
    have hi0 : g.left * 2 ^ sel_in_bits gates + g.right <
        2 ^ (2 * sel_in_bits gates) := (gate_bidx gates (o, g) hmg).2
    have hi0' : g.left * 2 ^ sel_in_bits gates + g.right <
        W.length * W.length := by
      rw [hW, ← pow_add, ← two_mul]
      exact hi0
    have hdm := block_div_mod (2 ^ sel_in_bits gates) g.left g.right
      (Nat.two_pow_pos _) hrg
    cases hop : g.op with
    | add =>
      have hm1 : match_gate_condition g GOp.mul = false := by
        unfold match_gate_condition
        rw [hop]
      have hm2 : match_gate_condition g GOp.add = true := by
        unfold match_gate_condition
        rw [hop]
      show (if match_gate_condition g GOp.mul = true
            then (operate_w W W GOp.mul).getD
              (g.left * 2 ^ sel_in_bits gates + g.right) 0 else 0) +
          (if match_gate_condition g GOp.add = true
            then (operate_w W W GOp.add).getD
              (g.left * 2 ^ sel_in_bits gates + g.right) 0 else 0) =
          gate_output W g
      rw [if_neg (by rw [hm1]; simp), if_pos hm2]
      rw [operate_w_self, tpro_getD_add W W _ hi0']
      rw [hW, hdm.1, hdm.2]
      unfold gate_output
      rw [hop]
      ring
    | mul =>
      have hm1 : match_gate_condition g GOp.mul = true := by
        unfold match_gate_condition
        rw [hop]
      have hm2 : match_gate_condition g GOp.add = false := by
        unfold match_gate_condition
        rw [hop]
      show (if match_gate_condition g GOp.mul = true
            then (operate_w W W GOp.mul).getD
              (g.left * 2 ^ sel_in_bits gates + g.right) 0 else 0) +
          (if match_gate_condition g GOp.add = true
            then (operate_w W W GOp.add).getD
              (g.left * 2 ^ sel_in_bits gates + g.right) 0 else 0) =
          gate_output W g
      rw [if_pos hm1, if_neg (by rw [hm2]; simp)]
      rw [operate_w_self, tpro_getD_mul W W _ hi0']
      rw [hW, hdm.1, hdm.2]
      unfold gate_output
      rw [hop]
      ring

/-! ### C1 machinery, part D: the per-layer claim identity -/

theorem sum_range_swap (A B : Nat) (f : Nat → Nat → F) :
    ((List.range A).map (fun o => ((List.range B).map (fun i => f o i)).sum)).sum =
      ((List.range B).map (fun i => ((List.range A).map (fun o => f o i)).sum)).sum := by
  induction A with
  | zero =>
    simp
  | succ A ih =>
    rw [List.range_succ, List.map_append, List.sum_append]
    simp only [List.map_cons, List.map_nil, List.sum_cons, List.sum_nil, add_zero]
    rw [ih]
    rw [show (List.range B).map (fun i =>
        ((List.range A ++ [A]).map (fun o => f o i)).sum) =
        (List.range B).map (fun i =>
          ((List.range A).map (fun o => f o i)).sum + f A i) from
      List.map_congr_left (fun i _ => by
        rw [List.map_append, List.sum_append]
        simp)]
    rw [sum_map_add_range]

/-- An entry of the iterated half-pairing is the Lagrange-weighted sum of
the corresponding block entries of the original table. -/
theorem chainP_getD_lag : ∀ (rs t : List F) (B i : Nat),
    t.length = 2 ^ rs.length * B → i < B →
    (chainP t rs).getD i 0 =
      ((List.range (2 ^ rs.length)).map (fun o =>
        lagEntry rs o * t.getD (o * B + i) 0)).sum := by
  intro rs
  induction rs with
  | nil =>
    intro t B i ht hi
    rw [chainP_nil]
    rw [show List.range (2 ^ ([] : List F).length) = [0] from rfl]
    simp only [List.map_cons, List.map_nil, List.sum_cons, List.sum_nil]
    rw [lagEntry_nil]
    simp
  | cons x xs ih =>
    intro t B i ht hi
    have ht' : t.length = 2 ^ (xs.length + 1) * B := by
      rw [ht, List.length_cons]
    have hhalf : t.length / 2 = 2 ^ xs.length * B := by
      rw [ht', pow_succ]
      rw [show 2 ^ xs.length * 2 * B = 2 ^ xs.length * B * 2 from by ring]
      omega
    rw [chainP_cons]
    have hlen : (pairCombine t x).length = 2 ^ xs.length * B := by
      rw [length_pairCombine, hhalf]
    rw [ih (pairCombine t x) B i hlen hi]
    rw [show (2 : Nat) ^ (x :: xs).length = 2 * 2 ^ xs.length from by
      rw [List.length_cons, pow_succ]; ring]
    rw [sum_range_split]
    rw [show ((List.range (2 ^ xs.length)).map (fun o =>
        lagEntry xs o * (pairCombine t x).getD (o * B + i) 0)) =
        (List.range (2 ^ xs.length)).map (fun o =>
          (1 - x) * (lagEntry xs o * t.getD (o * B + i) 0) +
            x * (lagEntry xs o * t.getD (o * B + i + 2 ^ xs.length * B) 0)) from by
      apply List.map_congr_left
      intro o ho
      rw [List.mem_range] at ho
      have hk : o * B + i < t.length / 2 := by
        have : (o + 1) * B ≤ 2 ^ xs.length * B := Nat.mul_le_mul_right _ (by omega)
        have e : (o + 1) * B = o * B + B := by ring
        omega
      rw [pairCombine_getD t x (o * B + i) hk, hhalf]
      ring]
    rw [sum_map_add_range]
    congr 1
    · apply congrArg
      apply List.map_congr_left
      intro o ho
      rw [List.mem_range] at ho
      rw [lagEntry_cons_low x xs o ho]
      ring
    · apply congrArg
      apply List.map_congr_left
      intro o ho
      rw [List.mem_range] at ho
      rw [lagEntry_cons_high x xs o ho,
        show (2 ^ xs.length + o) * B + i = o * B + i + 2 ^ xs.length * B from by
          ring]
      ring

/-- Product-sum of an iterated half-pairing against a fixed table is the
Lagrange inner product of the weighted row sums. -/
theorem prodSum_rowComb (T G : List F) (rs : List F)
    (hT : T.length = 2 ^ rs.length * G.length) (hG : 0 < G.length) :
    prodSum (chainP T rs) G = lagSum rs (rowComb T G) := by
  have hLHS : prodSum (chainP T rs) G = ((List.range G.length).map (fun k =>
      ((List.range (2 ^ rs.length)).map (fun o =>
        lagEntry rs o * (T.getD (o * G.length + k) 0 * G.getD k 0))).sum)).sum := by
    unfold prodSum
    rw [length_chainP, hT, Nat.mul_div_cancel_left _ (Nat.two_pow_pos rs.length)]
    apply congrArg
    apply List.map_congr_left
    intro k hk
    rw [List.mem_range] at hk
    rw [chainP_getD_lag rs T G.length k hT hk, ← List.sum_map_mul_right]
    apply congrArg
    exact List.map_congr_left (fun o _ => mul_assoc _ _ _)
  have hRHS : lagSum rs (rowComb T G) = ((List.range (2 ^ rs.length)).map (fun o =>
      ((List.range G.length).map (fun i =>
        lagEntry rs o * (T.getD (o * G.length + i) 0 * G.getD i 0))).sum)).sum := by
    unfold lagSum
    apply congrArg
    apply List.map_congr_left
    intro o ho
    rw [List.mem_range] at ho
    have hrow : (rowComb T G).getD o 0 = ((List.range G.length).map (fun i =>
        T.getD (o * G.length + i) 0 * G.getD i 0)).sum := by
      unfold rowComb
      have hdiv : T.length / G.length = 2 ^ rs.length := by
        rw [hT, Nat.mul_div_cancel _ hG]
      rw [hdiv, getD_range_map _ _ _ ho]
    rw [hrow]
    exact (List.sum_map_mul_left _ _ _).symm
  rw [hLHS, hRHS]
  exact sum_range_swap G.length (2 ^ rs.length)
    (fun k o => lagEntry rs o * (T.getD (o * G.length + k) 0 * G.getD k 0))

/-- The per-layer GKR claim identity: the sum of the two selector/tensor
product-sums at an output prefix `rs` is the multilinear evaluation of
the layer's padded wire table at `rs`. -/
theorem gkr_layer_identity (gates : List CGate) (W : List F) (rs : List F)
    (hW : W.length = 2 ^ sel_in_bits gates)
    (hrs : 2 ^ rs.length = sel_out_len gates) :
    prodSum (chainP (selTable gates GOp.mul) rs) (operate_w W W GOp.mul) +
      prodSum (chainP (selTable gates GOp.add) rs) (operate_w W W GOp.add) =
      lagSum rs (layer_eval gates W) := by
  have hlG : ∀ op : GOp, (operate_w W W op).length =
      2 ^ (2 * sel_in_bits gates) := by
    intro op
    rw [length_operate_w, hW, two_mul, pow_add]
  have hT : ∀ cond op, (selTable (F := F) gates cond).length =
      2 ^ rs.length * (operate_w W W op).length := by
    intro cond op
    rw [length_selTable, hlG, hrs]
  rw [prodSum_rowComb _ _ rs (hT GOp.mul GOp.mul)
      (by rw [hlG]; exact Nat.two_pow_pos _),
    prodSum_rowComb _ _ rs (hT GOp.add GOp.add)
      (by rw [hlG]; exact Nat.two_pow_pos _)]
  unfold lagSum
  rw [← sum_map_add_range]
  apply congrArg
  apply List.map_congr_left
  intro o ho
  rw [List.mem_range, hrs] at ho
  rw [← mul_add, layer_row_identity gates W hW o ho]

theorem length_ml_scalar_mul (t : List F) (c : F) :
    (ml_scalar_mul t c).length = t.length := by
  simp [ml_scalar_mul]

theorem ml_scalar_mul_getD (t : List F) (c : F) (i : Nat) (hi : i < t.length) :
    (ml_scalar_mul t c).getD i 0 = t.getD i 0 * c := by
  rw [getD_lt (ml_scalar_mul t c) i (by rw [length_ml_scalar_mul]; exact hi)]
  unfold ml_scalar_mul
  rw [List.getElem_map, ← getD_lt t i hi]

theorem length_ml_add (a b : List F) (h : a.length = b.length) :
    (ml_add a b).length = a.length := by
  unfold ml_add
  rw [List.length_zipWith, h, Nat.min_self]

theorem ml_add_getD (a b : List F) (i : Nat) (hia : i < a.length)
    (hib : i < b.length) :
    (ml_add a b).getD i 0 = a.getD i 0 + b.getD i 0 := by
  have hl : i < (List.zipWith (· + ·) a b).length := by
    rw [List.length_zipWith]
    omega
  rw [show ml_add a b = List.zipWith (· + ·) a b from rfl, getD_lt _ i hl,
    List.getElem_zipWith, ← getD_lt a i hia, ← getD_lt b i hib]

theorem prodSum_ml_scalar_mul (t G : List F) (c : F) :
    prodSum (ml_scalar_mul t c) G = c * prodSum t G := by
  unfold prodSum
  rw [length_ml_scalar_mul, ← List.sum_map_mul_left]
  apply congrArg
  apply List.map_congr_left
  intro k hk
  rw [List.mem_range] at hk
  rw [ml_scalar_mul_getD t c k hk]
  ring

theorem prodSum_ml_add (x y G : List F) (h : x.length = y.length) :
    prodSum (ml_add x y) G = prodSum x G + prodSum y G := by
  unfold prodSum
  rw [length_ml_add x y h, ← h, ← sum_map_add_range]
  apply congrArg
  apply List.map_congr_left
  intro k hk
  rw [List.mem_range] at hk
  rw [ml_add_getD x y k hk (by omega)]
  ring

/-- The α/β-folded claim of a GKR layer equals the hypercube sum of the
folded `f(b,c)` polynomial: `α·W(rb) + β·W(rc)` in selector form. -/
theorem gkr_folded_claim (gates : List CGate) (W : List F) (rb rc : List F)
    (alpha beta : F) (hW : W.length = 2 ^ sel_in_bits gates)
    (hrb : 2 ^ rb.length = sel_out_len gates)
    (hrc : 2 ^ rc.length = sel_out_len gates) :
    get_folded_claim_sum alpha beta
        (evalChain (layer_eval gates W) rb) (evalChain (layer_eval gates W) rc) =
      prodSum (ml_add (ml_scalar_mul (chainP (selTable gates GOp.mul) rb) alpha)
          (ml_scalar_mul (chainP (selTable gates GOp.mul) rc) beta))
        (operate_w W W GOp.mul) +
      prodSum (ml_add (ml_scalar_mul (chainP (selTable gates GOp.add) rb) alpha)
          (ml_scalar_mul (chainP (selTable gates GOp.add) rc) beta))
        (operate_w W W GOp.add) := by
  have hlc : ∀ (cond : GOp) (r : List F), 2 ^ r.length = sel_out_len gates →
      (chainP (selTable (F := F) gates cond) r).length =
        2 ^ (2 * sel_in_bits gates) := by
    intro cond r hr
    rw [length_chainP, length_selTable, ← hr,
      Nat.mul_comm (2 ^ r.length) (2 ^ (2 * sel_in_bits gates)),
      Nat.mul_div_cancel _ (Nat.two_pow_pos r.length)]
  have hlev : (layer_eval gates W).length = sel_out_len gates := by
    rw [length_layer_eval, sel_out_len_eq]
  rw [prodSum_ml_add _ _ _ (by
      rw [length_ml_scalar_mul, length_ml_scalar_mul, hlc GOp.mul rb hrb,
        hlc GOp.mul rc hrc]),
    prodSum_ml_add _ _ _ (by
      rw [length_ml_scalar_mul, length_ml_scalar_mul, hlc GOp.add rb hrb,
        hlc GOp.add rc hrc]),
    prodSum_ml_scalar_mul, prodSum_ml_scalar_mul, prodSum_ml_scalar_mul,
    prodSum_ml_scalar_mul]
  rw [← lagSum_evalChain rb (layer_eval gates W) (by rw [hlev, ← hrb]),
    ← lagSum_evalChain rc (layer_eval gates W) (by rw [hlev, ← hrc]),
    ← gkr_layer_identity gates W rb hW hrb, ← gkr_layer_identity gates W rc hW hrc]
  unfold get_folded_claim_sum
  ring

/-! ### C1 machinery, part E: point-list plumbing and structural lemmas -/

/-- `folded_points` on an all-set point list pads it with `None`s up to
the requested variable count. -/
theorem folded_points_somes (n : Nat) (rs : List F) (h : rs.length ≤ n) :
    folded_points n (rs.map some) =
      rs.map some ++ List.replicate (n - rs.length) none := by
  unfold folded_points
  apply List.ext_getElem?
  intro i
  by_cases h2 : i < n
  · by_cases h1 : i < rs.length
    · simp [List.getElem?_append, List.getElem?_range, h1, h2,
        List.getD_eq_getElem?_getD, List.getElem?_map, List.getElem?_eq_getElem]
    · simp [List.getElem?_append, List.getElem?_range, h1, h2,
        List.getElem?_replicate]
      omega
  · have hn : n ≤ i := by omega
    have h1 : ¬ i < rs.length := by omega
    rw [List.getElem?_eq_none (by simpa using hn)]
    simp [List.getElem?_append, h1, h2, List.getElem?_replicate]
    rw [if_neg (by omega)]

/-- `get_folded_polys` on all-set half point lists, in chain form. -/
theorem get_folded_polys_eq (alpha beta : F) (muli addi : List F)
    (rb rc : List F) (n : Nat) (hm : muli.length = 2 ^ n)
    (ha : addi.length = 2 ^ n) (hb : rb.length ≤ n) (hc : rc.length ≤ n) :
    get_folded_polys alpha beta muli addi (rb.map some) (rc.map some) =
      (ml_add (ml_scalar_mul (chainP muli rb) alpha)
          (ml_scalar_mul (chainP muli rc) beta),
        ml_add (ml_scalar_mul (chainP addi rb) alpha)
          (ml_scalar_mul (chainP addi rc) beta)) := by
  simp only [get_folded_polys]
  rw [numVars_eq muli n hm, folded_points_somes n rb hb, folded_points_somes n rc hc,
    evaluate_spec muli n hm rb (n - rb.length) (by omega),
    evaluate_spec muli n hm rc (n - rc.length) (by omega),
    evaluate_spec addi n ha rb (n - rb.length) (by omega),
    evaluate_spec addi n ha rc (n - rc.length) (by omega)]
  rfl

/-- `get_evaluated_muli_addi_at_a` on an all-set point list, in chain
form. -/
theorem get_evaluated_muli_addi_at_a_eq (muli addi : List F) (r : List F)
    (n : Nat) (hm : muli.length = 2 ^ n) (ha : addi.length = 2 ^ n)
    (hr : r.length ≤ n) :
    get_evaluated_muli_addi_at_a muli addi (r.map some) =
      (chainP muli r, chainP addi r) := by
  simp only [get_evaluated_muli_addi_at_a]
  rw [numVars_eq muli n hm, numVars_eq addi n ha, folded_points_somes n r hr,
    evaluate_spec muli n hm r (n - r.length) (by omega),
    evaluate_spec addi n ha r (n - r.length) (by omega)]
  rfl

theorem head?_eq_of_length_one (l : List F) (h : l.length = 1) :
    l.head? = some (l.headD 0) := by
  obtain ⟨a, rfl⟩ := List.length_eq_one.mp h
  rfl

theorem sample_n_challenges_succ (M : FS F) (n : Nat) (s : TS) :
    sample_n_challenges M (n + 1) s =
      ((sample_challenge M s).1 ::
          (sample_n_challenges M n (sample_challenge M s).2).1,
        (sample_n_challenges M n (sample_challenge M s).2).2) := rfl

theorem sample_n_challenges_fst_length (M : FS F) :
    ∀ (n : Nat) (s : TS), (sample_n_challenges M n s).1.length = n := by
  intro n
  induction n with
  | zero => intro s; rfl
  | succ n ih =>
    intro s
    rw [sample_n_challenges_succ, List.length_cons, ih]

/-- One round of the modelled sum-check prover emits one challenge, so
`m` rounds emit `m` challenges (two-product shape). -/
theorem sc_rounds_chs_len (M : FS F) (h2 : (2 : F) ≠ 0) :
    ∀ (m : Nat) (P1 Q1 P2 Q2 : List F) (ts : TS),
      P1.length = 2 ^ m → Q1.length = 2 ^ m → P2.length = 2 ^ m →
      Q2.length = 2 ^ m →
      (sc_prover_rounds M m [[P1, Q1], [P2, Q2]] ts).2.1.length = m := by
  intro m
  induction m with
  | zero => intro P1 Q1 P2 Q2 ts _ _ _ _; rfl
  | succ m ih =>
    intro P1 Q1 P2 Q2 ts hl1 hl2 hl3 hl4
    rw [sc_round_unfold M h2 m P1 Q1 P2 Q2 hl1 hl2 hl3 hl4 ts]
    rw [show ((scG P1 Q1 P2 Q2 m :: _, scCh M P1 Q1 P2 Q2 m ts :: _, _) :
        List (List F) × List F × TS).2.1.length = _ + 1 from
      List.length_cons _ _]
    rw [ih _ _ _ _ _
      (by rw [length_pairCombine, hl1, pow_succ]; omega)
      (by rw [length_pairCombine, hl2, pow_succ]; omega)
      (by rw [length_pairCombine, hl3, pow_succ]; omega)
      (by rw [length_pairCombine, hl4, pow_succ]; omega)]

/-- `Circuit::evaluate_at_input` is the table of wire layers. -/
theorem evaluate_at_input_eq (layers : Circuit) (inputs : List F) :
    evaluate_at_input layers inputs =
      (List.range (layers.length + 1)).map (wtab layers inputs) := by
  have key : ∀ (suf pre : Circuit), layers = pre ++ suf →
      (suf.foldl (fun (s : List (List F) × List F) gates =>
          let next := layer_eval gates s.2
          (s.1 ++ [next], next))
        ((List.range (pre.length + 1)).map (wtab layers inputs),
          wtab layers inputs pre.length)) =
      ((List.range (layers.length + 1)).map (wtab layers inputs),
        wtab layers inputs layers.length) := by
    intro suf
    induction suf with
    | nil =>
      intro pre hpre
      rw [hpre, List.append_nil]
      rfl
    | cons g suf ih =>
      intro pre hpre
      rw [List.foldl_cons]
      have hget : layers.getD pre.length [] = g := by
        rw [hpre, List.getD_eq_getElem?_getD, List.getElem?_append_right le_rfl,
          Nat.sub_self]
        simp
      have hnext : layer_eval g (wtab layers inputs pre.length) =
          wtab layers inputs (pre.length + 1) := by
        rw [show wtab layers inputs (pre.length + 1) =
          layer_eval (layers.getD pre.length []) (wtab layers inputs pre.length)
          from rfl, hget]
      have hacc : (List.range (pre.length + 1)).map (wtab layers inputs) ++
          [layer_eval g (wtab layers inputs pre.length)] =
          (List.range (pre.length + 1 + 1)).map (wtab layers inputs) := by
        rw [hnext, show List.range (pre.length + 1 + 1) =
          List.range (pre.length + 1) ++ [pre.length + 1] from List.range_succ (pre.length + 1),
          List.map_append]
        rfl
      simp only []
      rw [hacc, hnext]
      rw [show pre.length + 1 = (pre ++ [g]).length from by simp]
      exact ih (pre ++ [g]) (by rw [hpre, List.append_assoc]; rfl)
  unfold evaluate_at_input
  have h0 := key layers [] rfl
  simp only [List.length_nil] at h0
  rw [show ((List.range (0 + 1)).map (wtab layers inputs),
      wtab layers inputs 0) = ([inputs], inputs) from by
    rw [show List.range (0 + 1) = [0] from rfl]
    rfl] at h0
  rw [h0]

theorem length_evaluate_at_input (layers : Circuit) (inputs : List F) :
    (evaluate_at_input layers inputs).length = layers.length + 1 := by
  rw [evaluate_at_input_eq, List.length_map, List.length_range]

theorem get_w_i_eq_wtab (layers : Circuit) (inputs : List F) (li : Nat)
    (h : li ≤ layers.length) :
    get_w_i li (evaluate_at_input layers inputs) =
      wtab layers inputs (layers.length - li) := by
  unfold get_w_i
  rw [length_evaluate_at_input, evaluate_at_input_eq]
  rw [show layers.length + 1 - li - 1 = layers.length - li from by omega]
  exact getD_range_map_gen (wtab layers inputs) [] (layers.length + 1) _ (by omega)

theorem get_w_i_last (layers : Circuit) (inputs : List F) :
    get_w_i layers.length (evaluate_at_input layers inputs) = inputs := by
  rw [get_w_i_eq_wtab layers inputs layers.length le_rfl, Nat.sub_self]
  rfl

/-- Each non-input wire layer is the gate evaluation of the layer past
it (layer indices counted from the output side). -/
theorem get_w_i_step (layers : Circuit) (inputs : List F) (li : Nat)
    (h : li < layers.length) :
    get_w_i li (evaluate_at_input layers inputs) =
      layer_eval (layers.getD (layers.length - li - 1) [])
        (get_w_i (li + 1) (evaluate_at_input layers inputs)) := by
  rw [get_w_i_eq_wtab layers inputs li (by omega),
    get_w_i_eq_wtab layers inputs (li + 1) (by omega)]
  rw [show layers.length - li = (layers.length - li - 1) + 1 from by omega]
  rw [show wtab layers inputs (layers.length - li - 1 + 1) =
    layer_eval (layers.getD (layers.length - li - 1) [])
      (wtab layers inputs (layers.length - li - 1)) from rfl]
  rw [show layers.length - li - 1 = layers.length - (li + 1) from by omega]
  simp only [Nat.add_sub_cancel]

/-! ### C1 machinery, part F: loop unfoldings and the layer check -/

theorem gkr_verify_loop_succ_zero (M : FS F) (layers : Circuit)
    (inputs : List F) (P : GKRProof F) (fuel : Nat) (rv : List (Option F))
    (ts : TS) :
    gkr_verify_loop M layers inputs P (fuel + 1) 0 rv ts =
      gkr_check_rest M layers inputs P 0
        (get_evaluated_muli_addi_at_a (get_gate_poly layers 0 GOp.mul)
          (get_gate_poly layers 0 GOp.add) rv).1
        (get_evaluated_muli_addi_at_a (get_gate_poly layers 0 GOp.mul)
          (get_gate_poly layers 0 GOp.add) rv).2
        ts (gkr_verify_loop M layers inputs P fuel 1) := rfl

theorem gkr_verify_loop_succ_succ (M : FS F) (layers : Circuit)
    (inputs : List F) (P : GKRProof F) (fuel kk : Nat) (rv : List (Option F))
    (ts : TS) :
    gkr_verify_loop M layers inputs P (fuel + 1) (kk + 1) rv ts =
      gkr_check_rest M layers inputs P (kk + 1)
        (vPair M layers (kk + 1) rv ts).1 (vPair M layers (kk + 1) rv ts).2
        (vTs2 M ts) (gkr_verify_loop M layers inputs P fuel (kk + 2)) := rfl

theorem gkr_prover_loop_zero_eq (M : FS F) (layers : Circuit)
    (evals : List (List F)) (fuel : Nat) (rv : List (Option F))
    (running : List F) (ts : TS) :
    gkr_prover_loop M layers evals (fuel + 1) 0 rv running ts =
      ((gkr_prover_loop M layers evals fuel 1
          ((p0Sc M layers evals rv running ts).2.1.map some)
          (get_w_i 1 evals) (p0Sc M layers evals rv running ts).2.2).1,
        (p0Sc M layers evals rv running ts).1 ::
          (gkr_prover_loop M layers evals fuel 1
            ((p0Sc M layers evals rv running ts).2.1.map some)
            (get_w_i 1 evals) (p0Sc M layers evals rv running ts).2.2).2.1,
        (gkr_prover_loop M layers evals fuel 1
          ((p0Sc M layers evals rv running ts).2.1.map some)
          (get_w_i 1 evals) (p0Sc M layers evals rv running ts).2.2).2.2) := rfl

theorem gkr_prover_loop_succ_eq (M : FS F) (layers : Circuit)
    (evals : List (List F)) (fuel kk : Nat) (rv : List (Option F))
    (running : List F) (ts : TS) :
    gkr_prover_loop M layers evals (fuel + 1) (kk + 1) rv running ts =
      ((pU running rv, pV running rv) ::
          (gkr_prover_loop M layers evals fuel (kk + 2)
            ((pSc M layers evals (kk + 1) rv running ts).2.1.map some)
            (get_w_i (kk + 2) evals)
            (pSc M layers evals (kk + 1) rv running ts).2.2).1,
        (pSc M layers evals (kk + 1) rv running ts).1 ::
          (gkr_prover_loop M layers evals fuel (kk + 2)
            ((pSc M layers evals (kk + 1) rv running ts).2.1.map some)
            (get_w_i (kk + 2) evals)
            (pSc M layers evals (kk + 1) rv running ts).2.2).2.1,
        (gkr_prover_loop M layers evals fuel (kk + 2)
          ((pSc M layers evals (kk + 1) rv running ts).2.1.map some)
          (get_w_i (kk + 2) evals)
          (pSc M layers evals (kk + 1) rv running ts).2.2).2.2) := rfl

theorem gkr_check_rest_eq_core (M : FS F) (layers : Circuit) (inputs : List F)
    (P : GKRProof F) (li : Nat) (nm na : List F) (ts2 : TS)
    (k : List (Option F) → TS → Option Bool) (scp : SumCheckProof F)
    (h : P.sumcheck_proofs.get? li = some scp) :
    gkr_check_rest M layers inputs P li nm na ts2 k =
      gkr_check_core M layers inputs P li nm na ts2 k scp := by
  unfold gkr_check_rest
  rw [h]

/-- `W(rb)` at an all-set point list of even length is a multilinear
evaluation of the running table on the first half. -/
theorem pU_eval (W : List F) (b : Nat) (ch : List F) (hW : W.length = 2 ^ b)
    (hch : ch.length = 2 * b) :
    pU W (ch.map some) = evalChain W (ch.take b) := by
  unfold pU
  rw [List.length_map, hch, show 2 * b / 2 = b from by omega, ← List.map_take,
    evaluate_all_some W b hW (ch.take b) (by rw [List.length_take, hch]; omega)]
  rfl

theorem pV_eval (W : List F) (b : Nat) (ch : List F) (hW : W.length = 2 ^ b)
    (hch : ch.length = 2 * b) :
    pV W (ch.map some) = evalChain W (ch.drop b) := by
  unfold pV
  rw [List.length_map, hch, show 2 * b / 2 = b from by omega, ← List.map_drop,
    evaluate_all_some W b hW (ch.drop b) (by rw [List.length_drop, hch]; omega)]
  rfl

theorem pTs1_eval (M : FS F) (W : List F) (b : Nat) (ch : List F) (tsp : TS)
    (hW : W.length = 2 ^ b) (hch : ch.length = 2 * b) :
    pTs1 M W (ch.map some) tsp =
      ts_append_n tsp [M.ser (evalChain W (ch.take b)),
        M.ser (evalChain W (ch.drop b))] := by
  unfold pTs1
  rw [pU_eval W b ch hW hch, pV_eval W b ch hW hch]

theorem option_map_some {A B : Type} (f : A → B) (x : A) :
    Option.map f (some x) = some (f x) := rfl

/-- One full layer check of the GKR verifier against the matching honest
prover layer: the sum-check round checks pass, the folded-selector
evaluations agree with the prover's final claim through the resolved
`(W(rb), W(rc))` pair, and the verifier continues with the prover's
challenges and transcript. -/
theorem gkr_check_core_sim (M : FS F) (h2 : (2 : F) ≠ 0) (layers : Circuit)
    (inputs : List F) (P : GKRProof F) (li : Nat) (W' nm na : List F)
    (claim : F) (b : Nat) (ts2 : TS)
    (k : List (Option F) → TS → Option Bool)
    (hW : W'.length = 2 ^ b) (hnm : nm.length = 2 ^ (2 * b))
    (hna : na.length = 2 ^ (2 * b))
    (hclaim : claim = prodSum nm (operate_w W' W' GOp.mul) +
      prodSum na (operate_w W' W' GOp.add))
    (hwp : if li + 1 = layers.length then inputs = W'
      else P.w_polys_evals.get? li =
        some (evalChain W' ((gkrSc M claim nm na W' ts2).2.1.take b),
          evalChain W' ((gkrSc M claim nm na W' ts2).2.1.drop b))) :
    gkr_check_core M layers inputs P li nm na ts2 k
        (gkrSc M claim nm na W' ts2).1 =
      k ((gkrSc M claim nm na W' ts2).2.1.map some)
        (ts_append_n (gkrSc M claim nm na W' ts2).2.2
          [M.ser (evalChain W' ((gkrSc M claim nm na W' ts2).2.1.take b)),
            M.ser (evalChain W' ((gkrSc M claim nm na W' ts2).2.1.drop b))]) := by
  have hGM : (operate_w W' W' GOp.mul).length = 2 ^ (2 * b) := by
    rw [length_operate_w, hW, two_mul, pow_add]
  have hGA : (operate_w W' W' GOp.add).length = 2 ^ (2 * b) := by
    rw [length_operate_w, hW, two_mul, pow_add]
  have hR : gkrSc M claim nm na W' ts2 =
      ({ initial_claim_sum := claim,
          round_polys := (sc_prover_rounds M (2 * b)
            [[nm, operate_w W' W' GOp.mul], [na, operate_w W' W' GOp.add]]
            ts2).1 },
        (sc_prover_rounds M (2 * b)
          [[nm, operate_w W' W' GOp.mul], [na, operate_w W' W' GOp.add]]
          ts2).2.1,
        (sc_prover_rounds M (2 * b)
          [[nm, operate_w W' W' GOp.mul], [na, operate_w W' W' GOp.add]]
          ts2).2.2) := by
    show generate_proof_for_partial_verify M claim (gkr_f_b_c nm na W') ts2 = _
    rw [show gkr_f_b_c nm na W' =
      [[nm, operate_w W' W' GOp.mul], [na, operate_w W' W' GOp.add]] from rfl]
    unfold generate_proof_for_partial_verify
    rw [sp_num_vars_pair nm (operate_w W' W' GOp.mul) na
      (operate_w W' W' GOp.add) (2 * b) hnm]
  have h1g : (gkrSc M claim nm na W' ts2).1 =
      { initial_claim_sum := claim,
        round_polys := (sc_prover_rounds M (2 * b)
          [[nm, operate_w W' W' GOp.mul], [na, operate_w W' W' GOp.add]]
          ts2).1 } := by rw [hR]
  have h2g : (gkrSc M claim nm na W' ts2).2.1 =
      (sc_prover_rounds M (2 * b)
        [[nm, operate_w W' W' GOp.mul], [na, operate_w W' W' GOp.add]]
        ts2).2.1 := by rw [hR]
  have h3g : (gkrSc M claim nm na W' ts2).2.2 =
      (sc_prover_rounds M (2 * b)
        [[nm, operate_w W' W' GOp.mul], [na, operate_w W' W' GOp.add]]
        ts2).2.2 := by rw [hR]
  rw [h2g] at hwp
  rw [h1g, h2g, h3g]
  have hchl : (sc_prover_rounds M (2 * b)
      [[nm, operate_w W' W' GOp.mul], [na, operate_w W' W' GOp.add]]
      ts2).2.1.length = 2 * b :=
    sc_rounds_chs_len M h2 (2 * b) nm (operate_w W' W' GOp.mul) na
      (operate_w W' W' GOp.add) ts2 hnm hGM hna hGA
  have hsim := sc_sim M h2 (2 * b) nm (operate_w W' W' GOp.mul) na
    (operate_w W' W' GOp.add) claim [] ts2 hnm hGM hna hGA hclaim
  simp only [List.nil_append] at hsim
  have hpv : partial_verify M
      { initial_claim_sum := claim,
        round_polys := (sc_prover_rounds M (2 * b)
          [[nm, operate_w W' W' GOp.mul], [na, operate_w W' W' GOp.add]]
          ts2).1 } ts2 =
      (true,
        (chainP nm (sc_prover_rounds M (2 * b)
            [[nm, operate_w W' W' GOp.mul], [na, operate_w W' W' GOp.add]]
            ts2).2.1).headD 0 *
          (chainP (operate_w W' W' GOp.mul) (sc_prover_rounds M (2 * b)
            [[nm, operate_w W' W' GOp.mul], [na, operate_w W' W' GOp.add]]
            ts2).2.1).headD 0 +
          (chainP na (sc_prover_rounds M (2 * b)
            [[nm, operate_w W' W' GOp.mul], [na, operate_w W' W' GOp.add]]
            ts2).2.1).headD 0 *
            (chainP (operate_w W' W' GOp.add) (sc_prover_rounds M (2 * b)
              [[nm, operate_w W' W' GOp.mul], [na, operate_w W' W' GOp.add]]
              ts2).2.1).headD 0,
        ((sc_prover_rounds M (2 * b)
          [[nm, operate_w W' W' GOp.mul], [na, operate_w W' W' GOp.add]]
          ts2).2.1).map some,
        (sc_prover_rounds M (2 * b)
          [[nm, operate_w W' W' GOp.mul], [na, operate_w W' W' GOp.add]]
          ts2).2.2) := hsim
  have hpv1 : (partial_verify M
      { initial_claim_sum := claim,
        round_polys := (sc_prover_rounds M (2 * b)
          [[nm, operate_w W' W' GOp.mul], [na, operate_w W' W' GOp.add]]
          ts2).1 } ts2).1 = true := by rw [hpv]
  have hpv21 : (partial_verify M
      { initial_claim_sum := claim,
        round_polys := (sc_prover_rounds M (2 * b)
          [[nm, operate_w W' W' GOp.mul], [na, operate_w W' W' GOp.add]]
          ts2).1 } ts2).2.1 =
      (chainP nm (sc_prover_rounds M (2 * b)
          [[nm, operate_w W' W' GOp.mul], [na, operate_w W' W' GOp.add]]
          ts2).2.1).headD 0 *
        (chainP (operate_w W' W' GOp.mul) (sc_prover_rounds M (2 * b)
          [[nm, operate_w W' W' GOp.mul], [na, operate_w W' W' GOp.add]]
          ts2).2.1).headD 0 +
        (chainP na (sc_prover_rounds M (2 * b)
          [[nm, operate_w W' W' GOp.mul], [na, operate_w W' W' GOp.add]]
          ts2).2.1).headD 0 *
          (chainP (operate_w W' W' GOp.add) (sc_prover_rounds M (2 * b)
            [[nm, operate_w W' W' GOp.mul], [na, operate_w W' W' GOp.add]]
            ts2).2.1).headD 0 := by rw [hpv]
  have hpv221 : (partial_verify M
      { initial_claim_sum := claim,
        round_polys := (sc_prover_rounds M (2 * b)
          [[nm, operate_w W' W' GOp.mul], [na, operate_w W' W' GOp.add]]
          ts2).1 } ts2).2.2.1 =
      ((sc_prover_rounds M (2 * b)
        [[nm, operate_w W' W' GOp.mul], [na, operate_w W' W' GOp.add]]
        ts2).2.1).map some := by rw [hpv]
  have hpv222 : (partial_verify M
      { initial_claim_sum := claim,
        round_polys := (sc_prover_rounds M (2 * b)
          [[nm, operate_w W' W' GOp.mul], [na, operate_w W' W' GOp.add]]
          ts2).1 } ts2).2.2.2 =
      (sc_prover_rounds M (2 * b)
        [[nm, operate_w W' W' GOp.mul], [na, operate_w W' W' GOp.add]]
        ts2).2.2 := by rw [hpv]
  unfold gkr_check_core
  rw [hpv221, hpv222, hpv1, hpv21]
  have hena : evaluate na ((sc_prover_rounds M (2 * b)
      [[nm, operate_w W' W' GOp.mul], [na, operate_w W' W' GOp.add]]
      ts2).2.1.map some) = some (chainP na (sc_prover_rounds M (2 * b)
      [[nm, operate_w W' W' GOp.mul], [na, operate_w W' W' GOp.add]]
      ts2).2.1) := evaluate_all_some na (2 * b) hna _ hchl
  have henm : evaluate nm ((sc_prover_rounds M (2 * b)
      [[nm, operate_w W' W' GOp.mul], [na, operate_w W' W' GOp.add]]
      ts2).2.1.map some) = some (chainP nm (sc_prover_rounds M (2 * b)
      [[nm, operate_w W' W' GOp.mul], [na, operate_w W' W' GOp.add]]
      ts2).2.1) := evaluate_all_some nm (2 * b) hnm _ hchl
  have hha : (chainP na (sc_prover_rounds M (2 * b)
      [[nm, operate_w W' W' GOp.mul], [na, operate_w W' W' GOp.add]]
      ts2).2.1).head? = some ((chainP na (sc_prover_rounds M (2 * b)
      [[nm, operate_w W' W' GOp.mul], [na, operate_w W' W' GOp.add]]
      ts2).2.1).headD 0) :=
    head?_eq_of_length_one _ (by
      rw [length_chainP, hna, hchl, Nat.div_self (Nat.two_pow_pos _)])
  have hhm : (chainP nm (sc_prover_rounds M (2 * b)
      [[nm, operate_w W' W' GOp.mul], [na, operate_w W' W' GOp.add]]
      ts2).2.1).head? = some ((chainP nm (sc_prover_rounds M (2 * b)
      [[nm, operate_w W' W' GOp.mul], [na, operate_w W' W' GOp.add]]
      ts2).2.1).headD 0) :=
    head?_eq_of_length_one _ (by
      rw [length_chainP, hnm, hchl, Nat.div_self (Nat.two_pow_pos _)])
  rw [hena, henm]
  simp only [Option.some_bind]
  rw [hha, hhm]
  simp only [Option.some_bind]
  have htl : ((sc_prover_rounds M (2 * b)
      [[nm, operate_w W' W' GOp.mul], [na, operate_w W' W' GOp.add]]
      ts2).2.1.take b).length = b := by
    rw [List.length_take, hchl]
    omega
  have hdl : ((sc_prover_rounds M (2 * b)
      [[nm, operate_w W' W' GOp.mul], [na, operate_w W' W' GOp.add]]
      ts2).2.1.drop b).length = b := by
    rw [List.length_drop, hchl]
    omega
  have hfbc : (chainP na (sc_prover_rounds M (2 * b)
        [[nm, operate_w W' W' GOp.mul], [na, operate_w W' W' GOp.add]]
        ts2).2.1).headD 0 *
        (evalChain W' ((sc_prover_rounds M (2 * b)
          [[nm, operate_w W' W' GOp.mul], [na, operate_w W' W' GOp.add]]
          ts2).2.1.take b) +
          evalChain W' ((sc_prover_rounds M (2 * b)
            [[nm, operate_w W' W' GOp.mul], [na, operate_w W' W' GOp.add]]
            ts2).2.1.drop b)) +
      (chainP nm (sc_prover_rounds M (2 * b)
        [[nm, operate_w W' W' GOp.mul], [na, operate_w W' W' GOp.add]]
        ts2).2.1).headD 0 *
        (evalChain W' ((sc_prover_rounds M (2 * b)
          [[nm, operate_w W' W' GOp.mul], [na, operate_w W' W' GOp.add]]
          ts2).2.1.take b) *
          evalChain W' ((sc_prover_rounds M (2 * b)
            [[nm, operate_w W' W' GOp.mul], [na, operate_w W' W' GOp.add]]
            ts2).2.1.drop b)) =
      (chainP nm (sc_prover_rounds M (2 * b)
          [[nm, operate_w W' W' GOp.mul], [na, operate_w W' W' GOp.add]]
          ts2).2.1).headD 0 *
        (chainP (operate_w W' W' GOp.mul) (sc_prover_rounds M (2 * b)
          [[nm, operate_w W' W' GOp.mul], [na, operate_w W' W' GOp.add]]
          ts2).2.1).headD 0 +
        (chainP na (sc_prover_rounds M (2 * b)
          [[nm, operate_w W' W' GOp.mul], [na, operate_w W' W' GOp.add]]
          ts2).2.1).headD 0 *
          (chainP (operate_w W' W' GOp.add) (sc_prover_rounds M (2 * b)
            [[nm, operate_w W' W' GOp.mul], [na, operate_w W' W' GOp.add]]
            ts2).2.1).headD 0 := by
    have hm : (chainP (operate_w W' W' GOp.mul) (sc_prover_rounds M (2 * b)
        [[nm, operate_w W' W' GOp.mul], [na, operate_w W' W' GOp.add]]
        ts2).2.1).headD 0 =
        evalChain W' ((sc_prover_rounds M (2 * b)
          [[nm, operate_w W' W' GOp.mul], [na, operate_w W' W' GOp.add]]
          ts2).2.1.take b) *
          evalChain W' ((sc_prover_rounds M (2 * b)
            [[nm, operate_w W' W' GOp.mul], [na, operate_w W' W' GOp.add]]
            ts2).2.1.drop b) := by
      conv_lhs => rw [show (sc_prover_rounds M (2 * b)
        [[nm, operate_w W' W' GOp.mul], [na, operate_w W' W' GOp.add]]
        ts2).2.1 = (sc_prover_rounds M (2 * b)
          [[nm, operate_w W' W' GOp.mul], [na, operate_w W' W' GOp.add]]
          ts2).2.1.take b ++ (sc_prover_rounds M (2 * b)
          [[nm, operate_w W' W' GOp.mul], [na, operate_w W' W' GOp.add]]
          ts2).2.1.drop b from (List.take_append_drop b _).symm]
      exact chainP_operate_w_mul W' b hW _ _ htl hdl
    have ha : (chainP (operate_w W' W' GOp.add) (sc_prover_rounds M (2 * b)
        [[nm, operate_w W' W' GOp.mul], [na, operate_w W' W' GOp.add]]
        ts2).2.1).headD 0 =
        evalChain W' ((sc_prover_rounds M (2 * b)
          [[nm, operate_w W' W' GOp.mul], [na, operate_w W' W' GOp.add]]
          ts2).2.1.take b) +
          evalChain W' ((sc_prover_rounds M (2 * b)
            [[nm, operate_w W' W' GOp.mul], [na, operate_w W' W' GOp.add]]
            ts2).2.1.drop b) := by
      conv_lhs => rw [show (sc_prover_rounds M (2 * b)
        [[nm, operate_w W' W' GOp.mul], [na, operate_w W' W' GOp.add]]
        ts2).2.1 = (sc_prover_rounds M (2 * b)
          [[nm, operate_w W' W' GOp.mul], [na, operate_w W' W' GOp.add]]
          ts2).2.1.take b ++ (sc_prover_rounds M (2 * b)
          [[nm, operate_w W' W' GOp.mul], [na, operate_w W' W' GOp.add]]
          ts2).2.1.drop b from (List.take_append_drop b _).symm]
      exact chainP_operate_w_add W' b hW _ _ htl hdl
    rw [hm, ha]
    ring
  by_cases hli : li + 1 = layers.length
  · rw [if_pos hli] at hwp
    rw [if_pos hli, hwp]
    have hdiv : (2 : Nat) * b / 2 = b := by omega
    simp only [List.length_map, hchl, hdiv, ← List.map_take, ← List.map_drop]
    have heb : evaluate W' (((sc_prover_rounds M (2 * b)
        [[nm, operate_w W' W' GOp.mul], [na, operate_w W' W' GOp.add]]
        ts2).2.1.take b).map some) = some (chainP W' ((sc_prover_rounds M (2 * b)
        [[nm, operate_w W' W' GOp.mul], [na, operate_w W' W' GOp.add]]
        ts2).2.1.take b)) := evaluate_all_some W' b hW _ htl
    have hec : evaluate W' (((sc_prover_rounds M (2 * b)
        [[nm, operate_w W' W' GOp.mul], [na, operate_w W' W' GOp.add]]
        ts2).2.1.drop b).map some) = some (chainP W' ((sc_prover_rounds M (2 * b)
        [[nm, operate_w W' W' GOp.mul], [na, operate_w W' W' GOp.add]]
        ts2).2.1.drop b)) := evaluate_all_some W' b hW _ hdl
    have hhb : (chainP W' ((sc_prover_rounds M (2 * b)
        [[nm, operate_w W' W' GOp.mul], [na, operate_w W' W' GOp.add]]
        ts2).2.1.take b)).head? = some (evalChain W' ((sc_prover_rounds M (2 * b)
        [[nm, operate_w W' W' GOp.mul], [na, operate_w W' W' GOp.add]]
        ts2).2.1.take b)) :=
      head?_eq_of_length_one _ (by
        rw [length_chainP, hW, htl, Nat.div_self (Nat.two_pow_pos _)])
    have hhc : (chainP W' ((sc_prover_rounds M (2 * b)
        [[nm, operate_w W' W' GOp.mul], [na, operate_w W' W' GOp.add]]
        ts2).2.1.drop b)).head? = some (evalChain W' ((sc_prover_rounds M (2 * b)
        [[nm, operate_w W' W' GOp.mul], [na, operate_w W' W' GOp.add]]
        ts2).2.1.drop b)) :=
      head?_eq_of_length_one _ (by
        rw [length_chainP, hW, hdl, Nat.div_self (Nat.two_pow_pos _)])
    rw [heb, hec]
    simp only [Option.some_bind]
    rw [hhb, hhc]
    simp only [Option.some_bind, option_map_some]
    rw [if_neg (by
      simp only [Bool.not_true, Bool.false_or, decide_eq_true_eq]
      exact not_not_intro hfbc)]
  · rw [if_neg hli] at hwp
    rw [if_neg hli, hwp]
    simp only [Option.some_bind]
    rw [if_neg (by
      simp only [Bool.not_true, Bool.false_or, decide_eq_true_eq]
      exact not_not_intro hfbc)]

theorem get?_eq_drop_get? {α : Type} (l : List α) (n m : Nat) :
    (l.drop n).get? m = l.get? (n + m) := by
  rw [List.get?_eq_getElem?, List.get?_eq_getElem?, List.getElem?_drop]

/-- The number of challenges a layer sum-check emits is twice the input
bit width of the layer's selectors. -/
theorem gkrSc_chs_length (M : FS F) (h2 : (2 : F) ≠ 0) (claim : F)
    (nm na W : List F) (ts : TS) (b : Nat) (hW : W.length = 2 ^ b)
    (hnm : nm.length = 2 ^ (2 * b)) (hna : na.length = 2 ^ (2 * b)) :
    (gkrSc M claim nm na W ts).2.1.length = 2 * b := by
  have hGM : (operate_w W W GOp.mul).length = 2 ^ (2 * b) := by
    rw [length_operate_w, hW, two_mul, pow_add]
  have hGA : (operate_w W W GOp.add).length = 2 ^ (2 * b) := by
    rw [length_operate_w, hW, two_mul, pow_add]
  have hR : (gkrSc M claim nm na W ts).2.1 =
      (sc_prover_rounds M (2 * b)
        [[nm, operate_w W W GOp.mul], [na, operate_w W W GOp.add]] ts).2.1 := by
    show (generate_proof_for_partial_verify M claim (gkr_f_b_c nm na W) ts).2.1 = _
    rw [show gkr_f_b_c nm na W =
      [[nm, operate_w W W GOp.mul], [na, operate_w W W GOp.add]] from rfl]
    unfold generate_proof_for_partial_verify
    rw [sp_num_vars_pair nm (operate_w W W GOp.mul) na (operate_w W W GOp.add)
      (2 * b) hnm]
  rw [hR]
  exact sc_rounds_chs_len M h2 (2 * b) nm (operate_w W W GOp.mul) na
    (operate_w W W GOp.add) ts hnm hGM hna hGA

theorem getq_cons_one {α : Type} (x : α) (l : List α) :
    (x :: l).get? 1 = l.get? 0 := rfl

/-- Head of the `(W(rb), W(rc))` pair list a non-output prover layer
emits. -/
theorem gkr_prover_loop_pairs_head (M : FS F) (layers : Circuit)
    (evals : List (List F)) (fuel kk : Nat) (rv : List (Option F))
    (running : List F) (ts : TS) :
    ((gkr_prover_loop M layers evals (fuel + 1) (kk + 1) rv running ts).1).get? 0 =
      some (pU running rv, pV running rv) := rfl

set_option maxHeartbeats 1000000 in
/-- Simulation of the GKR verifier's layer loop from layer `li ≥ 1` on:
if the proof's sum-check and `W`-pair lists from `li` on are the honest
prover's, every remaining layer check passes. -/
theorem gkr_loop_sim (M : FS F) (h2 : (2 : F) ≠ 0) (layers : Circuit)
    (inputs : List F)
    (Hpad : ∀ li, li < layers.length →
      (get_w_i (li + 1) (evaluate_at_input layers inputs)).length =
        2 ^ sel_in_bits (layers.getD (layers.length - li - 1) [])) :
    ∀ (fuel li : Nat) (ch : List F) (b : Nat) (tsp : TS) (P : GKRProof F),
      fuel + li = layers.length → 1 ≤ li → ch.length = 2 * b →
      (get_w_i li (evaluate_at_input layers inputs)).length = 2 ^ b →
      P.sumcheck_proofs.drop li =
        (gkr_prover_loop M layers (evaluate_at_input layers inputs) fuel li
          (ch.map some) (get_w_i li (evaluate_at_input layers inputs)) tsp).2.1 →
      P.w_polys_evals.drop (li - 1) =
        (gkr_prover_loop M layers (evaluate_at_input layers inputs) fuel li
          (ch.map some) (get_w_i li (evaluate_at_input layers inputs)) tsp).1 →
      gkr_verify_loop M layers inputs P fuel li (ch.map some)
        (pTs1 M (get_w_i li (evaluate_at_input layers inputs))
          (ch.map some) tsp) = some true := by
  intro fuel
  induction fuel with
  | zero =>
    intro li ch b tsp P _ _ _ _ _ _
    rfl
  | succ f ih =>
    intro li ch b tsp P hfl hli1 hch hWl hsc hw
    obtain ⟨kk, rfl⟩ : ∃ kk, li = kk + 1 := ⟨li - 1, by omega⟩
    have hliL : kk + 1 < layers.length := by omega
    have hstep := get_w_i_step layers inputs (kk + 1) hliL
    have hW2 := Hpad (kk + 1) hliL
    rw [show kk + 1 + 1 = kk + 2 from rfl] at hstep hW2
    rw [gkr_verify_loop_succ_succ]
    rw [gkr_prover_loop_succ_eq] at hsc hw
    simp only [Nat.add_sub_cancel] at hw
    set E := evaluate_at_input layers inputs with hE
    set W1 := get_w_i (kk + 1) E with hW1d
    set W2 := get_w_i (kk + 2) E with hW2d
    set tsv := pTs1 M W1 (ch.map some) tsp with htsvd
    set gates := layers.getD (layers.length - (kk + 1) - 1) [] with hgatesd
    set vab := vPair M layers (kk + 1) (ch.map some) tsv with hvabd
    set tsw := vTs2 M tsv with htswd
    have htb : (ch.take b).length = b := by
      rw [List.length_take, hch]
      omega
    have hdb : (ch.drop b).length = b := by
      rw [List.length_drop, hch]
      omega
    have hdiv : (2 : Nat) * b / 2 = b := by omega
    have hab : sel_out_len gates = 2 ^ b := by
      rw [sel_out_len_eq, ← length_layer_eval gates W2, ← hstep]
      exact hWl
    have hmlen : (selTable (F := F) gates GOp.mul).length =
        2 ^ (b + 2 * sel_in_bits gates) := by
      rw [length_selTable, hab, pow_add]
    have halen : (selTable (F := F) gates GOp.add).length =
        2 ^ (b + 2 * sel_in_bits gates) := by
      rw [length_selTable, hab, pow_add]
    have hclen : ∀ (cond : GOp) (r : List F), r.length = b →
        (chainP (selTable (F := F) gates cond) r).length =
          2 ^ (2 * sel_in_bits gates) := by
      intro cond r hr
      rw [length_chainP, length_selTable, hab, hr]
      exact Nat.mul_div_cancel_left _ (Nat.two_pow_pos b)
    have hvp : vab =
        (ml_add (ml_scalar_mul (chainP (selTable gates GOp.mul) (ch.take b))
            (vAlpha M tsv))
          (ml_scalar_mul (chainP (selTable gates GOp.mul) (ch.drop b))
            (vBeta M tsv)),
        ml_add (ml_scalar_mul (chainP (selTable gates GOp.add) (ch.take b))
            (vAlpha M tsv))
          (ml_scalar_mul (chainP (selTable gates GOp.add) (ch.drop b))
            (vBeta M tsv))) := by
      rw [hvabd]
      unfold vPair
      rw [List.length_map, hch, hdiv, ← List.map_take, ← List.map_drop]
      rw [get_gate_poly_eq layers (kk + 1) GOp.mul,
        get_gate_poly_eq layers (kk + 1) GOp.add, ← hgatesd]
      exact get_folded_polys_eq (vAlpha M tsv) (vBeta M tsv)
        (selTable gates GOp.mul) (selTable gates GOp.add)
        (ch.take b) (ch.drop b) (b + 2 * sel_in_bits gates) hmlen halen
        (by rw [htb]; omega) (by rw [hdb]; omega)
    have hnm : vab.1.length = 2 ^ (2 * sel_in_bits gates) := by
      rw [hvp]
      rw [length_ml_add _ _ (by
        rw [length_ml_scalar_mul, length_ml_scalar_mul,
          hclen GOp.mul (ch.take b) htb, hclen GOp.mul (ch.drop b) hdb]),
        length_ml_scalar_mul, hclen GOp.mul (ch.take b) htb]
    have hna : vab.2.length = 2 ^ (2 * sel_in_bits gates) := by
      rw [hvp]
      rw [length_ml_add _ _ (by
        rw [length_ml_scalar_mul, length_ml_scalar_mul,
          hclen GOp.add (ch.take b) htb, hclen GOp.add (ch.drop b) hdb]),
        length_ml_scalar_mul, hclen GOp.add (ch.take b) htb]
    have hclaim : pClaim M W1 (ch.map some) tsp =
        prodSum vab.1 (operate_w W2 W2 GOp.mul) +
          prodSum vab.2 (operate_w W2 W2 GOp.add) := by
      rw [hvp]
      unfold pClaim
      rw [← htsvd]
      rw [pU_eval W1 b ch hWl hch, pV_eval W1 b ch hWl hch]
      rw [hstep]
      rw [gkr_folded_claim gates W2 (ch.take b) (ch.drop b)
        (vAlpha M tsv) (vBeta M tsv) hW2
        (by rw [htb]; exact hab.symm) (by rw [hdb]; exact hab.symm)]
    have hpsc : pSc M layers E (kk + 1) (ch.map some) W1 tsp =
        gkrSc M (pClaim M W1 (ch.map some) tsp) vab.1 vab.2 W2 tsw := by
      rw [hvabd, htswd, htsvd, hW2d, hW1d, hE]
      rfl
    rw [hpsc] at hsc hw
    have hchsl : (gkrSc M (pClaim M W1 (ch.map some) tsp) vab.1 vab.2 W2
        tsw).2.1.length = 2 * sel_in_bits gates :=
      gkrSc_chs_length M h2 _ _ _ _ _ _ hW2 hnm hna
    have hscp : P.sumcheck_proofs.get? (kk + 1) =
        some (gkrSc M (pClaim M W1 (ch.map some) tsp) vab.1 vab.2 W2 tsw).1 := by
      rw [← Nat.add_zero (kk + 1), ← get?_eq_drop_get?, hsc]
      rfl
    have hwpx : if (kk + 1) + 1 = layers.length then inputs = W2
        else P.w_polys_evals.get? (kk + 1) =
          some (evalChain W2 ((gkrSc M (pClaim M W1 (ch.map some) tsp)
              vab.1 vab.2 W2 tsw).2.1.take (sel_in_bits gates)),
            evalChain W2 ((gkrSc M (pClaim M W1 (ch.map some) tsp)
              vab.1 vab.2 W2 tsw).2.1.drop (sel_in_bits gates))) := by
      by_cases hL2 : (kk + 1) + 1 = layers.length
      · rw [if_pos hL2]
        rw [hW2d, show kk + 2 = layers.length from by omega, hE]
        exact (get_w_i_last layers inputs).symm
      · rw [if_neg hL2]
        obtain ⟨f2, rfl⟩ : ∃ f2, f = f2 + 1 := ⟨f - 1, by omega⟩
        rw [← get?_eq_drop_get? P.w_polys_evals kk 1, hw, getq_cons_one]
        rw [show kk + 2 = (kk + 1) + 1 from rfl]
        rw [gkr_prover_loop_pairs_head]
        rw [pU_eval W2 (sel_in_bits gates) _ hW2 hchsl,
          pV_eval W2 (sel_in_bits gates) _ hW2 hchsl]
    rw [gkr_check_rest_eq_core M layers inputs P (kk + 1) vab.1 vab.2 tsw
      (gkr_verify_loop M layers inputs P f (kk + 2)) _ hscp]
    rw [gkr_check_core_sim M h2 layers inputs P (kk + 1) W2 vab.1 vab.2
      (pClaim M W1 (ch.map some) tsp) (sel_in_bits gates) tsw
      (gkr_verify_loop M layers inputs P f (kk + 2)) hW2 hnm hna hclaim hwpx]
    rw [← pTs1_eval M W2 (sel_in_bits gates) _ _ hW2 hchsl]
    have hsc2 : P.sumcheck_proofs.drop (kk + 2) =
        (gkr_prover_loop M layers E f (kk + 2)
          ((gkrSc M (pClaim M W1 (ch.map some) tsp) vab.1 vab.2 W2
            tsw).2.1.map some) W2
          (gkrSc M (pClaim M W1 (ch.map some) tsp) vab.1 vab.2 W2
            tsw).2.2).2.1 := by
      have := congrArg List.tail hsc
      rw [List.tail_drop] at this
      exact this
    have hw2e : P.w_polys_evals.drop (kk + 2 - 1) =
        (gkr_prover_loop M layers E f (kk + 2)
          ((gkrSc M (pClaim M W1 (ch.map some) tsp) vab.1 vab.2 W2
            tsw).2.1.map some) W2
          (gkrSc M (pClaim M W1 (ch.map some) tsp) vab.1 vab.2 W2
            tsw).2.2).1 := by
      have := congrArg List.tail hw
      rw [List.tail_drop] at this
      rw [show kk + 2 - 1 = kk + 1 from rfl]
      exact this
    exact ih (kk + 2)
      (gkrSc M (pClaim M W1 (ch.map some) tsp) vab.1 vab.2 W2 tsw).2.1
      (sel_in_bits gates)
      (gkrSc M (pClaim M W1 (ch.map some) tsp) vab.1 vab.2 W2 tsw).2.2 P
      (by omega) (by omega) hchsl hW2 hsc2 hw2e

theorem gkr_verify_proof_eq (M : FS F) (inputs : List F) (layers : Circuit)
    (ts : TS) (P : GKRProof F) :
    gkr_verify_proof M inputs layers ts P =
      gkr_verify_loop M layers inputs P layers.length 0
        ((sample_n_challenges M (numVars P.output_poly)
          (ts_append ts (mlToBytes M P.output_poly))).1.map some)
        (sample_n_challenges M (numVars P.output_poly)
          (ts_append ts (mlToBytes M P.output_poly))).2 := rfl

theorem gkr_prover_loop_zero_proofs (M : FS F) (layers : Circuit)
    (evals : List (List F)) (fuel : Nat) (rv : List (Option F))
    (running : List F) (ts : TS) :
    (gkr_prover_loop M layers evals (fuel + 1) 0 rv running ts).2.1 =
      (p0Sc M layers evals rv running ts).1 ::
        (gkr_prover_loop M layers evals fuel 1
          ((p0Sc M layers evals rv running ts).2.1.map some)
          (get_w_i 1 evals) (p0Sc M layers evals rv running ts).2.2).2.1 := rfl

theorem gkr_prover_loop_zero_pairs (M : FS F) (layers : Circuit)
    (evals : List (List F)) (fuel : Nat) (rv : List (Option F))
    (running : List F) (ts : TS) :
    (gkr_prover_loop M layers evals (fuel + 1) 0 rv running ts).1 =
      (gkr_prover_loop M layers evals fuel 1
        ((p0Sc M layers evals rv running ts).2.1.map some)
        (get_w_i 1 evals) (p0Sc M layers evals rv running ts).2.2).1 := rfl

set_option maxHeartbeats 1000000 in
/-- C1: for every layered fan-in-2 circuit with at least one layer, none
of its layers empty (on an empty gate layer the source's `get_gate_poly`
panics in `.max().unwrap()`, which `sel_in_bits` does not model), whose
wire layers satisfy the padding requirement (each non-output layer table
has length `2^(input bit width)` of the layer reading it, which also
forces the input vector to a power-of-two length), generating a GKR
proof with `GKRProver::generate_proof` and checking it with
`GKRVerifier::verify_proof` on the same circuit, the same inputs and the
same initial transcript state returns `true` (in a field where `2 ≠ 0`;
`none` would be a panic, `some false` a rejection). -/
theorem c1_gkr_roundtrip (M : FS F) (h2 : (2 : F) ≠ 0) (layers : Circuit)
    (inputs : List F) (ts : TS) (hL : 1 ≤ layers.length)
    (Hne : ∀ l ∈ layers, l ≠ [])
    (Hpad : ∀ li, li < layers.length →
      (get_w_i (li + 1) (evaluate_at_input layers inputs)).length =
        2 ^ sel_in_bits (layers.getD (layers.length - li - 1) [])) :
    gkr_verify_proof M inputs layers ts
      (gkr_generate_proof M layers ts inputs).1 = some true := by
  rw [gkr_verify_proof_eq]
  rw [show (gkr_generate_proof M layers ts inputs).1.output_poly =
    get_w_i 0 (evaluate_at_input layers inputs) from rfl]
  have hps : (gkr_generate_proof M layers ts inputs).1.sumcheck_proofs =
      (gkr_prover_loop M layers (evaluate_at_input layers inputs)
        layers.length 0
        ((sample_n_challenges M
          (numVars (get_w_i 0 (evaluate_at_input layers inputs)))
          (ts_append ts (mlToBytes M
            (get_w_i 0 (evaluate_at_input layers inputs))))).1.map some)
        (get_w_i 0 (evaluate_at_input layers inputs))
        (sample_n_challenges M
          (numVars (get_w_i 0 (evaluate_at_input layers inputs)))
          (ts_append ts (mlToBytes M
            (get_w_i 0 (evaluate_at_input layers inputs))))).2).2.1 := rfl
  have hpw : (gkr_generate_proof M layers ts inputs).1.w_polys_evals =
      (gkr_prover_loop M layers (evaluate_at_input layers inputs)
        layers.length 0
        ((sample_n_challenges M
          (numVars (get_w_i 0 (evaluate_at_input layers inputs)))
          (ts_append ts (mlToBytes M
            (get_w_i 0 (evaluate_at_input layers inputs))))).1.map some)
        (get_w_i 0 (evaluate_at_input layers inputs))
        (sample_n_challenges M
          (numVars (get_w_i 0 (evaluate_at_input layers inputs)))
          (ts_append ts (mlToBytes M
            (get_w_i 0 (evaluate_at_input layers inputs))))).2).1 := rfl
  set E := evaluate_at_input layers inputs with hE
  set w0 := get_w_i 0 E with hw0d
  set ts0 := ts_append ts (mlToBytes M w0) with hts0d
  set rs := sample_n_challenges M (numVars w0) ts0 with hrsd
  have h0L : 0 < layers.length := by omega
  have hstep0 := get_w_i_step layers inputs 0 h0L
  have hW1pad := Hpad 0 h0L
  rw [show (0 : Nat) + 1 = 1 from rfl] at hstep0 hW1pad
  rw [← hE, ← hw0d] at hstep0
  set gates0 := layers.getD (layers.length - 0 - 1) [] with hgates0d
  obtain ⟨a0, hsol0⟩ := sel_out_len_pow gates0
  have hw0len : w0.length = sel_out_len gates0 := by
    rw [hstep0, length_layer_eval, ← sel_out_len_eq]
  have hw0pow : w0.length = 2 ^ a0 := hw0len.trans hsol0
  have hnv : numVars w0 = a0 := numVars_eq w0 a0 hw0pow
  have hrsl : rs.1.length = a0 := by
    rw [hrsd, sample_n_challenges_fst_length, hnv]
  obtain ⟨L2, hL2⟩ : ∃ x, layers.length = x + 1 := ⟨layers.length - 1, by omega⟩
  rw [hL2]
  rw [hL2] at hps hpw
  rw [gkr_verify_loop_succ_zero]
  rw [gkr_prover_loop_zero_proofs] at hps
  rw [gkr_prover_loop_zero_pairs] at hpw
  have hm0len : (selTable (F := F) gates0 GOp.mul).length =
      2 ^ (a0 + 2 * sel_in_bits gates0) := by
    rw [length_selTable, hsol0, pow_add]
  have ha0len : (selTable (F := F) gates0 GOp.add).length =
      2 ^ (a0 + 2 * sel_in_bits gates0) := by
    rw [length_selTable, hsol0, pow_add]
  have hclen0 : ∀ cond : GOp,
      (chainP (selTable (F := F) gates0 cond) rs.1).length =
        2 ^ (2 * sel_in_bits gates0) := by
    intro cond
    rw [length_chainP, length_selTable, hsol0, hrsl]
    exact Nat.mul_div_cancel_left _ (Nat.two_pow_pos a0)
  have hpair : get_evaluated_muli_addi_at_a
      (get_gate_poly layers 0 GOp.mul) (get_gate_poly layers 0 GOp.add)
      (rs.1.map some) =
      (chainP (selTable gates0 GOp.mul) rs.1,
        chainP (selTable gates0 GOp.add) rs.1) := by
    rw [get_gate_poly_eq layers 0 GOp.mul, get_gate_poly_eq layers 0 GOp.add,
      ← hgates0d]
    exact get_evaluated_muli_addi_at_a_eq _ _ rs.1
      (a0 + 2 * sel_in_bits gates0) hm0len ha0len (by rw [hrsl]; omega)
  have hpair1 : (get_evaluated_muli_addi_at_a
      (get_gate_poly layers 0 GOp.mul) (get_gate_poly layers 0 GOp.add)
      (rs.1.map some)).1 = chainP (selTable gates0 GOp.mul) rs.1 := by
    rw [hpair]
  have hpair2 : (get_evaluated_muli_addi_at_a
      (get_gate_poly layers 0 GOp.mul) (get_gate_poly layers 0 GOp.add)
      (rs.1.map some)).2 = chainP (selTable gates0 GOp.add) rs.1 := by
    rw [hpair]
  rw [hpair1, hpair2]
  have hp0 : p0Sc M layers E (rs.1.map some) w0 rs.2 =
      gkrSc M (((evaluate w0 (rs.1.map some)).getD []).headD 0)
        (chainP (selTable gates0 GOp.mul) rs.1)
        (chainP (selTable gates0 GOp.add) rs.1) (get_w_i 1 E) rs.2 := by
    unfold p0Sc
    rw [hpair]
  rw [hp0] at hps hpw
  have hchs0l : (gkrSc M (((evaluate w0 (rs.1.map some)).getD []).headD 0)
      (chainP (selTable gates0 GOp.mul) rs.1)
      (chainP (selTable gates0 GOp.add) rs.1) (get_w_i 1 E)
      rs.2).2.1.length = 2 * sel_in_bits gates0 :=
    gkrSc_chs_length M h2 _ _ _ _ _ _ hW1pad (hclen0 GOp.mul) (hclen0 GOp.add)
  have hscp0 : (gkr_generate_proof M layers ts inputs).1.sumcheck_proofs.get? 0 =
      some (gkrSc M (((evaluate w0 (rs.1.map some)).getD []).headD 0)
        (chainP (selTable gates0 GOp.mul) rs.1)
        (chainP (selTable gates0 GOp.add) rs.1) (get_w_i 1 E) rs.2).1 := by
    rw [hps]
    rfl
  have hclaim0 : ((evaluate w0 (rs.1.map some)).getD []).headD 0 =
      prodSum (chainP (selTable gates0 GOp.mul) rs.1)
          (operate_w (get_w_i 1 E) (get_w_i 1 E) GOp.mul) +
        prodSum (chainP (selTable gates0 GOp.add) rs.1)
          (operate_w (get_w_i 1 E) (get_w_i 1 E) GOp.add) := by
    rw [evaluate_all_some w0 a0 hw0pow rs.1 hrsl]
    rw [show ((some (chainP w0 rs.1)).getD []).headD 0 =
      evalChain w0 rs.1 from rfl]
    rw [hstep0]
    rw [← lagSum_evalChain rs.1 (layer_eval gates0 (get_w_i 1 E)) (by
      rw [length_layer_eval, ← sel_out_len_eq, hsol0, hrsl])]
    exact (gkr_layer_identity gates0 (get_w_i 1 E) rs.1 hW1pad
      (by rw [hrsl]; exact hsol0.symm)).symm
  have hwpx0 : if 0 + 1 = layers.length
      then inputs = get_w_i 1 E
      else (gkr_generate_proof M layers ts inputs).1.w_polys_evals.get? 0 =
        some (evalChain (get_w_i 1 E)
            ((gkrSc M (((evaluate w0 (rs.1.map some)).getD []).headD 0)
              (chainP (selTable gates0 GOp.mul) rs.1)
              (chainP (selTable gates0 GOp.add) rs.1) (get_w_i 1 E)
              rs.2).2.1.take (sel_in_bits gates0)),
          evalChain (get_w_i 1 E)
            ((gkrSc M (((evaluate w0 (rs.1.map some)).getD []).headD 0)
              (chainP (selTable gates0 GOp.mul) rs.1)
              (chainP (selTable gates0 GOp.add) rs.1) (get_w_i 1 E)
              rs.2).2.1.drop (sel_in_bits gates0))) := by
    by_cases hL1 : 0 + 1 = layers.length
    · rw [if_pos hL1]
      rw [show (1 : Nat) = layers.length from by omega, hE]
      exact (get_w_i_last layers inputs).symm
    · rw [if_neg hL1]
      obtain ⟨L3, rfl⟩ : ∃ x, L2 = x + 1 := ⟨L2 - 1, by omega⟩
      rw [hpw]
      rw [show (1 : Nat) = 0 + 1 from rfl]
      rw [gkr_prover_loop_pairs_head]
      rw [pU_eval (get_w_i 1 E) (sel_in_bits gates0) _ hW1pad hchs0l,
        pV_eval (get_w_i 1 E) (sel_in_bits gates0) _ hW1pad hchs0l]
  rw [gkr_check_rest_eq_core M layers inputs
    (gkr_generate_proof M layers ts inputs).1 0
    (chainP (selTable gates0 GOp.mul) rs.1)
    (chainP (selTable gates0 GOp.add) rs.1) rs.2
    (gkr_verify_loop M layers inputs
      (gkr_generate_proof M layers ts inputs).1 L2 1) _ hscp0]
  rw [gkr_check_core_sim M h2 layers inputs
    (gkr_generate_proof M layers ts inputs).1 0 (get_w_i 1 E)
    (chainP (selTable gates0 GOp.mul) rs.1)
    (chainP (selTable gates0 GOp.add) rs.1)
    (((evaluate w0 (rs.1.map some)).getD []).headD 0)
    (sel_in_bits gates0) rs.2
    (gkr_verify_loop M layers inputs
      (gkr_generate_proof M layers ts inputs).1 L2 1)
    hW1pad (hclen0 GOp.mul) (hclen0 GOp.add) hclaim0 hwpx0]
  rw [← pTs1_eval M (get_w_i 1 E) (sel_in_bits gates0) _ _ hW1pad hchs0l]
  have hsc1 : (gkr_generate_proof M layers ts inputs).1.sumcheck_proofs.drop 1 =
      (gkr_prover_loop M layers E L2 1
        ((gkrSc M (((evaluate w0 (rs.1.map some)).getD []).headD 0)
          (chainP (selTable gates0 GOp.mul) rs.1)
          (chainP (selTable gates0 GOp.add) rs.1) (get_w_i 1 E)
          rs.2).2.1.map some)
        (get_w_i 1 E)
        (gkrSc M (((evaluate w0 (rs.1.map some)).getD []).headD 0)
          (chainP (selTable gates0 GOp.mul) rs.1)
          (chainP (selTable gates0 GOp.add) rs.1) (get_w_i 1 E)
          rs.2).2.2).2.1 := by
    rw [List.drop_one, hps]
    rfl
  have hw1 : (gkr_generate_proof M layers ts inputs).1.w_polys_evals.drop (1 - 1) =
      (gkr_prover_loop M layers E L2 1
        ((gkrSc M (((evaluate w0 (rs.1.map some)).getD []).headD 0)
          (chainP (selTable gates0 GOp.mul) rs.1)
          (chainP (selTable gates0 GOp.add) rs.1) (get_w_i 1 E)
          rs.2).2.1.map some)
        (get_w_i 1 E)
        (gkrSc M (((evaluate w0 (rs.1.map some)).getD []).headD 0)
          (chainP (selTable gates0 GOp.mul) rs.1)
          (chainP (selTable gates0 GOp.add) rs.1) (get_w_i 1 E)
          rs.2).2.2).1 := by
    rw [show (1 : Nat) - 1 = 0 from rfl, List.drop_zero, hpw]
  exact gkr_loop_sim M h2 layers inputs Hpad L2 1
    (gkrSc M (((evaluate w0 (rs.1.map some)).getD []).headD 0)
      (chainP (selTable gates0 GOp.mul) rs.1)
      (chainP (selTable gates0 GOp.add) rs.1) (get_w_i 1 E) rs.2).2.1
    (sel_in_bits gates0)
    (gkrSc M (((evaluate w0 (rs.1.map some)).getD []).headD 0)
      (chainP (selTable gates0 GOp.mul) rs.1)
      (chainP (selTable gates0 GOp.add) rs.1) (get_w_i 1 E) rs.2).2.2
    (gkr_generate_proof M layers ts inputs).1
    (by omega) (by omega) hchs0l hW1pad hsc1 hw1

/-- Witness for C1 over `F5` with the concrete sponge `Mw`: the two-layer
circuit `(x0 + x1) + (x2 * x3)` on inputs `[1, 2, 3, 4]` (padded wire
layers `[3, 2] → [0]` over `F5`), proof generated and verified on fresh
transcripts. -/
theorem c1_gkr_roundtrip_witness :
    (2 : F5) ≠ 0 ∧
    gkr_verify_proof Mw [1, 2, 3, 4]
      [[⟨0, 1, GOp.add⟩, ⟨2, 3, GOp.mul⟩], [⟨0, 1, GOp.add⟩]] []
      (gkr_generate_proof Mw
        [[⟨0, 1, GOp.add⟩, ⟨2, 3, GOp.mul⟩], [⟨0, 1, GOp.add⟩]] []
        [1, 2, 3, 4]).1 = some true :=
  ⟨by decide, c1_gkr_roundtrip Mw (by decide)
    [[⟨0, 1, GOp.add⟩, ⟨2, 3, GOp.mul⟩], [⟨0, 1, GOp.add⟩]] [1, 2, 3, 4] []
    (by decide) (by decide) (by decide)⟩

end ZK
